import Mathlib

/-!
Terrain quadtree of `components/terrain/world.cpp`

A shallow embedding of the terrain world: the power-of-two rounding of the
grid extent, the construction of the quadtree, the look-up of a node by its
centre and the book-keeping of background chunk loads.

Conventions of the embedding.

* `int` values are integers; every expression the source computes in `int`
  (`origSizeX`, `1 << depth`, `size-origSizeX`) is wrapped into the 32-bit
  two's complement range by `toInt32`.
* `float` values are rationals, and the result of every `float` operation
  is rounded by the rounding function `round` of the world: `f32Round`
  (IEEE 754 binary32, round to nearest, ties to even) for the program as it
  is compiled, the identity for exact arithmetic. Infinities and NaN are not
  values of the terrain model: it covers the runs in which no `float`
  operation overflows or meets a NaN.
* A conversion from `float` to `int` truncates toward zero; it is undefined,
  `none`, when the truncated value is not an `int`.
* A pointer to a node is the path of child directions that leads to it from
  the root (`NodeId`); the null pointer and a dereference of it are `none`.
* A loop or recursion that may not terminate takes a fuel argument and
  answers `none` when the fuel runs out.
-/

namespace Terrain

/-! ## Integers -/

/-- Value of an integer after it is stored in a 32-bit two's complement `int`. -/
def toInt32 (x : ℤ) : ℤ := (x + 2 ^ 31) % 2 ^ 32 - 2 ^ 31

/-- Conversion of a `float` to `int`: the value is truncated toward zero; the
behaviour is undefined, `none`, when the truncated value is out of the range
of `int`. -/
def floatToInt (x : ℚ) : Option ℤ :=
  if -2 ^ 31 ≤ (if 0 ≤ x then ⌊x⌋ else ⌈x⌉) ∧ (if 0 ≤ x then ⌊x⌋ else ⌈x⌉) < 2 ^ 31 then
    some (if 0 ≤ x then ⌊x⌋ else ⌈x⌉)
  else none

/-! ## Single precision arithmetic -/

/-- Nearest integer to a rational, a tie going to the even neighbour. -/
def roundHalfEven (q : ℚ) : ℤ :=
  if q - ⌊q⌋ < 1 / 2 then ⌊q⌋
  else if 1 / 2 < q - ⌊q⌋ then ⌊q⌋ + 1
  else if ⌊q⌋ % 2 = 0 then ⌊q⌋
  else ⌊q⌋ + 1

/-- Number of times a natural number can be halved before it is below 2, at
most `fuel` times: the floor of its binary logarithm when `n < 2 ^ fuel`. -/
def natLog2 : ℕ → ℕ → ℕ
  | 0, _ => 0
  | fuel + 1, n => if 2 ≤ n then natLog2 fuel (n / 2) + 1 else 0

/-- Floor of the binary logarithm of the absolute value of a rational other
than zero: the exponent `e` with `2 ^ e ≤ |x| < 2 ^ (e + 1)`. -/
def floorLog2 (x : ℚ) : ℤ :=
  let e : ℤ := (natLog2 x.num.natAbs x.num.natAbs : ℤ) - (natLog2 x.den x.den : ℤ)
  if (2 : ℚ) ^ e ≤ |x| then e else e - 1

/-- The `float` (IEEE 754 binary32) that an operation with the exact result
`x` yields under round to nearest, ties to even: `x` is rounded to a multiple
of `2 ^ (e - 23)`, with `e` the binary exponent of `x`, and of `2 ^ (-149)`
in the subnormal range. The result is finite: a result beyond the largest
`float`, which the machine turns into an infinity, is not covered. -/
def f32Round (x : ℚ) : ℚ :=
  let q : ℤ := max (floorLog2 x - 23) (-149)
  (roundHalfEven (x / 2 ^ q) : ℚ) * 2 ^ q

/-! ## Vectors and boxes -/

/-- Two-dimensional vector (`Ogre::Vector2`). -/
structure Vector2 where
  x : ℚ
  y : ℚ
deriving DecidableEq

/-- Three-dimensional vector (`Ogre::Vector3`). -/
structure Vector3 where
  x : ℚ
  y : ℚ
  z : ℚ
deriving DecidableEq

/-- Sum of two vectors (`Vector2::operator+ (const Vector2&)`), each
component rounded by `round`. -/
def Vector2.add (round : ℚ → ℚ) (a b : Vector2) : Vector2 :=
  ⟨round (a.x + b.x), round (a.y + b.y)⟩

/-- Vector plus a scalar on both components (`operator+ (const Vector2&, float)`),
each component rounded by `round`. -/
def Vector2.addScalar (round : ℚ → ℚ) (a : Vector2) (s : ℚ) : Vector2 :=
  ⟨round (a.x + s), round (a.y + s)⟩

/-- Vector minus a scalar on both components (`operator- (const Vector2&, float)`),
each component rounded by `round`. -/
def Vector2.subScalar (round : ℚ → ℚ) (a : Vector2) (s : ℚ) : Vector2 :=
  ⟨round (a.x - s), round (a.y - s)⟩

/-- Axis aligned box (`Ogre::AxisAlignedBox`): the null box or a finite one. -/
inductive AxisAlignedBox where
  | null
  | finite (minimum maximum : Vector3)
deriving DecidableEq

/-- Plane the terrain is laid out on (`Terrain::Alignment`). -/
inductive Alignment where
  | Align_XY
  | Align_XZ
  | Align_YZ
deriving DecidableEq

/-- Quadrant of a child below its parent (`Terrain::ChildDirection`). -/
inductive ChildDirection where
  | NW
  | NE
  | SW
  | SE
  | Root
deriving DecidableEq

/-- Handle of a node: the directions from the root down to it. -/
abbrev NodeId := List ChildDirection

/-! ## Rounding up to a power of two -/

/-- `isPowerOfTwo`: `(x > 0) && ((x & (x - 1)) == 0)`. -/
def isPowerOfTwo (x : ℤ) : Bool :=
  decide (x > 0) && (Int.land x (x - 1) == 0)

/-- The loop `while (v) { v >>= 1; depth++; }` of `nextPowerOfTwo`; the
answer is the final `depth`, or `none` when the fuel is used up. -/
def nextPowerOfTwoLoop : ℕ → ℤ → ℕ → Option ℕ
  | 0, _, _ => none
  | fuel + 1, v, depth =>
    if v ≠ 0 then nextPowerOfTwoLoop fuel (v >>> (1 : ℕ)) (depth + 1) else some depth

/-- `nextPowerOfTwo`: `v` itself when it is a power of two, else `1 << depth`
with `depth` the number of right shifts that bring `v` to zero. A non-negative
`int` is zero after at most 31 shifts, so 32 rounds of the loop are enough for
every `v` on which the loop ends; a negative `v` stays negative under `>>` and
the loop never ends (`none`). -/
def nextPowerOfTwo (v : ℤ) : Option ℤ :=
  if isPowerOfTwo v then some v
  else (nextPowerOfTwoLoop 32 v 0).map (fun depth => toInt32 (1 * 2 ^ depth))

/-! ## Quadtree nodes

`quadtreenode.hpp` and `quadtreenode.cpp` are not among the sources; the few
members of `QuadTreeNode` that `world.cpp` uses are modelled below. -/

/-- Modelled from the spec: the attributes of a `QuadTreeNode` (section 3,
SpatialNode): direction from the parent, the node itself as a handle (the
chain of `mParent` links), size, centre, dummy flag and bounding box. A node
is created with the dummy flag cleared and the null box. -/
structure NodeData where
  mDirection : ChildDirection
  mId : NodeId
  mSize : ℚ
  mCenter : Vector2
  mIsDummy : Bool
  mBounds : AxisAlignedBox
deriving DecidableEq

/-- A node of the quadtree with its subtree: no children, or the four
children made by `createChild`, in the order `buildQuadTree` makes them. -/
inductive QuadTreeNode where
  | leaf (d : NodeData)
  | branch (d : NodeData) (sw se nw ne : QuadTreeNode)
deriving DecidableEq

/-- The attributes of the node at the top of a subtree. -/
def QuadTreeNode.data : QuadTreeNode → NodeData
  | .leaf d => d
  | .branch d _ _ _ _ => d

/-- Modelled from the spec: `QuadTreeNode::getSize`. -/
def QuadTreeNode.getSize (n : QuadTreeNode) : ℚ := n.data.mSize

/-- Modelled from the spec: `QuadTreeNode::getCenter`. -/
def QuadTreeNode.getCenter (n : QuadTreeNode) : Vector2 := n.data.mCenter

/-- Modelled from the spec: `QuadTreeNode::isDummy`. -/
def QuadTreeNode.isDummy (n : QuadTreeNode) : Bool := n.data.mIsDummy

/-- Modelled from the spec: `QuadTreeNode::hasChildren`. -/
def QuadTreeNode.hasChildren : QuadTreeNode → Bool
  | .leaf _ => false
  | .branch _ _ _ _ _ => true

/-- Modelled from the spec: `QuadTreeNode::getChild`, the child in a quadrant;
`none` is the null pointer of a node without children. -/
def QuadTreeNode.getChild : QuadTreeNode → ChildDirection → Option QuadTreeNode
  | .branch _ sw _ _ _, .SW => some sw
  | .branch _ _ se _ _, .SE => some se
  | .branch _ _ _ nw _, .NW => some nw
  | .branch _ _ _ _ ne, .NE => some ne
  | _, _ => none

/-- Modelled from the spec: `QuadTreeNode::getWorldBoundingBox`, the bounding
box stored in the node. -/
def QuadTreeNode.getWorldBoundingBox (n : QuadTreeNode) : AxisAlignedBox := n.data.mBounds

/-- Modelled from the spec: the constructor `QuadTreeNode(terrain, dir, size,
center, parent)`; `parent` is the handle of the parent (`none` for `NULL`). -/
def NodeData.new (dir : ChildDirection) (size : ℚ) (center : Vector2)
    (parent : Option NodeId) : NodeData :=
  { mDirection := dir
    mId := match parent with
      | none => []
      | some p => p ++ [dir]
    mSize := size
    mCenter := center
    mIsDummy := false
    mBounds := AxisAlignedBox.null }

/-- Modelled from the spec: `QuadTreeNode::createChild (id, size, center)`
allocates the child covering one quadrant; the result is the new child. -/
def NodeData.createChild (d : NodeData) (id : ChildDirection) (size : ℚ)
    (center : Vector2) : NodeData :=
  NodeData.new id size center (some d.mId)

/-- Modelled from the spec: `QuadTreeNode::markAsDummy` sets the dummy flag. -/
def NodeData.markAsDummy (d : NodeData) : NodeData := { d with mIsDummy := true }

/-- Modelled from the spec: `QuadTreeNode::setBoundingBox` stores the box. -/
def NodeData.setBoundingBox (d : NodeData) (box : AxisAlignedBox) : NodeData :=
  { d with mBounds := box }

/-- The subtree reached from a node by a path of child directions. -/
def QuadTreeNode.descend : QuadTreeNode → List ChildDirection → Option QuadTreeNode
  | n, [] => some n
  | n, dir :: rest =>
    match n.getChild dir with
    | none => none
    | some c => c.descend rest

/-- `findNode`: the node is returned when the centres are equal, else the
search goes on in the child of the quadrant the centre lies in. A node without
children hands out a null child, which the next call dereferences: `none`. -/
def findNode (center : Vector2) : QuadTreeNode → Option QuadTreeNode
  | .leaf d => if center = d.mCenter then some (.leaf d) else none
  | .branch d sw se nw ne =>
    if center = d.mCenter then some (.branch d sw se nw ne)
    else if center.x > d.mCenter.x ∧ center.y > d.mCenter.y then findNode center ne
    else if center.x > d.mCenter.x ∧ center.y < d.mCenter.y then findNode center se
    else if center.x < d.mCenter.x ∧ center.y > d.mCenter.y then findNode center nw
    else findNode center sw

/-! ## The terrain world -/

/-- The `Storage` collaborator, as far as `world.cpp` asks it: the grid
bounds `getBounds`, the height range of a region (`none` when
`getMinMaxHeights` answers false), the world size of a cell, and for
`getBlendmaps` the target nodes of the layer collections it fills in. The
bounds are `float`s, in cells. -/
structure Storage where
  minX : ℚ
  maxX : ℚ
  minY : ℚ
  maxY : ℚ
  getMinMaxHeights : ℚ → Vector2 → Option (ℚ × ℚ)
  getCellWorldSize : ℚ
  getBlendmaps : List NodeId → Bool → List NodeId

/-- Request kind `REQ_ID_CHUNK`. -/
def REQ_ID_CHUNK : ℕ := 1

/-- Request kind `REQ_ID_LAYERS`. -/
def REQ_ID_LAYERS : ℕ := 2

/-- Payload of a request or response (`Ogre::Any`): the node of a chunk
request, the leaf nodes and packing mode of a layers request, the buffers of a
chunk response (not modelled further) or the target nodes of the layer
collections of a layers response. -/
inductive AnyData where
  | loadRequestData (mNode : NodeId)
  | layersRequestData (mNodes : List NodeId) (mPack : Bool)
  | loadResponseData
  | layersResponseData (mTargets : List NodeId)
deriving DecidableEq

/-- A request of the work queue (`Ogre::WorkQueue::Request`). -/
structure Request where
  type : ℕ
  data : AnyData
deriving DecidableEq

/-- A response of the work queue (`Ogre::WorkQueue::Response`). -/
structure Response where
  request : Request
  succeeded : Bool
  data : AnyData
deriving DecidableEq

/-- The members of `Terrain::World` that `world.cpp` reads and writes, without
the scene and render handles. `terrainConvertPosition` is the free function
`Terrain::convertPosition` of `defs.hpp`, `mRequests` the requests added to
the `LargeTerrain` channel of the work queue with `addRequest`, in their
order, `mLoaded` and `mLayersLoaded` the nodes on which `load` and
`loadLayers` have been called (a node has its loaded flag set when it is in
`mLoaded`). The counter `mChunksLoading` is declared in `world.hpp`; it is
taken as a whole number. `round` is not a member: it is the arithmetic of
`float` the world computes with, the `float` that an operation with a given
exact result yields. -/
structure World where
  round : ℚ → ℚ
  mStorage : Storage
  mMinBatchSize : ℚ
  mMaxBatchSize : ℚ
  mDistantLand : Bool
  mShaders : Bool
  mVisible : Bool
  mAlign : Alignment
  mMaxX : ℚ
  mMinX : ℚ
  mMaxY : ℚ
  mMinY : ℚ
  mChunksLoading : ℤ
  mLayerLoadPending : Bool
  mRootNode : Option QuadTreeNode
  terrainConvertPosition : Alignment → Vector3 → Vector3
  mRequests : List Request
  mLoaded : List NodeId
  mLayersLoaded : List NodeId

/-- `World::convertPosition`. -/
def World.convertPosition (w : World) (pos : Vector3) : Vector3 :=
  w.terrainConvertPosition w.mAlign pos

/-- `World::convertBounds`. -/
def World.convertBounds (w : World) (bounds : AxisAlignedBox) : AxisAlignedBox :=
  match bounds with
  | .null => .null
  | .finite mn mx =>
    match w.mAlign with
    | .Align_XY => .finite mn mx
    | .Align_XZ =>
      let mn1 := w.convertPosition mn
      let mx1 := w.convertPosition mx
      .finite { mn1 with z := mx1.z } { mx1 with z := mn1.z }
    | .Align_YZ => .finite (w.convertPosition mn) (w.convertPosition mx)

/-- The test of `buildQuadTree` for a square with the given centre and half
edge that lies out of the bounds of the actual terrain; the four edges are
computed in `float`. -/
def World.outOfBounds (w : World) (center : Vector2) (halfSize : ℚ) : Bool :=
  decide (w.round (center.x - halfSize) > w.mMaxX
    ∨ w.round (center.x + halfSize) < w.mMinX
    ∨ w.round (center.y - halfSize) > w.mMaxY
    ∨ w.round (center.y + halfSize) < w.mMinY)

/-- `World::buildQuadTree (node, leafs)`: `node` is a node just created,
without children; the answer is the finished subtree below it and the leaf
list with the leaves of the subtree appended. Every `float` operation of the
body (`/2.f`, the products with `cellWorldSize`, the sums and differences of
the bounds test and of the child centres) is rounded by `round`. -/
def World.buildQuadTree (w : World) :
    ℕ → NodeData → List NodeId → Option (QuadTreeNode × List NodeId)
  | 0, _, _ => none
  | fuel + 1, node, leafs =>
    let halfSize := w.round (node.mSize / 2)
    if node.mSize ≤ w.mMinBatchSize then
      let center := node.mCenter
      let cellWorldSize := w.mStorage.getCellWorldSize
      match w.mStorage.getMinMaxHeights node.mSize center with
      | some (minZ, maxZ) =>
        let bounds := w.convertBounds (.finite
          ⟨w.round (-halfSize * cellWorldSize), w.round (-halfSize * cellWorldSize), minZ⟩
          ⟨w.round (halfSize * cellWorldSize), w.round (halfSize * cellWorldSize), maxZ⟩)
        some (.leaf (node.setBoundingBox bounds), leafs ++ [node.mId])
      | none => some (.leaf node.markAsDummy, leafs)
    else if w.outOfBounds node.mCenter halfSize then
      some (.leaf node.markAsDummy, leafs)
    else
      let sw := node.createChild .SW halfSize
        (node.mCenter.subScalar w.round (w.round (halfSize / 2)))
      let se := node.createChild .SE halfSize
        (node.mCenter.add w.round ⟨w.round (halfSize / 2), w.round (-halfSize / 2)⟩)
      let nw := node.createChild .NW halfSize
        (node.mCenter.add w.round ⟨w.round (-halfSize / 2), w.round (halfSize / 2)⟩)
      let ne := node.createChild .NE halfSize
        (node.mCenter.addScalar w.round (w.round (halfSize / 2)))
      match w.buildQuadTree fuel sw leafs with
      | none => none
      | some (swT, leafs1) =>
        match w.buildQuadTree fuel se leafs1 with
        | none => none
        | some (seT, leafs2) =>
          match w.buildQuadTree fuel nw leafs2 with
          | none => none
          | some (nwT, leafs3) =>
            match w.buildQuadTree fuel ne leafs3 with
            | none => none
            | some (neT, leafs4) =>
              if nwT.isDummy && neT.isDummy && swT.isDummy && seT.isDummy then
                some (.branch node.markAsDummy swT seT nwT neT, leafs4)
              else
                some (.branch node swT seT nwT neT, leafs4)

/-- The extent `int origSize = max - min` of the constructor along one axis:
the `float` difference, converted to `int`. -/
def origSize (round : ℚ → ℚ) (lo hi : ℚ) : Option ℤ :=
  floatToInt (round (hi - lo))

/-- The size of the root node in the constructor: `origSizeX`, `origSizeY`
and `nextPowerOfTwo (std::max (origSizeX, origSizeY))`. -/
def rootSize (round : ℚ → ℚ) (storage : Storage) : Option ℤ :=
  match origSize round storage.minX storage.maxX with
  | none => none
  | some origSizeX =>
    match origSize round storage.minY storage.maxY with
    | none => none
    | some origSizeY => nextPowerOfTwo (max origSizeX origSizeY)

/-- One coordinate of the centre of the root node in the constructor,
`(min+max)/2.f + (size-origSize)/2.f`: a `float` sum halved, the `int`
difference converted to `float` and halved, and the `float` sum of the two. -/
def rootCenterCoord (round : ℚ → ℚ) (lo hi : ℚ) (origSize size : ℤ) : ℚ :=
  round (round (round (lo + hi) / 2) + round (round (toInt32 (size - origSize) : ℚ) / 2))

/-- The centre of the root node in the constructor, for the rounded `size`. -/
def rootCenter (round : ℚ → ℚ) (storage : Storage) (origSizeX origSizeY size : ℤ) : Vector2 :=
  ⟨rootCenterCoord round storage.minX storage.maxX origSizeX size,
    rootCenterCoord round storage.minY storage.maxY origSizeY size⟩

/-- The root node `new QuadTreeNode (this, Root, size, Vector2 (centerX,
centerY), NULL)` of the constructor, before it is subdivided; the `int` size
is converted to the `float` size of the node. -/
def rootNode (round : ℚ → ℚ) (storage : Storage) : Option NodeData :=
  match origSize round storage.minX storage.maxX with
  | none => none
  | some origSizeX =>
    match origSize round storage.minY storage.maxY with
    | none => none
    | some origSizeY =>
      match nextPowerOfTwo (max origSizeX origSizeY) with
      | none => none
      | some size =>
        some (NodeData.new .Root (round (size : ℚ))
          (rootCenter round storage origSizeX origSizeY size) none)

/-- The member initialisers of the constructor `World::World` and the bounds
it reads with `storage->getBounds`: the world before the quadtree is built,
computing with the `float` arithmetic `round`. -/
def World.init (round : ℚ → ℚ) (storage : Storage) (distantLand shaders : Bool)
    (align : Alignment) (minBatchSize maxBatchSize : ℚ)
    (terrainConvertPosition : Alignment → Vector3 → Vector3) : World :=
  { round := round
    mStorage := storage
    mMinBatchSize := minBatchSize
    mMaxBatchSize := maxBatchSize
    mDistantLand := distantLand
    mShaders := shaders
    mVisible := true
    mAlign := align
    mMaxX := storage.maxX
    mMinX := storage.minX
    mMaxY := storage.maxY
    mMinY := storage.minY
    mChunksLoading := 0
    mLayerLoadPending := true
    mRootNode := none
    terrainConvertPosition := terrainConvertPosition
    mRequests := []
    mLoaded := []
    mLayersLoaded := [] }

/-- The constructor `World::World`: bounds from the storage, the root node,
the quadtree below it, and the one layers request for the leaves collected on
the way. `initAabb` and `initNeighbours` belong to `quadtreenode.cpp` and are
left out; they fill in the boxes of inner nodes and the neighbour links. The
program as compiled is `World.new f32Round`. -/
def World.new (round : ℚ → ℚ) (fuel : ℕ) (storage : Storage) (distantLand shaders : Bool)
    (align : Alignment) (minBatchSize maxBatchSize : ℚ)
    (terrainConvertPosition : Alignment → Vector3 → Vector3) : Option World :=
  let w0 := World.init round storage distantLand shaders align minBatchSize maxBatchSize
    terrainConvertPosition
  match rootNode round storage with
  | none => none
  | some root =>
    match w0.buildQuadTree fuel root [] with
    | none => none
    | some (tree, leafs) =>
      some { w0 with
        mRootNode := some tree
        mRequests := [⟨REQ_ID_LAYERS, .layersRequestData leafs shaders⟩] }

/-- `World::getWorldBoundingBox`: the null box for a centre out of the grid
bounds, else the box of the node `findNode` finds from the root; `none` when
the search dereferences a null pointer. -/
def World.getWorldBoundingBox (w : World) (center : Vector2) : Option AxisAlignedBox :=
  if center.x > w.mMaxX ∨ center.x < w.mMinX ∨ center.y > w.mMaxY ∨ center.y < w.mMinY then
    some AxisAlignedBox.null
  else
    match w.mRootNode with
    | none => none
    | some root =>
      match findNode center root with
      | none => none
      | some node => some node.getWorldBoundingBox

/-- `World::handleRequest`, run by a worker: a chunk request is answered
with the vertex buffers of its node (their content is not modelled), a layers
request with the layer collections of its leaves. Every response reports
success. A payload of the wrong kind makes `any_cast` throw: `none`. -/
def World.handleRequest (w : World) (req : Request) : Option Response :=
  if req.type = REQ_ID_CHUNK then
    match req.data with
    | .loadRequestData _ => some ⟨req, true, .loadResponseData⟩
    | _ => none
  else
    match req.data with
    | .layersRequestData mNodes mPack =>
      some ⟨req, true, .layersResponseData (w.mStorage.getBlendmaps mNodes mPack)⟩
    | _ => none

/-- `World::handleResponse`, run on the main thread: a chunk response loads
the node named in its request and decrements `mChunksLoading`; a layers
response loads the layers of the target nodes and clears `mLayerLoadPending`.
`none` stands for the failed assertion on `res->succeeded ()` and for a
payload of the wrong kind. -/
def World.handleResponse (w : World) (res : Response) : Option World :=
  if res.succeeded = false then none
  else if res.request.type = REQ_ID_CHUNK then
    match res.data, res.request.data with
    | .loadResponseData, .loadRequestData mNode =>
      some { w with
        mLoaded := w.mLoaded ++ [mNode]
        mChunksLoading := w.mChunksLoading - 1 }
    | _, _ => none
  else
    match res.data with
    | .layersResponseData mTargets =>
      some { w with
        mLayersLoaded := w.mLayersLoaded ++ mTargets
        mLayerLoadPending := false }
    | _ => none

/-- `World::queueLoad`: a chunk request for the node is added to the work
queue and `mChunksLoading` is incremented. -/
def World.queueLoad (w : World) (node : NodeId) : World :=
  { w with
    mRequests := w.mRequests ++ [⟨REQ_ID_CHUNK, .loadRequestData node⟩]
    mChunksLoading := w.mChunksLoading + 1 }

/-! ## Definitions used to state the properties -/

/-- A storage with the given bounds that has the height range `0..0` for
every region and cells of world size one. -/
def flatStorage (minX maxX minY maxY : ℚ) : Storage :=
  { minX := minX, maxX := maxX, minY := minY, maxY := maxY
    getMinMaxHeights := fun _ _ => some (0, 0)
    getCellWorldSize := 1
    getBlendmaps := fun nodes _ => nodes }

/-- A storage with the given bounds that has no height data for any region. -/
def emptyStorage (minX maxX minY maxY : ℚ) : Storage :=
  { minX := minX, maxX := maxX, minY := minY, maxY := maxY
    getMinMaxHeights := fun _ _ => none
    getCellWorldSize := 1
    getBlendmaps := fun nodes _ => nodes }

/-- A world without any height data before its tree is built: bounds
(0,0)-(2,2), minimum batch size 1, single precision arithmetic. -/
def hollowWorld : World :=
  World.init f32Round (emptyStorage 0 2 0 2) false false .Align_XY 1 64 (fun _ v => v)

/-- The root node of the world without height data: size 2, centre (1,1). -/
def hollowRoot : NodeData := NodeData.new .Root 2 ⟨1, 1⟩ none

/-- The tree of the world without height data, as `buildQuadTree` leaves it. -/
def hollowTree : QuadTreeNode :=
  match hollowWorld.buildQuadTree 2 hollowRoot [] with
  | some (t, _) => t
  | none => .leaf hollowRoot

/-- The world of the end-to-end example before its tree is built: bounds
(0,0)-(100,60), minimum batch size 16, height data everywhere, single
precision arithmetic. -/
def exampleWorld : World :=
  World.init f32Round (flatStorage 0 100 0 60) false false .Align_XY 16 64 (fun _ v => v)

/-- The root node of the example: size 128, centre (64,64). -/
def exampleRoot : NodeData := NodeData.new .Root 128 ⟨64, 64⟩ none

/-- The tree of the example, as `buildQuadTree` leaves it. -/
def exampleTree : QuadTreeNode :=
  match exampleWorld.buildQuadTree 4 exampleRoot [] with
  | some (t, _) => t
  | none => .leaf exampleRoot

/-- The leaf list of the example, as `buildQuadTree` leaves it. -/
def exampleLeafs : List NodeId :=
  match exampleWorld.buildQuadTree 4 exampleRoot [] with
  | some (_, l) => l
  | none => []

/-- The world of the example after the constructor has run. -/
def exampleBuiltWorld : World :=
  { exampleWorld with
    mRootNode := some exampleTree
    mRequests := [⟨REQ_ID_LAYERS, .layersRequestData exampleLeafs false⟩] }

/-- The leaf of the example tree reached by SW, SW, SW: size 16, centre (8,8). -/
def exampleLeaf : QuadTreeNode :=
  match exampleTree.descend [.SW, .SW, .SW] with
  | some n => n
  | none => exampleTree

/-- The inner node of the example tree reached by SW, SW: size 32, centre (16,16). -/
def exampleInner : QuadTreeNode :=
  match exampleTree.descend [.SW, .SW] with
  | some n => n
  | none => exampleTree

/-- The square of a node, `center ± size/2` on both axes, contains the
rectangle of the grid bounds. -/
def NodeData.containsBounds (d : NodeData) (minX maxX minY maxY : ℚ) : Prop :=
  d.mCenter.x - d.mSize / 2 ≤ minX ∧ maxX ≤ d.mCenter.x + d.mSize / 2
    ∧ d.mCenter.y - d.mSize / 2 ≤ minY ∧ maxY ≤ d.mCenter.y + d.mSize / 2

instance (d : NodeData) (minX maxX minY maxY : ℚ) :
    Decidable (d.containsBounds minX maxX minY maxY) := by
  unfold NodeData.containsBounds; infer_instance


/-- The square of a node, `center ± size/2` on both axes, lies entirely
outside the rectangle of the grid bounds: beyond one of its four edges. -/
def NodeData.outsideBounds (d : NodeData) (minX maxX minY maxY : ℚ) : Prop :=
  d.mCenter.x - d.mSize / 2 > maxX ∨ d.mCenter.x + d.mSize / 2 < minX
    ∨ d.mCenter.y - d.mSize / 2 > maxY ∨ d.mCenter.y + d.mSize / 2 < minY

instance (d : NodeData) (minX maxX minY maxY : ℚ) :
    Decidable (d.outsideBounds minX maxX minY maxY) := by
  unfold NodeData.outsideBounds; infer_instance

/-- Sign of the x offset of a child's centre from its parent's centre. -/
def ChildDirection.signX : ChildDirection → ℚ
  | .SW => -1
  | .SE => 1
  | .NW => -1
  | .NE => 1
  | .Root => 0

/-- Sign of the y offset of a child's centre from its parent's centre. -/
def ChildDirection.signY : ChildDirection → ℚ
  | .SW => -1
  | .SE => -1
  | .NW => 1
  | .NE => 1
  | .Root => 0

/-- The point `p` lies in the closed square `center ± size/2` of the node. -/
def NodeData.covers (d : NodeData) (p : Vector2) : Prop :=
  d.mCenter.x - d.mSize / 2 ≤ p.x ∧ p.x ≤ d.mCenter.x + d.mSize / 2
    ∧ d.mCenter.y - d.mSize / 2 ≤ p.y ∧ p.y ≤ d.mCenter.y + d.mSize / 2

/-- The point `p` lies in the open square of the node. -/
def NodeData.coversInside (d : NodeData) (p : Vector2) : Prop :=
  d.mCenter.x - d.mSize / 2 < p.x ∧ p.x < d.mCenter.x + d.mSize / 2
    ∧ d.mCenter.y - d.mSize / 2 < p.y ∧ p.y < d.mCenter.y + d.mSize / 2

/-- The node has four children and all four are dummy. -/
def QuadTreeNode.allChildrenDummy : QuadTreeNode → Bool
  | .leaf _ => false
  | .branch _ sw se nw ne => sw.isDummy && se.isDummy && nw.isDummy && ne.isDummy

/-- The centre that `buildQuadTree` computes for the child of a node in a
quadrant: the centre of the node moved by the rounded quarter of its size,
each coordinate rounded. -/
def World.childCenter (w : World) (node : NodeData) : ChildDirection → Vector2
  | .SW => node.mCenter.subScalar w.round (w.round (w.round (node.mSize / 2) / 2))
  | .SE => node.mCenter.add w.round
      ⟨w.round (w.round (node.mSize / 2) / 2), w.round (-w.round (node.mSize / 2) / 2)⟩
  | .NW => node.mCenter.add w.round
      ⟨w.round (-w.round (node.mSize / 2) / 2), w.round (w.round (node.mSize / 2) / 2)⟩
  | .NE => node.mCenter.addScalar w.round (w.round (w.round (node.mSize / 2) / 2))
  | .Root => node.mCenter

/-- The rounding function leaves every half of a whole number of at most 24
bits as it is. Single precision rounding and exact arithmetic both do. -/
def ExactOnHalves (round : ℚ → ℚ) : Prop :=
  ∀ m : ℤ, |m| ≤ 2 ^ 24 → round ((m : ℚ) / 2) = (m : ℚ) / 2

/-- The node has the size `2 ^ k` and the centre `(m/2, n/2)`, and the edges
of its square fit into 24 bits at the scale of a half: `|m| + 2 ^ k` and
`|n| + 2 ^ k` are at most `2 ^ 24`. -/
def NodeData.onGrid (d : NodeData) (k : ℕ) (m n : ℤ) : Prop :=
  d.mSize = 2 ^ k ∧ d.mCenter = ⟨(m : ℚ) / 2, (n : ℚ) / 2⟩
    ∧ |m| + 2 ^ k ≤ 2 ^ 24 ∧ |n| + 2 ^ k ≤ 2 ^ 24

/-- The arithmetic halves the powers of two from `2^1` to `2^k` exactly.
Single precision does, and so does exact arithmetic. -/
def HalvesPowers (round : ℚ → ℚ) (k : ℕ) : Prop :=
  ∀ j : ℕ, j < k → round ((2 : ℚ) ^ (j + 1) / 2) = 2 ^ j

/-- The run of `buildQuadTree` as a relation: `Built w node leafs t leafs'`
holds when the call on the fresh node `node` with the leaf list `leafs` ends
with the subtree `t` and the leaf list `leafs'`. One rule per way through the
body of the function. -/
inductive Built (w : World) : NodeData → List NodeId → QuadTreeNode → List NodeId → Prop
  | leafData (node : NodeData) (leafs : List NodeId) (minZ maxZ : ℚ)
      (hsize : node.mSize ≤ w.mMinBatchSize)
      (hdata : w.mStorage.getMinMaxHeights node.mSize node.mCenter = some (minZ, maxZ)) :
      Built w node leafs
        (.leaf (node.setBoundingBox (w.convertBounds (.finite
          ⟨w.round (-w.round (node.mSize / 2) * w.mStorage.getCellWorldSize),
            w.round (-w.round (node.mSize / 2) * w.mStorage.getCellWorldSize), minZ⟩
          ⟨w.round (w.round (node.mSize / 2) * w.mStorage.getCellWorldSize),
            w.round (w.round (node.mSize / 2) * w.mStorage.getCellWorldSize), maxZ⟩))))
        (leafs ++ [node.mId])
  | leafNoData (node : NodeData) (leafs : List NodeId)
      (hsize : node.mSize ≤ w.mMinBatchSize)
      (hdata : w.mStorage.getMinMaxHeights node.mSize node.mCenter = none) :
      Built w node leafs (.leaf node.markAsDummy) leafs
  | outside (node : NodeData) (leafs : List NodeId)
      (hsize : ¬ node.mSize ≤ w.mMinBatchSize)
      (hout : w.outOfBounds node.mCenter (w.round (node.mSize / 2)) = true) :
      Built w node leafs (.leaf node.markAsDummy) leafs
  | subdivide (node : NodeData) (leafs leafs1 leafs2 leafs3 leafs4 : List NodeId)
      (swT seT nwT neT : QuadTreeNode)
      (hsize : ¬ node.mSize ≤ w.mMinBatchSize)
      (hout : w.outOfBounds node.mCenter (w.round (node.mSize / 2)) = false)
      (hsw : Built w (node.createChild .SW (w.round (node.mSize / 2))
        (w.childCenter node .SW)) leafs swT leafs1)
      (hse : Built w (node.createChild .SE (w.round (node.mSize / 2))
        (w.childCenter node .SE)) leafs1 seT leafs2)
      (hnw : Built w (node.createChild .NW (w.round (node.mSize / 2))
        (w.childCenter node .NW)) leafs2 nwT leafs3)
      (hne : Built w (node.createChild .NE (w.round (node.mSize / 2))
        (w.childCenter node .NE)) leafs3 neT leafs4) :
      Built w node leafs
        (.branch (if nwT.isDummy && neT.isDummy && swT.isDummy && seT.isDummy
          then node.markAsDummy else node) swT seT nwT neT)
        leafs4

/-- The paths from a node down to the leaves of its subtree that are not
dummy, in the order in which `buildQuadTree` visits them. -/
def QuadTreeNode.leafPaths : QuadTreeNode → List (List ChildDirection)
  | .leaf d => if d.mIsDummy then [] else [[]]
  | .branch _ sw se nw ne =>
    sw.leafPaths.map (fun p => ChildDirection.SW :: p)
      ++ (se.leafPaths.map (fun p => ChildDirection.SE :: p)
      ++ (nw.leafPaths.map (fun p => ChildDirection.NW :: p)
      ++ ne.leafPaths.map (fun p => ChildDirection.NE :: p)))

/-- The leaf-size nodes that `buildQuadTree` comes to below a fresh node, in
the order of its visits. They depend on the arithmetic, the minimum batch size
and the grid bounds only, not on the storage: the recursion of `buildQuadTree`
without the questions to the storage. -/
def reachedCells (round : ℚ → ℚ) (minBatchSize : ℚ) (minX maxX minY maxY : ℚ) :
    ℕ → NodeData → Option (List NodeData)
  | 0, _ => none
  | fuel + 1, node =>
    let halfSize := round (node.mSize / 2)
    if node.mSize ≤ minBatchSize then some [node]
    else if round (node.mCenter.x - halfSize) > maxX
        ∨ round (node.mCenter.x + halfSize) < minX
        ∨ round (node.mCenter.y - halfSize) > maxY
        ∨ round (node.mCenter.y + halfSize) < minY then some []
    else
      match reachedCells round minBatchSize minX maxX minY maxY fuel
          (node.createChild .SW halfSize
            (node.mCenter.subScalar round (round (halfSize / 2)))),
        reachedCells round minBatchSize minX maxX minY maxY fuel
          (node.createChild .SE halfSize
            (node.mCenter.add round ⟨round (halfSize / 2), round (-halfSize / 2)⟩)),
        reachedCells round minBatchSize minX maxX minY maxY fuel
          (node.createChild .NW halfSize
            (node.mCenter.add round ⟨round (-halfSize / 2), round (halfSize / 2)⟩)),
        reachedCells round minBatchSize minX maxX minY maxY fuel
          (node.createChild .NE halfSize
            (node.mCenter.addScalar round (round (halfSize / 2)))) with
      | some a, some b, some c, some d => some (a ++ b ++ c ++ d)
      | _, _, _, _ => none

/-- The centres of the 16-unit cells of the strip `[0,128] × [0,64]`: eight
columns and four rows. -/
def stripCells : List Vector2 :=
  (List.range 8).flatMap (fun i => (List.range 4).map (fun j => ⟨16 * i + 8, 16 * j + 8⟩))

/-- The centres of the 16-unit cells of the root square `[0,128] × [0,128]`. -/
def squareCells : List Vector2 :=
  (List.range 8).flatMap (fun i => (List.range 8).map (fun j => ⟨16 * i + 8, 16 * j + 8⟩))

/-- The centres of the 16-unit cells of the root square that meet the grid
bounds (0,0)-(100,60): seven columns and four rows. -/
def boundsCells : List Vector2 :=
  squareCells.filter (fun c => decide (c.x - 8 ≤ 100 ∧ c.y - 8 ≤ 60))

/-- The leaf-size nodes that `buildQuadTree` comes to in the example. -/
def exampleReached : List NodeData :=
  match reachedCells f32Round 16 0 100 0 60 4 exampleRoot with
  | some cells => cells
  | none => []

/-- `queueLoad` called for each node of a list, in order. -/
def World.queueLoads (w : World) : List NodeId → World
  | [] => w
  | node :: rest => (w.queueLoad node).queueLoads rest

/-- `handleResponse` called for each response of a list, in order; `none`
as soon as one call fails. -/
def World.handleResponses (w : World) : List Response → Option World
  | [] => some w
  | res :: rest =>
    match w.handleResponse res with
    | none => none
    | some w1 => w1.handleResponses rest

/-- The responses that `handleRequest` gives to the chunk requests of the
nodes of a list, in the order of the list. -/
def World.chunkResponses (w : World) (order : List NodeId) : List Response :=
  order.filterMap (fun node => w.handleRequest ⟨REQ_ID_CHUNK, .loadRequestData node⟩)

/-- The call `Ogre::Root::getSingleton ().getWorkQueue ()->processResponses ()`
as this world sees it: the work queue hands each response that has come in
since the last call to `handleResponse`, in order. The responses that come in
are decided by the worker threads; they are the argument `arrived`. -/
def World.processResponses (w : World) (arrived : List Response) : Option World :=
  w.handleResponses arrived

/-- `World::syncLoad`: while chunks are loading or the layer load is pending,
yield and process responses. `arrivals` lists, call by call, the responses
that have come in when `processResponses` is called; the answer is the world
after the loop and the calls not used. `none` when a call of `handleResponse`
fails, and when the loop would still wait after the last listed call. -/
def World.syncLoad (w : World) : List (List Response) → Option (World × List (List Response))
  | [] =>
    if w.mChunksLoading ≠ 0 ∨ w.mLayerLoadPending = true then none
    else some (w, [])
  | arrived :: rest =>
    if w.mChunksLoading ≠ 0 ∨ w.mLayerLoadPending = true then
      match w.processResponses arrived with
      | none => none
      | some w1 => w1.syncLoad rest
    else some (w, arrived :: rest)

/-- The example world after the response to its layers request has been
applied: no chunk in flight, layer load not pending. -/
def exampleIdleWorld : World :=
  { exampleBuiltWorld with
    mLayersLoaded := exampleLeafs
    mLayerLoadPending := false }

/-- The point `p` lies within the grid bounds of the world, edges included. -/
def World.inBounds (w : World) (p : Vector2) : Prop :=
  w.mMinX ≤ p.x ∧ p.x ≤ w.mMaxX ∧ w.mMinY ≤ p.y ∧ p.y ≤ w.mMaxY

/-- A world with bounds (0,0)-(1,1) and minimum batch size 4, before its tree
is built; single precision arithmetic. -/
def smallWorld : World :=
  World.init f32Round (flatStorage 0 1 0 1) false false .Align_XY 4 64 (fun _ v => v)

/-- The root node of the world with bounds (0,0)-(1,1): size 1, centre
(1/2,1/2). -/
def smallRoot : NodeData := NodeData.new .Root 1 ⟨1 / 2, 1 / 2⟩ none

/-- The tree of the world with bounds (0,0)-(1,1), as `buildQuadTree` leaves it. -/
def smallTree : QuadTreeNode :=
  match smallWorld.buildQuadTree 1 smallRoot [] with
  | some (t, _) => t
  | none => .leaf smallRoot

/-- The example world with exact arithmetic and the minimum batch size 0. -/
def exactWorld : World :=
  World.init (fun x => x) (flatStorage 0 100 0 60) false false .Align_XY 0 64 (fun _ v => v)

/-- A world just above `2 ^ 24`, where the `float`s are the even numbers:
bounds (16777216,0)-(16777220,4), minimum batch size 1, height data
everywhere, single precision arithmetic; before its tree is built. -/
def coarseWorld : World :=
  World.init f32Round (flatStorage 16777216 16777220 0 4) false false .Align_XY 1 64
    (fun _ v => v)

/-- The root node of the world above `2 ^ 24`: size 4, centre (16777218,2). -/
def coarseRoot : NodeData := NodeData.new .Root 4 ⟨16777218, 2⟩ none

/-- The tree of the world above `2 ^ 24`, as `buildQuadTree` leaves it. -/
def coarseTree : QuadTreeNode :=
  match coarseWorld.buildQuadTree 3 coarseRoot [] with
  | some (t, _) => t
  | none => .leaf coarseRoot

/-- The leaf list of the world above `2 ^ 24`, as `buildQuadTree` leaves it. -/
def coarseLeafs : List NodeId :=
  match coarseWorld.buildQuadTree 3 coarseRoot [] with
  | some (_, l) => l
  | none => []

/-- The world above `2 ^ 24` after the constructor has run. -/
def coarseBuiltWorld : World :=
  { coarseWorld with
    mRootNode := some coarseTree
    mRequests := [⟨REQ_ID_LAYERS, .layersRequestData coarseLeafs false⟩] }

end Terrain

namespace MWRender

/-! ## The camera rig of `apps/openmw/mwrender/camera.cpp`

`camera.hpp` is not among the sources; the members of `Camera` are taken
from the constructor and from their uses. The scene nodes, the Ogre cameras
and the animation are left out, but for the position of `mCameraPosNode`.

The distances and angles of the camera are arguments of its callers, so here
a `float` is any value of the type: a finite number, an infinity or NaN. The
result of an operation on finite numbers is rounded by `Terrain.f32Round` and
is an infinity when it is beyond the largest finite `float`; a comparison
with NaN is false. The sign of zero is not kept. -/

open Terrain (f32Round)

/-- A value of the type `float`: a finite number, plus or minus infinity, or
NaN. -/
inductive Float32 where
  | finite (q : ℚ)
  | posInf
  | negInf
  | nan
deriving DecidableEq

/-- The largest finite `float`, `(2^24 - 1) * 2^104`. -/
def Float32.maxFinite : ℚ := (2 ^ 24 - 1) * 2 ^ 104

/-- The `float` that an operation with the exact finite result `x` yields:
`x` rounded to nearest, an infinity when the rounded value is beyond the
largest finite `float`. -/
def Float32.ofRat (x : ℚ) : Float32 :=
  if Float32.maxFinite < f32Round x then .posInf
  else if f32Round x < -Float32.maxFinite then .negInf
  else .finite (f32Round x)

/-- The value is one a `float` can hold: an infinity, NaN, or a finite number
that rounding leaves as it is, within the finite range. -/
def Float32.isFloat : Float32 → Prop
  | .finite q => f32Round q = q ∧ |q| ≤ Float32.maxFinite
  | _ => True

/-- Unary minus. -/
def Float32.neg : Float32 → Float32
  | .finite q => .finite (-q)
  | .posInf => .negInf
  | .negInf => .posInf
  | .nan => .nan

/-- The sum of two `float`s (`operator+`). -/
def Float32.add : Float32 → Float32 → Float32
  | .nan, _ => .nan
  | _, .nan => .nan
  | .posInf, .negInf => .nan
  | .negInf, .posInf => .nan
  | .posInf, _ => .posInf
  | _, .posInf => .posInf
  | .negInf, _ => .negInf
  | _, .negInf => .negInf
  | .finite a, .finite b => Float32.ofRat (a + b)

/-- The difference of two `float`s (`operator-`). -/
def Float32.sub (a b : Float32) : Float32 := a.add b.neg

/-- A `float` divided by two (`limit /= 2`). -/
def Float32.half : Float32 → Float32
  | .finite q => Float32.ofRat (q / 2)
  | .posInf => .posInf
  | .negInf => .negInf
  | .nan => .nan

/-- The comparison `a <= b` of two `float`s: false when one of them is NaN. -/
def Float32.le : Float32 → Float32 → Bool
  | .nan, _ => false
  | _, .nan => false
  | .negInf, _ => true
  | _, .posInf => true
  | .posInf, _ => false
  | _, .negInf => false
  | .finite a, .finite b => decide (a ≤ b)

/-- The comparison `a < b` of two `float`s: false when one of them is NaN. -/
def Float32.lt (a b : Float32) : Bool := a.le b && !b.le a

/-- The comparison `a >= b` of two `float`s. -/
def Float32.ge (a b : Float32) : Bool := b.le a

/-- The comparison `a > b` of two `float`s. -/
def Float32.gt (a b : Float32) : Bool := b.lt a

/-- Three-dimensional vector of `float`s (`Ogre::Vector3`). -/
structure Vector3 where
  x : Float32
  y : Float32
  z : Float32
deriving DecidableEq

/-- `Ogre::Math::HALF_PI`, a constant of the Ogre library: half of the single
precision value of π, the `float` `13176795 / 2^23`. -/
def HALF_PI : Float32 := .finite (13176795 / 8388608)

/-- Angles and offset of one camera slot (`CamData`). -/
structure CamData where
  pitch : Float32
  yaw : Float32
  roll : Float32
  offset : Float32
deriving DecidableEq

/-- State of the vanity mode (`mVanity`). -/
structure VanityData where
  enabled : Bool
  allowed : Bool
deriving DecidableEq

/-- The members of `MWRender::Camera`. `mCameraPosNode` is the position of
the scene node the pointer of that name points to, `none` for `NULL`. -/
structure Camera where
  mCameraPosNode : Option Vector3
  mFirstPersonView : Bool
  mPreviewMode : Bool
  mFreeLook : Bool
  mNearest : Float32
  mFurthest : Float32
  mIsNearest : Bool
  mHeight : Float32
  mCameraDistance : Float32
  mDistanceAdjusted : Bool
  mVanityToggleQueued : Bool
  mViewModeToggleQueued : Bool
  mVanity : VanityData
  mPreviewCam : CamData
  mMainCam : CamData
deriving DecidableEq

/-- The constructor `Camera::Camera`. -/
def Camera.new : Camera :=
  { mCameraPosNode := none
    mFirstPersonView := true
    mPreviewMode := false
    mFreeLook := true
    mNearest := .finite 30
    mFurthest := .finite 800
    mIsNearest := false
    mHeight := .finite 124
    mCameraDistance := .finite 192
    mDistanceAdjusted := false
    mVanityToggleQueued := false
    mViewModeToggleQueued := false
    mVanity := { enabled := false, allowed := true }
    mPreviewCam :=
      { pitch := .finite 0
        yaw := .finite 0
        roll := .finite 0
        offset := .finite 400 }
    mMainCam :=
      { pitch := .finite 0
        yaw := .finite 0
        roll := .finite 0
        offset := .finite 400 } }

/-- `Camera::setPosition (const Ogre::Vector3&)`: the position of
`mCameraPosNode` is set; `none` when the pointer is null. -/
def Camera.setPosition (c : Camera) (position : Vector3) : Option Camera :=
  match c.mCameraPosNode with
  | none => none
  | some _ => some { c with mCameraPosNode := some position }

/-- `Camera::getPitch`. -/
def Camera.getPitch (c : Camera) : Float32 :=
  if c.mVanity.enabled || c.mPreviewMode then c.mPreviewCam.pitch
  else c.mMainCam.pitch

/-- `Camera::setPitch`: the limit is the `float` difference of `HALF_PI` and
the `float` nearest to 0.000001, halved in preview mode. -/
def Camera.setPitch (c : Camera) (angle : Float32) : Camera :=
  let epsilon : Float32 := Float32.ofRat (1 / 1000000)
  let limit0 : Float32 := HALF_PI.sub epsilon
  let limit : Float32 := if c.mPreviewMode then limit0.half else limit0
  let angle1 : Float32 :=
    if angle.gt limit then limit
    else if angle.lt limit.neg then limit.neg
    else angle
  if c.mVanity.enabled || c.mPreviewMode then
    { c with mPreviewCam := { c.mPreviewCam with pitch := angle1 } }
  else
    { c with mMainCam := { c.mMainCam with pitch := angle1 } }

/-- `Camera::isNearest`. -/
def Camera.isNearest (c : Camera) : Bool := c.mIsNearest

/-- `Camera::setCameraDistance (float dist, bool adjust, bool override)`;
`none` when `mCameraPosNode` is null where it is dereferenced. The sum
`v += mCameraPosNode->getPosition ()` is a `float` sum in each component. -/
def Camera.setCameraDistance (c : Camera) (dist : Float32) (adjust override : Bool) :
    Option Camera :=
  if c.mFirstPersonView && !c.mPreviewMode && !c.mVanity.enabled then some c
  else
    let c1 : Camera := { c with mIsNearest := false }
    let v0 : Vector3 := ⟨.finite 0, .finite 0, dist⟩
    let v1 : Option Vector3 :=
      if adjust then
        match c1.mCameraPosNode with
        | none => none
        | some pos => some ⟨v0.x.add pos.x, v0.y.add pos.y, v0.z.add pos.z⟩
      else some v0
    match v1 with
    | none => none
    | some v =>
      let vc : Vector3 × Camera :=
        if v.z.ge c1.mFurthest then ({ v with z := c1.mFurthest }, c1)
        else if override = false ∧ v.z.lt (.finite 10) then ({ v with z := .finite 10 }, c1)
        else if override = true ∧ v.z.le c1.mNearest then
          ({ v with z := c1.mNearest }, { c1 with mIsNearest := true })
        else (v, c1)
      match vc.2.setPosition vc.1 with
      | none => none
      | some c3 =>
        if override then
          if c3.mVanity.enabled || c3.mPreviewMode then
            some { c3 with mPreviewCam := { c3.mPreviewCam with offset := vc.1.z } }
          else if !c3.mFirstPersonView then
            some { c3 with mCameraDistance := vc.1.z }
          else some c3
        else some { c3 with mDistanceAdjusted := true }

/-! ### Definitions used to state the properties of the camera -/

/-- The camera is in plain first-person view: first person, no preview, no
vanity. -/
def Camera.plainFirstPerson (c : Camera) : Prop :=
  c.mFirstPersonView = true ∧ c.mPreviewMode = false ∧ c.mVanity.enabled = false

/-- The larger of two `float`s: `b` when `a < b`, else `a`. -/
def Float32.max (a b : Float32) : Float32 := if a.lt b then b else a

/-- The smaller of two `float`s: `b` when `b < a`, else `a`. -/
def Float32.min (a b : Float32) : Float32 := if b.lt a then b else a

/-- The distance asked for: `dist`, added to the present `z` when `adjust`
is set, in `float`. -/
def requestedDistance (pos : Vector3) (dist : Float32) (adjust : Bool) : Float32 :=
  if adjust then dist.add pos.z else dist

/-- The clamped distance in the words of the claim, with nearest 30 and
furthest 800: 800 when the requested value is at least 800; else, without
override, the larger of the requested value and 10; else the larger of the
requested value and 30. -/
def clampedDistance (requested : Float32) (override : Bool) : Float32 :=
  if requested.ge (.finite 800) then .finite 800
  else if override then Float32.max requested (.finite 30)
  else Float32.max requested (.finite 10)

/-- The pitch limit `L` of `setPitch`: the `float` that `HALF_PI - 0.000001f`
evaluates to, halved in preview mode. -/
def Camera.pitchLimit (c : Camera) : Float32 :=
  if c.mPreviewMode then (HALF_PI.sub (Float32.ofRat (1 / 1000000))).half
  else HALF_PI.sub (Float32.ofRat (1 / 1000000))

/-- A camera in third person, attached to a position node at (1,2,100). -/
def thirdPersonCamera : Camera :=
  { Camera.new with
    mCameraPosNode := some ⟨.finite 1, .finite 2, .finite 100⟩
    mFirstPersonView := false }

/-- A camera in third person, attached to a position node at (0,0,30), the
nearest distance. -/
def nearCamera : Camera :=
  { Camera.new with
    mCameraPosNode := some ⟨.finite 0, .finite 0, .finite 30⟩
    mFirstPersonView := false }

end MWRender

namespace Terrain

/-! ## Rounding up to a power of two: proofs -/

theorem toInt32_of_range (x : ℤ) (h1 : -2147483648 ≤ x) (h2 : x < 2147483648) :
    toInt32 x = x := by
  unfold toInt32
  norm_num
  omega

theorem testBit_of_range (x k : ℕ) (h1 : 2 ^ k ≤ x) (h2 : x < 2 ^ (k + 1)) :
    x.testBit k = true := by
  rw [Nat.testBit_to_div_mod]
  have h3 : x / 2 ^ k = 1 := by
    apply Nat.div_eq_of_lt_le
    · simpa using h1
    · rw [pow_succ] at h2; omega
  simp [h3]

theorem exists_pow_range (n : ℕ) (hn : 0 < n) : ∃ k, 2 ^ k ≤ n ∧ n < 2 ^ (k + 1) :=
  ⟨Nat.log 2 n, Nat.pow_log_le_self 2 (by omega), Nat.lt_pow_succ_log_self (by norm_num) n⟩

theorem land_pred_eq_zero_iff (n : ℕ) (hn : 0 < n) :
    n &&& (n - 1) = 0 ↔ ∃ k : ℕ, n = 2 ^ k := by
  constructor
  · intro h
    obtain ⟨k, hk1, hk2⟩ := exists_pow_range n hn
    refine ⟨k, ?_⟩
    by_contra hne
    have hb1 := testBit_of_range n k hk1 hk2
    have hb2 := testBit_of_range (n - 1) k (by omega) (by omega)
    have hb3 : (n &&& (n - 1)).testBit k = true := by
      rw [Nat.testBit_and, hb1, hb2]; rfl
    rw [h] at hb3
    simp at hb3
  · rintro ⟨k, rfl⟩
    rw [Nat.and_pow_two_sub_one_eq_mod]
    simp

theorem isPowerOfTwo_iff (x : ℤ) : isPowerOfTwo x = true ↔ ∃ k : ℕ, x = 2 ^ k := by
  unfold isPowerOfTwo
  constructor
  · intro h
    simp only [Bool.and_eq_true, decide_eq_true_eq, beq_iff_eq] at h
    obtain ⟨hpos, hland⟩ := h
    obtain ⟨n, rfl⟩ := Int.eq_ofNat_of_zero_le (le_of_lt hpos)
    have hn : 0 < n := by exact_mod_cast hpos
    have h1 : ((n : ℤ) - 1) = ((n - 1 : ℕ) : ℤ) := by omega
    rw [h1] at hland
    have h2 : Int.land (n : ℤ) ((n - 1 : ℕ) : ℤ) = ((n &&& (n - 1) : ℕ) : ℤ) := rfl
    rw [h2] at hland
    have h3 : n &&& (n - 1) = 0 := by exact_mod_cast hland
    obtain ⟨k, hk⟩ := (land_pred_eq_zero_iff n hn).1 h3
    exact ⟨k, by exact_mod_cast hk⟩
  · rintro ⟨k, rfl⟩
    have hpos : (0 : ℤ) < 2 ^ k := by positivity
    have h1 : ((2 : ℤ) ^ k) = ((2 ^ k : ℕ) : ℤ) := by norm_cast
    have h2 : ((2 : ℤ) ^ k - 1) = ((2 ^ k - 1 : ℕ) : ℤ) := by
      have : 0 < 2 ^ k := Nat.pos_pow_of_pos k (by norm_num)
      rw [h1]; omega
    simp only [Bool.and_eq_true, decide_eq_true_eq, beq_iff_eq]
    refine ⟨hpos, ?_⟩
    rw [h2, h1]
    have h3 : Int.land ((2 ^ k : ℕ) : ℤ) ((2 ^ k - 1 : ℕ) : ℤ) = ((2 ^ k &&& (2 ^ k - 1) : ℕ) : ℤ) := rfl
    rw [h3, Nat.and_pow_two_sub_one_eq_mod]
    simp

theorem nextPowerOfTwoLoop_spec (fuel : ℕ) : ∀ (v depth : ℕ), v < 2 ^ fuel →
    ∃ k, k ≤ fuel ∧ nextPowerOfTwoLoop (fuel + 1) (v : ℤ) depth = some (depth + k)
      ∧ v < 2 ^ k ∧ (0 < v → 1 ≤ k ∧ 2 ^ (k - 1) ≤ v) := by
  induction fuel with
  | zero =>
    intro v depth hv
    have : v = 0 := by simpa using hv
    subst this
    exact ⟨0, le_refl _, by simp [nextPowerOfTwoLoop], by simp, by simp⟩
  | succ f ih =>
    intro v depth hv
    by_cases hv0 : v = 0
    · subst hv0
      exact ⟨0, by omega, by simp [nextPowerOfTwoLoop], by simp, by simp⟩
    · have hhalf : v / 2 < 2 ^ f := by rw [pow_succ] at hv; omega
      obtain ⟨k, hk, hloop, hlt, hlow⟩ := ih (v / 2) (depth + 1) hhalf
      have hshift : ((v : ℤ) >>> (1 : ℕ)) = ((v / 2 : ℕ) : ℤ) := by
        rw [Int.shiftRight_eq_div_pow]; norm_num
      refine ⟨k + 1, by omega, ?_, ?_, ?_⟩
      · rw [nextPowerOfTwoLoop]
        have hvz : (v : ℤ) ≠ 0 := by exact_mod_cast hv0
        rw [if_pos hvz, hshift, hloop]
        congr 1; omega
      · rw [pow_succ]; omega
      · intro _
        refine ⟨by omega, ?_⟩
        simp only [Nat.add_sub_cancel]
        by_cases hh : 0 < v / 2
        · obtain ⟨hk1, hk2⟩ := hlow hh
          have : 2 ^ k = 2 ^ (k - 1) * 2 := by
            rw [← pow_succ]; congr 1; omega
          omega
        · have hv1 : v / 2 = 0 := by omega
          have hk0 : k = 0 := by
            rw [hv1] at hloop
            simp [nextPowerOfTwoLoop] at hloop
            exact hloop
          subst hk0
          simp only [pow_zero]
          omega

theorem nextPowerOfTwo_zero : nextPowerOfTwo 0 = some 1 := by decide

theorem nextPowerOfTwo_spec (m : ℤ) (h1 : 1 ≤ m) (h2 : m ≤ 2 ^ 30) :
    ∃ k : ℕ, nextPowerOfTwo m = some (2 ^ k) ∧ m ≤ 2 ^ k ∧ k ≤ 30
      ∧ ∀ j : ℕ, m ≤ 2 ^ j → (2 : ℤ) ^ k ≤ 2 ^ j := by
  by_cases hp : isPowerOfTwo m = true
  · obtain ⟨k, rfl⟩ := (isPowerOfTwo_iff m).1 hp
    refine ⟨k, by simp [nextPowerOfTwo, hp], le_refl _, ?_, fun j hj => hj⟩
    by_contra hc
    have : (2 : ℤ) ^ 31 ≤ 2 ^ k := pow_le_pow_right₀ (by norm_num) (by omega)
    norm_num at this h2
    omega
  · obtain ⟨n, rfl⟩ := Int.eq_ofNat_of_zero_le (by omega : (0 : ℤ) ≤ m)
    have hn1 : 1 ≤ n := by exact_mod_cast h1
    have hn2 : n ≤ 2 ^ 30 := by exact_mod_cast h2
    obtain ⟨k, _, hloop, hlt, hlow⟩ := nextPowerOfTwoLoop_spec 31 n 0
      (by norm_num at hn2 ⊢; omega)
    obtain ⟨hk1, hk2⟩ := hlow (by omega)
    have hne : n ≠ 2 ^ (k - 1) := by
      intro he
      apply hp
      rw [isPowerOfTwo_iff]
      exact ⟨k - 1, by exact_mod_cast he⟩
    have hk30 : k ≤ 30 := by
      by_contra hc
      have : 2 ^ 30 ≤ 2 ^ (k - 1) := Nat.pow_le_pow_right (by norm_num) (by omega)
      omega
    have hpk : (2 : ℤ) ^ k ≤ 2 ^ 30 := pow_le_pow_right₀ (by norm_num) hk30
    refine ⟨k, ?_, ?_, hk30, ?_⟩
    · simp only [nextPowerOfTwo, hp, Bool.false_eq_true, if_false]
      simp only [zero_add] at hloop
      rw [hloop]
      simp only [Option.map_some', one_mul]
      rw [toInt32_of_range]
      · have : (0 : ℤ) < 2 ^ k := by positivity
        omega
      · norm_num at hpk ⊢; omega
    · exact_mod_cast le_of_lt hlt
    · intro j hj
      have hj1 : 2 ^ (k - 1) < 2 ^ j := by
        have : n ≤ 2 ^ j := by exact_mod_cast hj
        omega
      have hj2 : k - 1 < j := (Nat.pow_lt_pow_iff_right (by norm_num)).1 hj1
      exact pow_le_pow_right₀ (by norm_num) (by omega)

/-! ## Single precision rounding -/

theorem roundHalfEven_intCast (n : ℤ) : roundHalfEven (n : ℚ) = n := by
  simp [roundHalfEven]

theorem natLog2_le (fuel : ℕ) : ∀ n : ℕ, n ≠ 0 → 2 ^ natLog2 fuel n ≤ n := by
  induction fuel with
  | zero => intro n hn; simp only [natLog2, pow_zero]; omega
  | succ f ih =>
    intro n hn
    rw [natLog2]
    split
    · rename_i h2
      have h := ih (n / 2) (by omega)
      rw [pow_succ]
      omega
    · simp only [pow_zero]; omega

theorem lt_natLog2 (fuel : ℕ) : ∀ n : ℕ, n < 2 ^ fuel → n < 2 ^ (natLog2 fuel n + 1) := by
  induction fuel with
  | zero => intro n hn; simp only [natLog2, pow_zero] at hn ⊢; omega
  | succ f ih =>
    intro n hn
    rw [natLog2]
    split
    · rename_i h2
      have h := ih (n / 2) (by rw [pow_succ] at hn; omega)
      rw [pow_succ]
      omega
    · simp only [zero_add, pow_one]; omega

/-- The exponent found by `floorLog2` is not above the binary logarithm. -/
theorem floorLog2_le (x : ℚ) (hx : x ≠ 0) : (2 : ℚ) ^ floorLog2 x ≤ |x| := by
  unfold floorLog2
  simp only
  split
  · assumption
  · have hn : x.num.natAbs ≠ 0 := by
      intro h
      exact hx (Rat.num_eq_zero.1 (Int.natAbs_eq_zero.1 h))
    have h1 := natLog2_le x.num.natAbs x.num.natAbs hn
    have h2 := lt_natLog2 x.den x.den (Nat.lt_two_pow x.den)
    have hd : (0 : ℚ) < x.den := by exact_mod_cast x.den_pos
    have habs : |x| = (x.num.natAbs : ℚ) / x.den := by
      conv_lhs => rw [← Rat.num_div_den x]
      rw [abs_div, abs_of_pos hd]
      congr 1
      rw [Nat.cast_natAbs, Int.cast_abs]
    rw [habs, le_div_iff₀ hd]
    have q1 : ((2 : ℚ) ^ natLog2 x.num.natAbs x.num.natAbs) ≤ (x.num.natAbs : ℚ) := by
      exact_mod_cast h1
    have q2 : (x.den : ℚ) ≤ (2 : ℚ) ^ (natLog2 x.den x.den + 1) := by
      exact_mod_cast le_of_lt h2
    have e : (2 : ℚ) ^ ((natLog2 x.num.natAbs x.num.natAbs : ℤ) - (natLog2 x.den x.den : ℤ) - 1)
        * (2 : ℚ) ^ (natLog2 x.den x.den + 1) = (2 : ℚ) ^ natLog2 x.num.natAbs x.num.natAbs := by
      rw [← zpow_natCast, ← zpow_natCast, ← zpow_add₀ (by norm_num : (2 : ℚ) ≠ 0)]
      congr 1
      push_cast
      ring
    calc (2 : ℚ) ^ ((natLog2 x.num.natAbs x.num.natAbs : ℤ) - (natLog2 x.den x.den : ℤ) - 1)
          * (x.den : ℚ)
        ≤ (2 : ℚ) ^ ((natLog2 x.num.natAbs x.num.natAbs : ℤ) - (natLog2 x.den x.den : ℤ) - 1)
          * (2 : ℚ) ^ (natLog2 x.den x.den + 1) :=
          mul_le_mul_of_nonneg_left q2 (by positivity)
      _ = (2 : ℚ) ^ natLog2 x.num.natAbs x.num.natAbs := e
      _ ≤ (x.num.natAbs : ℚ) := q1

/-- The exponent found by `floorLog2` is not below the binary logarithm. -/
theorem lt_floorLog2 (x : ℚ) : |x| < (2 : ℚ) ^ (floorLog2 x + 1) := by
  unfold floorLog2
  simp only
  split
  · have h1 := lt_natLog2 x.num.natAbs x.num.natAbs (Nat.lt_two_pow x.num.natAbs)
    have h2 := natLog2_le x.den x.den x.den_nz
    have hd : (0 : ℚ) < x.den := by exact_mod_cast x.den_pos
    have habs : |x| = (x.num.natAbs : ℚ) / x.den := by
      conv_lhs => rw [← Rat.num_div_den x]
      rw [abs_div, abs_of_pos hd]
      congr 1
      rw [Nat.cast_natAbs, Int.cast_abs]
    rw [habs, div_lt_iff₀ hd]
    have q1 : (x.num.natAbs : ℚ) < (2 : ℚ) ^ (natLog2 x.num.natAbs x.num.natAbs + 1) := by
      exact_mod_cast h1
    have q2 : (2 : ℚ) ^ natLog2 x.den x.den ≤ (x.den : ℚ) := by
      exact_mod_cast h2
    have e : (2 : ℚ) ^ ((natLog2 x.num.natAbs x.num.natAbs : ℤ) - (natLog2 x.den x.den : ℤ) + 1)
        * (2 : ℚ) ^ natLog2 x.den x.den
          = (2 : ℚ) ^ (natLog2 x.num.natAbs x.num.natAbs + 1) := by
      rw [← zpow_natCast, ← zpow_natCast, ← zpow_add₀ (by norm_num : (2 : ℚ) ≠ 0)]
      congr 1
      push_cast
      ring
    calc (x.num.natAbs : ℚ)
        < (2 : ℚ) ^ (natLog2 x.num.natAbs x.num.natAbs + 1) := q1
      _ = (2 : ℚ) ^ ((natLog2 x.num.natAbs x.num.natAbs : ℤ) - (natLog2 x.den x.den : ℤ) + 1)
          * (2 : ℚ) ^ natLog2 x.den x.den := e.symm
      _ ≤ (2 : ℚ) ^ ((natLog2 x.num.natAbs x.num.natAbs : ℤ) - (natLog2 x.den x.den : ℤ) + 1)
          * (x.den : ℚ) := mul_le_mul_of_nonneg_left q2 (by positivity)
  · rename_i h
    have := lt_of_not_le h
    simpa using this

/-- The nearest integer is at most a half away. -/
theorem roundHalfEven_error (q : ℚ) : |(roundHalfEven q : ℚ) - q| ≤ 1 / 2 := by
  have h1 := Int.floor_le q
  have h2 := Int.lt_floor_add_one q
  unfold roundHalfEven
  split
  · rw [abs_le]; constructor <;> linarith
  · split
    · push_cast; rw [abs_le]; constructor <;> linarith
    · split
      · rw [abs_le]; constructor <;> linarith
      · push_cast; rw [abs_le]; constructor <;> linarith

/-- The result of `f32Round` is a whole multiple of the quantum
`2 ^ max (e - 23) (-149)`, with `e` the binary exponent of `x`, and at most
half a quantum away from `x`. -/
theorem f32Round_error (x : ℚ) :
    (∃ m : ℤ, f32Round x = (m : ℚ) * 2 ^ max (floorLog2 x - 23) (-149))
      ∧ |f32Round x - x| ≤ 2 ^ max (floorLog2 x - 23) (-149) / 2 := by
  unfold f32Round
  simp only
  generalize max (floorLog2 x - 23) (-149) = q
  refine ⟨⟨_, rfl⟩, ?_⟩
  have hq : (0 : ℚ) < 2 ^ q := by positivity
  have h := roundHalfEven_error (x / 2 ^ q)
  have e : (roundHalfEven (x / 2 ^ q) : ℚ) * 2 ^ q - x
      = ((roundHalfEven (x / 2 ^ q) : ℚ) - x / 2 ^ q) * 2 ^ q := by
    field_simp
  rw [e, abs_mul, abs_of_pos hq]
  calc |(roundHalfEven (x / 2 ^ q) : ℚ) - x / 2 ^ q| * 2 ^ q
      ≤ 1 / 2 * 2 ^ q := mul_le_mul_of_nonneg_right h (le_of_lt hq)
    _ = 2 ^ q / 2 := by ring

/-- Values of the rounding: the bounds of the worlds used as examples are
`float`s, while the odd numbers above `2^24` are rounded to a neighbour with
an even significand, `2^31 + 128` to `2^31`, and 0.000001 to `8796093 / 2^43`. -/
theorem f32Round_values :
    f32Round 0 = 0 ∧ f32Round 1 = 1 ∧ f32Round 4 = 4 ∧ f32Round (3 / 2) = 3 / 2
      ∧ f32Round 60 = 60 ∧ f32Round 100 = 100
      ∧ f32Round 16777216 = 16777216 ∧ f32Round 16777218 = 16777218
      ∧ f32Round 16777220 = 16777220
      ∧ f32Round 1073741824 = 1073741824 ∧ f32Round 1073741952 = 1073741952
      ∧ f32Round 16777217 = 16777216 ∧ f32Round 16777219 = 16777220
      ∧ f32Round (16777216 + 1 / 2) = 16777216
      ∧ f32Round 2147483776 = 2147483648
      ∧ f32Round (1 / 1000000) = 8796093 / 2 ^ 43 := by
  decide!

/-- A multiple `m * 2 ^ k` of a power of two, with less than 24 bits in `m`
and `k` not below the smallest exponent, is a `float`: rounding leaves it. -/
theorem f32Round_exact (m k : ℤ) (hm : |m| < 2 ^ 24) (hk : -149 ≤ k) :
    f32Round ((m : ℚ) * 2 ^ k) = (m : ℚ) * 2 ^ k := by
  by_cases h0 : m = 0
  · subst h0
    simp [f32Round, roundHalfEven]
  have hx : (m : ℚ) * 2 ^ k ≠ 0 := by
    have : (m : ℚ) ≠ 0 := by exact_mod_cast h0
    positivity
  have hle := floorLog2_le _ hx
  have hlt : (2 : ℚ) ^ floorLog2 ((m : ℚ) * 2 ^ k) < 2 ^ (24 + k) := by
    refine lt_of_le_of_lt hle ?_
    rw [abs_mul, abs_of_pos (by positivity : (0 : ℚ) < 2 ^ k),
      zpow_add₀ (by norm_num : (2 : ℚ) ≠ 0)]
    apply mul_lt_mul_of_pos_right _ (by positivity)
    have : ((|m| : ℤ) : ℚ) < ((2 ^ 24 : ℤ) : ℚ) := by exact_mod_cast hm
    rw [Int.cast_abs] at this
    exact_mod_cast this
  have he : floorLog2 ((m : ℚ) * 2 ^ k) < 24 + k :=
    (zpow_lt_zpow_iff_right₀ (by norm_num : (1 : ℚ) < 2)).1 hlt
  unfold f32Round
  simp only
  generalize hq : max (floorLog2 ((m : ℚ) * 2 ^ k) - 23) (-149) = q
  have hqk : q ≤ k := by
    rw [← hq]
    exact max_le (by omega) hk
  obtain ⟨d, hd⟩ : ∃ d : ℕ, k = q + d := ⟨(k - q).toNat, by omega⟩
  have hdiv : (m : ℚ) * 2 ^ k / 2 ^ q = ((m * 2 ^ d : ℤ) : ℚ) := by
    rw [hd, zpow_add₀ (by norm_num : (2 : ℚ) ≠ 0), zpow_natCast]
    push_cast
    field_simp
    ring
  rw [hdiv, roundHalfEven_intCast, hd, zpow_add₀ (by norm_num : (2 : ℚ) ≠ 0), zpow_natCast]
  push_cast
  ring

/-- A whole number of at most 24 bits is a `float`. -/
theorem f32Round_intCast (n : ℤ) (hn : |n| ≤ 2 ^ 24) : f32Round (n : ℚ) = n := by
  rcases lt_or_eq_of_le hn with h | h
  · simpa using f32Round_exact n 0 h (by norm_num)
  · rcases abs_eq (by norm_num : (0 : ℤ) ≤ 2 ^ 24) |>.1 h with h1 | h1
    · subst h1
      have := f32Round_exact (2 ^ 23) 1 (by norm_num) (by norm_num)
      norm_num at this ⊢
      exact this
    · subst h1
      have := f32Round_exact (-2 ^ 23) 1 (by norm_num) (by norm_num)
      norm_num at this ⊢
      exact this

/-- Half of a whole number of at most 24 bits is a `float`. -/
theorem f32Round_half (m : ℤ) (hm : |m| ≤ 2 ^ 24) : f32Round ((m : ℚ) / 2) = (m : ℚ) / 2 := by
  rcases lt_or_eq_of_le hm with h | h
  · have := f32Round_exact m (-1) h (by norm_num)
    simpa [div_eq_mul_inv] using this
  · rcases abs_eq (by norm_num : (0 : ℤ) ≤ 2 ^ 24) |>.1 h with h1 | h1
    · subst h1
      have := f32Round_exact (2 ^ 23) 0 (by norm_num) (by norm_num)
      norm_num at this ⊢
      exact this
    · subst h1
      have := f32Round_exact (-2 ^ 23) 0 (by norm_num) (by norm_num)
      norm_num at this ⊢
      exact this

/-- A power of two from `2 ^ (-149)` on is a `float`. -/
theorem f32Round_zpow (j : ℤ) (hj : -149 ≤ j) : f32Round ((2 : ℚ) ^ j) = 2 ^ j := by
  simpa using f32Round_exact 1 j (by norm_num) hj

theorem exactOnHalves_f32Round : ExactOnHalves f32Round := fun m hm => f32Round_half m hm

theorem exactOnHalves_id : ExactOnHalves (fun x => x) := fun _ _ => rfl

theorem ExactOnHalves.intCast {round : ℚ → ℚ} (hr : ExactOnHalves round) (n : ℤ)
    (hn : |n| ≤ 2 ^ 23) : round (n : ℚ) = n := by
  have h := hr (2 * n) (by rw [abs_mul]; norm_num; omega)
  have e : ((2 * n : ℤ) : ℚ) / 2 = (n : ℚ) := by push_cast; ring
  rwa [e] at h

theorem floatToInt_intCast (n : ℤ) (h1 : -2 ^ 31 ≤ n) (h2 : n < 2 ^ 31) :
    floatToInt (n : ℚ) = some n := by
  unfold floatToInt
  simp only [Int.floor_intCast, Int.ceil_intCast, ite_self]
  rw [if_pos ⟨h1, h2⟩]

/-! ## The size of the root node -/

/-- An extent that is a whole number, a `float` and an `int` is what the
constructor computes for it. -/
theorem origSize_of_exact (round : ℚ → ℚ) (lo hi : ℚ) (e : ℤ) (he : hi - lo = e)
    (hr : round (e : ℚ) = e) (h1 : -2 ^ 31 ≤ e) (h2 : e < 2 ^ 31) :
    origSize round lo hi = some e := by
  rw [origSize, he, hr, floatToInt_intCast e h1 h2]

theorem rootSize_of_origSize (round : ℚ → ℚ) (s : Storage) (ex ey : ℤ)
    (hx : origSize round s.minX s.maxX = some ex)
    (hy : origSize round s.minY s.maxY = some ey) :
    rootSize round s = nextPowerOfTwo (max ex ey) := by
  simp only [rootSize, hx, hy]

/-- C1, as amended: for valid grid bounds whose extents `maxX - minX` and
`maxY - minY` are whole numbers that single precision represents exactly, and
whose larger value `m` satisfies `1 ≤ m ≤ 2^30`, the root size computed by
the constructor is the smallest power of two that is at least `m`: it is a
power of two `2^k`, it is at least `m`, and every power of two that is at
least `m` is at least `2^k`. -/
theorem rootSize_smallest_power_of_two (s : Storage) (ex ey : ℤ)
    (hx : s.maxX - s.minX = ex) (hy : s.maxY - s.minY = ey)
    (hvx : 0 ≤ ex) (hvy : 0 ≤ ey)
    (hfx : f32Round (ex : ℚ) = ex) (hfy : f32Round (ey : ℚ) = ey)
    (h1 : 1 ≤ max ex ey) (h2 : max ex ey ≤ 2 ^ 30) :
    ∃ k : ℕ, rootSize f32Round s = some (2 ^ k)
      ∧ max ex ey ≤ 2 ^ k
      ∧ ∀ j : ℕ, max ex ey ≤ 2 ^ j → (2 : ℤ) ^ k ≤ 2 ^ j := by
  have b1 : ex ≤ 2 ^ 30 := le_trans (le_max_left _ _) h2
  have b2 : ey ≤ 2 ^ 30 := le_trans (le_max_right _ _) h2
  norm_num at b1 b2
  have ox := origSize_of_exact f32Round s.minX s.maxX ex hx hfx (by omega) (by omega)
  have oy := origSize_of_exact f32Round s.minY s.maxY ey hy hfy (by omega) (by omega)
  obtain ⟨k, hk, hle, _, hmin⟩ := nextPowerOfTwo_spec _ h1 h2
  exact ⟨k, by rw [rootSize_of_origSize f32Round s ex ey ox oy, hk], hle, hmin⟩

/-- Witness of C1 as amended: the bounds (0,0)-(100,60) give the root size 128. -/
theorem rootSize_smallest_power_of_two_witness :
    rootSize f32Round (flatStorage 0 100 0 60) = some 128
      ∧ ∃ k : ℕ, rootSize f32Round (flatStorage 0 100 0 60) = some (2 ^ k)
        ∧ max (100 : ℤ) 60 ≤ 2 ^ k
        ∧ ∀ j : ℕ, max (100 : ℤ) 60 ≤ 2 ^ j → (2 : ℤ) ^ k ≤ 2 ^ j :=
  ⟨by decide!, rootSize_smallest_power_of_two (flatStorage 0 100 0 60) 100 60
    (by decide!) (by decide!) (by decide) (by decide) (by decide!) (by decide!)
    (by decide) (by decide)⟩

/-- C1 as stated fails: the bounds (1,0)-(16777218,0) are valid and have the
whole extents 16777217 and 0, so `m = 2^24 + 1` lies between 1 and `2^30`;
the `float` difference `16777218 - 1` is rounded to 16777216, a power of two,
and that is the root size: it is below `m`. -/
theorem rootSize_smallest_power_of_two_counterexample :
    (flatStorage 1 16777218 0 0).minX ≤ (flatStorage 1 16777218 0 0).maxX
      ∧ (flatStorage 1 16777218 0 0).minY ≤ (flatStorage 1 16777218 0 0).maxY
      ∧ max ((flatStorage 1 16777218 0 0).maxX - (flatStorage 1 16777218 0 0).minX)
          ((flatStorage 1 16777218 0 0).maxY - (flatStorage 1 16777218 0 0).minY) = 16777217
      ∧ (1 : ℤ) ≤ 16777217 ∧ (16777217 : ℤ) ≤ 2 ^ 30
      ∧ origSize f32Round (flatStorage 1 16777218 0 0).minX (flatStorage 1 16777218 0 0).maxX
          = some 16777216
      ∧ rootSize f32Round (flatStorage 1 16777218 0 0) = some 16777216
      ∧ ¬ ((16777217 : ℤ) ≤ 16777216) :=
  ⟨by decide!, by decide!, by decide!, by decide, by decide, by decide!, by decide!, by decide⟩

/-! ## The root square and the grid bounds -/

/-- For bounds that are whole numbers of magnitude at most `2^22` every step
of the constructor up to the root node is computed without rounding: the root
has the size `2^k`, the smallest power of two not below the larger extent,
and the centre `(minX + 2^k/2, minY + 2^k/2)`. -/
theorem rootNode_of_int_bounds (round : ℚ → ℚ) (hr : ExactOnHalves round) (s : Storage)
    (a b c d : ℤ) (ha : s.minX = a) (hb : s.maxX = b) (hc : s.minY = c) (hd : s.maxY = d)
    (hx : a ≤ b) (hy : c ≤ d)
    (hma : |a| ≤ 2 ^ 22) (hmb : |b| ≤ 2 ^ 22) (hmc : |c| ≤ 2 ^ 22) (hmd : |d| ≤ 2 ^ 22) :
    ∃ k : ℕ, b - a ≤ 2 ^ k ∧ d - c ≤ 2 ^ k
      ∧ (∀ j : ℕ, b - a ≤ 2 ^ j → d - c ≤ 2 ^ j → (2 : ℤ) ^ k ≤ 2 ^ j)
      ∧ rootNode round s = some (NodeData.new .Root ((2 : ℚ) ^ k)
          ⟨((2 * a + 2 ^ k : ℤ) : ℚ) / 2, ((2 * c + 2 ^ k : ℤ) : ℚ) / 2⟩ none) := by
  have ha1 := abs_le.1 hma
  have hb1 := abs_le.1 hmb
  have hc1 := abs_le.1 hmc
  have hd1 := abs_le.1 hmd
  norm_num at ha1 hb1 hc1 hd1
  have ox : origSize round s.minX s.maxX = some (b - a) :=
    origSize_of_exact round _ _ (b - a) (by rw [ha, hb]; push_cast; ring)
      (hr.intCast _ (by rw [abs_le]; constructor <;> norm_num <;> omega)) (by omega) (by omega)
  have oy : origSize round s.minY s.maxY = some (d - c) :=
    origSize_of_exact round _ _ (d - c) (by rw [hc, hd]; push_cast; ring)
      (hr.intCast _ (by rw [abs_le]; constructor <;> norm_num <;> omega)) (by omega) (by omega)
  -- the size
  obtain ⟨k, hk, hkx, hky, hkmin⟩ : ∃ k : ℕ, nextPowerOfTwo (max (b - a) (d - c)) = some (2 ^ k)
      ∧ b - a ≤ 2 ^ k ∧ d - c ≤ 2 ^ k
      ∧ ∀ j : ℕ, b - a ≤ 2 ^ j → d - c ≤ 2 ^ j → (2 : ℤ) ^ k ≤ 2 ^ j := by
    by_cases h0 : max (b - a) (d - c) = 0
    · have e1 : b - a ≤ 0 := h0 ▸ le_max_left _ _
      have e2 : d - c ≤ 0 := h0 ▸ le_max_right _ _
      refine ⟨0, by rw [h0]; exact nextPowerOfTwo_zero, by omega, by omega, ?_⟩
      intro j _ _
      exact pow_le_pow_right₀ (by norm_num) (Nat.zero_le j)
    · have h1 : 1 ≤ max (b - a) (d - c) := by
        have : 0 ≤ max (b - a) (d - c) := le_trans (by omega) (le_max_left _ _)
        omega
      have h2 : max (b - a) (d - c) ≤ 2 ^ 30 := by
        apply max_le <;> norm_num <;> omega
      obtain ⟨k, hk, hle, _, hmin⟩ := nextPowerOfTwo_spec _ h1 h2
      exact ⟨k, hk, le_trans (le_max_left _ _) hle, le_trans (le_max_right _ _) hle,
        fun j h3 h4 => hmin j (max_le h3 h4)⟩
  have hk23 : (2 : ℤ) ^ k ≤ 2 ^ 23 := hkmin 23 (by norm_num; omega) (by norm_num; omega)
  have hkpos : (0 : ℤ) < 2 ^ k := by positivity
  norm_num at hk23
  refine ⟨k, hkx, hky, hkmin, ?_⟩
  -- the centre
  have coord : ∀ (lo hi : ℤ), lo ≤ hi → -4194304 ≤ lo → hi ≤ 4194304 → hi - lo ≤ 2 ^ k →
      rootCenterCoord round (lo : ℚ) (hi : ℚ) (hi - lo) (2 ^ k)
        = ((2 * lo + 2 ^ k : ℤ) : ℚ) / 2 := by
    intro lo hi h1 h2 h3 h4
    have e1 : toInt32 (2 ^ k - (hi - lo)) = 2 ^ k - (hi - lo) :=
      toInt32_of_range _ (by omega) (by omega)
    have r1 : round ((lo : ℚ) + hi) = ((lo + hi : ℤ) : ℚ) := by
      have := hr.intCast (lo + hi) (by rw [abs_le]; constructor <;> norm_num <;> omega)
      rw [← this]; push_cast; rfl
    have r2 : round (((lo + hi : ℤ) : ℚ) / 2) = ((lo + hi : ℤ) : ℚ) / 2 :=
      hr _ (by rw [abs_le]; constructor <;> norm_num <;> omega)
    have r3 : round ((2 ^ k - (hi - lo) : ℤ) : ℚ) = ((2 ^ k - (hi - lo) : ℤ) : ℚ) :=
      hr.intCast _ (by rw [abs_le]; constructor <;> norm_num <;> omega)
    have r4 : round (((2 ^ k - (hi - lo) : ℤ) : ℚ) / 2) = ((2 ^ k - (hi - lo) : ℤ) : ℚ) / 2 :=
      hr _ (by rw [abs_le]; constructor <;> norm_num <;> omega)
    have e2 : ((lo + hi : ℤ) : ℚ) / 2 + ((2 ^ k - (hi - lo) : ℤ) : ℚ) / 2
        = ((2 * lo + 2 ^ k : ℤ) : ℚ) / 2 := by push_cast; ring
    have r5 : round (((2 * lo + 2 ^ k : ℤ) : ℚ) / 2) = ((2 * lo + 2 ^ k : ℤ) : ℚ) / 2 :=
      hr _ (by rw [abs_le]; constructor <;> norm_num <;> omega)
    rw [rootCenterCoord, e1, r1, r2, r3, r4, e2, r5]
  have rs : round (((2 ^ k : ℤ) : ℚ)) = (2 : ℚ) ^ k := by
    have := hr.intCast (2 ^ k) (by rw [abs_le]; constructor <;> norm_num <;> omega)
    rw [this]; push_cast; rfl
  simp only [rootNode, ox, oy, hk, rootCenter, rs]
  rw [ha, hb, hc, hd, coord a b hx (by omega) (by omega) hkx,
    coord c d hy (by omega) (by omega) hky]

/-- C2, as amended: for valid grid bounds (`minX ≤ maxX`, `minY ≤ maxY`)
that are whole numbers of magnitude at most `2^22`, the constructor, in single
precision, makes a root node, and the square `center ± size/2` of that node
contains the bounds `[minX, maxX] × [minY, maxY]`. -/
theorem rootNode_contains_bounds (s : Storage) (a b c d : ℤ)
    (ha : s.minX = a) (hb : s.maxX = b) (hc : s.minY = c) (hd : s.maxY = d)
    (hx : a ≤ b) (hy : c ≤ d)
    (hma : |a| ≤ 2 ^ 22) (hmb : |b| ≤ 2 ^ 22) (hmc : |c| ≤ 2 ^ 22) (hmd : |d| ≤ 2 ^ 22) :
    ∃ root, rootNode f32Round s = some root
      ∧ root.containsBounds s.minX s.maxX s.minY s.maxY := by
  obtain ⟨k, hkx, hky, _, hroot⟩ := rootNode_of_int_bounds f32Round exactOnHalves_f32Round s
    a b c d ha hb hc hd hx hy hma hmb hmc hmd
  refine ⟨_, hroot, ?_⟩
  have qx : ((b : ℚ) - a) ≤ 2 ^ k := by exact_mod_cast hkx
  have qy : ((d : ℚ) - c) ≤ 2 ^ k := by exact_mod_cast hky
  have qp : (0 : ℚ) < 2 ^ k := by positivity
  simp only [NodeData.containsBounds, NodeData.new, ha, hb, hc, hd]
  push_cast
  refine ⟨?_, ?_, ?_, ?_⟩ <;> linarith

/-- Witness of C2 as amended: the bounds (0,0)-(100,60). -/
theorem rootNode_contains_bounds_witness :
    ∃ root, rootNode f32Round (flatStorage 0 100 0 60) = some root
      ∧ root.containsBounds (flatStorage 0 100 0 60).minX (flatStorage 0 100 0 60).maxX
          (flatStorage 0 100 0 60).minY (flatStorage 0 100 0 60).maxY :=
  rootNode_contains_bounds (flatStorage 0 100 0 60) 0 100 0 60 (by decide!) (by decide!)
    (by decide!) (by decide!) (by decide) (by decide) (by decide) (by decide) (by decide)
    (by decide)

/-- C2 as stated fails, in three ways. The bounds (1,0)-(16777218,0) are
valid; the `float` difference and sum of the x bounds are rounded, the root
gets the size 16777216 and the centre x = 8388610, and its square begins at
x = 2, past `minX = 1`. The bounds (0,0)-(3/2,0) are valid; the extent 3/2 is
truncated to the `int` 1, the root gets the size 1 and the centre x = 3/4, and
its square ends at x = 5/4, before `maxX = 3/2`. The bounds
(1073741824,0)-(1073741952,0), from `2^30` to `2^30 + 128`, are valid; the
extent is 128, but the `float` sum `2^31 + 128` of the x bounds is rounded to
`2^31`, the root gets the size 128 and the centre x = `2^30`, and its square
ends at x = `2^30 + 64`, before `maxX`. -/
theorem rootNode_contains_bounds_counterexample :
    ((flatStorage 1 16777218 0 0).minX ≤ (flatStorage 1 16777218 0 0).maxX
      ∧ (flatStorage 1 16777218 0 0).minY ≤ (flatStorage 1 16777218 0 0).maxY
      ∧ ∃ root, rootNode f32Round (flatStorage 1 16777218 0 0) = some root
        ∧ root.mSize = 16777216
        ∧ root.mCenter = ⟨8388610, 8388608⟩
        ∧ ¬ root.containsBounds (flatStorage 1 16777218 0 0).minX
            (flatStorage 1 16777218 0 0).maxX (flatStorage 1 16777218 0 0).minY
            (flatStorage 1 16777218 0 0).maxY)
    ∧ ((flatStorage 0 (3 / 2) 0 0).minX ≤ (flatStorage 0 (3 / 2) 0 0).maxX
      ∧ (flatStorage 0 (3 / 2) 0 0).minY ≤ (flatStorage 0 (3 / 2) 0 0).maxY
      ∧ ∃ root, rootNode f32Round (flatStorage 0 (3 / 2) 0 0) = some root
        ∧ root.mSize = 1
        ∧ root.mCenter = ⟨3 / 4, 1 / 2⟩
        ∧ ¬ root.containsBounds (flatStorage 0 (3 / 2) 0 0).minX
            (flatStorage 0 (3 / 2) 0 0).maxX (flatStorage 0 (3 / 2) 0 0).minY
            (flatStorage 0 (3 / 2) 0 0).maxY)
    ∧ ((flatStorage 1073741824 1073741952 0 0).minX
          ≤ (flatStorage 1073741824 1073741952 0 0).maxX
      ∧ (flatStorage 1073741824 1073741952 0 0).minY
          ≤ (flatStorage 1073741824 1073741952 0 0).maxY
      ∧ ∃ root, rootNode f32Round (flatStorage 1073741824 1073741952 0 0) = some root
        ∧ root.mSize = 128
        ∧ root.mCenter = ⟨1073741824, 64⟩
        ∧ ¬ root.containsBounds (flatStorage 1073741824 1073741952 0 0).minX
            (flatStorage 1073741824 1073741952 0 0).maxX
            (flatStorage 1073741824 1073741952 0 0).minY
            (flatStorage 1073741824 1073741952 0 0).maxY) :=
  ⟨⟨by decide!, by decide!,
      NodeData.new .Root 16777216 ⟨8388610, 8388608⟩ none,
      by decide!, by decide!, by decide!, by decide!⟩,
    ⟨by decide!, by decide!,
      NodeData.new .Root 1 ⟨3 / 4, 1 / 2⟩ none,
      by decide!, by decide!, by decide!, by decide!⟩,
    ⟨by decide!, by decide!,
      NodeData.new .Root 128 ⟨1073741824, 64⟩ none,
      by decide!, by decide!, by decide!, by decide!⟩⟩

/-! ## The run of `buildQuadTree` -/

theorem Built.of_buildQuadTree (w : World) (fuel : ℕ) :
    ∀ (node : NodeData) (leafs : List NodeId) (t : QuadTreeNode) (l : List NodeId),
      w.buildQuadTree fuel node leafs = some (t, l) → Built w node leafs t l := by
  induction fuel with
  | zero => intro node leafs t l h; simp [World.buildQuadTree] at h
  | succ f ih =>
    intro node leafs t l h
    rw [World.buildQuadTree] at h
    simp only at h
    split at h
    · rename_i hsize
      split at h
      · rename_i minZ maxZ hdata
        simp only [Option.some.injEq, Prod.mk.injEq] at h
        obtain ⟨rfl, rfl⟩ := h
        exact Built.leafData node leafs minZ maxZ hsize hdata
      · rename_i hdata
        simp only [Option.some.injEq, Prod.mk.injEq] at h
        obtain ⟨rfl, rfl⟩ := h
        exact Built.leafNoData node leafs hsize hdata
    · rename_i hsize
      split at h
      · rename_i hout
        simp only [Option.some.injEq, Prod.mk.injEq] at h
        obtain ⟨rfl, rfl⟩ := h
        exact Built.outside node leafs hsize hout
      · rename_i hout
        split at h
        · exact absurd h (by simp)
        · rename_i swT leafs1 hsw
          split at h
          · exact absurd h (by simp)
          · rename_i seT leafs2 hse
            split at h
            · exact absurd h (by simp)
            · rename_i nwT leafs3 hnw
              split at h
              · exact absurd h (by simp)
              · rename_i neT leafs4 hne
                have hb := Built.subdivide node leafs leafs1 leafs2 leafs3 leafs4
                  swT seT nwT neT hsize (by simpa using hout)
                  (ih _ _ _ _ hsw) (ih _ _ _ _ hse) (ih _ _ _ _ hnw) (ih _ _ _ _ hne)
                split at h
                · rename_i hd
                  simp only [Option.some.injEq, Prod.mk.injEq] at h
                  obtain ⟨rfl, rfl⟩ := h
                  simpa [hd] using hb
                · rename_i hd
                  simp only [Option.some.injEq, Prod.mk.injEq] at h
                  obtain ⟨rfl, rfl⟩ := h
                  simpa [hd] using hb

theorem Built.data_eq {w : World} {node : NodeData} {leafs l : List NodeId} {t : QuadTreeNode}
    (h : Built w node leafs t l) :
    t.data.mSize = node.mSize ∧ t.data.mCenter = node.mCenter ∧ t.data.mId = node.mId
      ∧ t.data.mDirection = node.mDirection := by
  cases h with
  | leafData _ _ minZ maxZ hsize hdata => simp [QuadTreeNode.data, NodeData.setBoundingBox]
  | leafNoData _ _ hsize hdata => simp [QuadTreeNode.data, NodeData.markAsDummy]
  | outside _ _ hsize hout => simp [QuadTreeNode.data, NodeData.markAsDummy]
  | subdivide _ _ leafs1 leafs2 leafs3 _ swT seT nwT neT hsize hout hsw hse hnw hne =>
    simp only [QuadTreeNode.data]
    split <;> simp [NodeData.markAsDummy]

theorem Built.descend {w : World} {node : NodeData} {leafs l : List NodeId} {t : QuadTreeNode}
    (h : Built w node leafs t l) :
    ∀ (path : List ChildDirection) (n : QuadTreeNode), t.descend path = some n →
      ∃ node1 leafs1 l1, Built w node1 leafs1 n l1
        ∧ (node.mIsDummy = false → node1.mIsDummy = false) := by
  induction h with
  | leafData node leafs minZ maxZ hsize hdata =>
    intro path n hp
    cases path with
    | nil =>
      simp only [QuadTreeNode.descend, Option.some.injEq] at hp
      subst hp
      exact ⟨node, leafs, _, Built.leafData node leafs minZ maxZ hsize hdata, id⟩
    | cons dir rest => simp [QuadTreeNode.descend, QuadTreeNode.getChild] at hp
  | leafNoData node leafs hsize hdata =>
    intro path n hp
    cases path with
    | nil =>
      simp only [QuadTreeNode.descend, Option.some.injEq] at hp
      subst hp
      exact ⟨node, leafs, _, Built.leafNoData node leafs hsize hdata, id⟩
    | cons dir rest => simp [QuadTreeNode.descend, QuadTreeNode.getChild] at hp
  | outside node leafs hsize hout =>
    intro path n hp
    cases path with
    | nil =>
      simp only [QuadTreeNode.descend, Option.some.injEq] at hp
      subst hp
      exact ⟨node, leafs, _, Built.outside node leafs hsize hout, id⟩
    | cons dir rest => simp [QuadTreeNode.descend, QuadTreeNode.getChild] at hp
  | subdivide node leafs leafs1 leafs2 leafs3 leafs4 swT seT nwT neT hsize hout
      hsw hse hnw hne ihsw ihse ihnw ihne =>
    intro path n hp
    cases path with
    | nil =>
      simp only [QuadTreeNode.descend, Option.some.injEq] at hp
      subst hp
      exact ⟨node, leafs, _, Built.subdivide node leafs leafs1 leafs2 leafs3 leafs4
        swT seT nwT neT hsize hout hsw hse hnw hne, id⟩
    | cons dir rest =>
      cases dir with
      | SW =>
        simp only [QuadTreeNode.descend, QuadTreeNode.getChild] at hp
        obtain ⟨node1, leafs5, l1, hb, hf⟩ := ihsw rest n hp
        exact ⟨node1, leafs5, l1, hb, fun _ => hf rfl⟩
      | SE =>
        simp only [QuadTreeNode.descend, QuadTreeNode.getChild] at hp
        obtain ⟨node1, leafs5, l1, hb, hf⟩ := ihse rest n hp
        exact ⟨node1, leafs5, l1, hb, fun _ => hf rfl⟩
      | NW =>
        simp only [QuadTreeNode.descend, QuadTreeNode.getChild] at hp
        obtain ⟨node1, leafs5, l1, hb, hf⟩ := ihnw rest n hp
        exact ⟨node1, leafs5, l1, hb, fun _ => hf rfl⟩
      | NE =>
        simp only [QuadTreeNode.descend, QuadTreeNode.getChild] at hp
        obtain ⟨node1, leafs5, l1, hb, hf⟩ := ihne rest n hp
        exact ⟨node1, leafs5, l1, hb, fun _ => hf rfl⟩
      | Root => simp [QuadTreeNode.descend, QuadTreeNode.getChild] at hp

/-- The children of a subdivided node: each is built from the node made by
`createChild` with the rounded half of the size and the centre that
`buildQuadTree` computes for its quadrant. -/
theorem Built.child {w : World} {node : NodeData} {leafs l : List NodeId} {t : QuadTreeNode}
    (h : Built w node leafs t l) (dir : ChildDirection) (c : QuadTreeNode)
    (hc : t.getChild dir = some c) :
    ¬ node.mSize ≤ w.mMinBatchSize
      ∧ w.outOfBounds node.mCenter (w.round (node.mSize / 2)) = false
      ∧ t.hasChildren = true
      ∧ ∃ leafs1 l1, Built w (node.createChild dir (w.round (node.mSize / 2))
          (w.childCenter node dir)) leafs1 c l1 := by
  cases h with
  | leafData _ _ minZ maxZ hsize hdata => simp [QuadTreeNode.getChild] at hc
  | leafNoData _ _ hsize hdata => simp [QuadTreeNode.getChild] at hc
  | outside _ _ hsize hout => simp [QuadTreeNode.getChild] at hc
  | subdivide _ _ leafs1 leafs2 leafs3 _ swT seT nwT neT hsize hout hsw hse hnw hne =>
    refine ⟨hsize, hout, rfl, ?_⟩
    cases dir with
    | SW =>
      simp only [QuadTreeNode.getChild, Option.some.injEq] at hc
      subst hc
      exact ⟨leafs, leafs1, hsw⟩
    | SE =>
      simp only [QuadTreeNode.getChild, Option.some.injEq] at hc
      subst hc
      exact ⟨leafs1, leafs2, hse⟩
    | NW =>
      simp only [QuadTreeNode.getChild, Option.some.injEq] at hc
      subst hc
      exact ⟨leafs2, leafs3, hnw⟩
    | NE =>
      simp only [QuadTreeNode.getChild, Option.some.injEq] at hc
      subst hc
      exact ⟨leafs3, l, hne⟩
    | Root => simp [QuadTreeNode.getChild] at hc

theorem World.childCenter_congr (w : World) (d1 d2 : NodeData) (hs : d1.mSize = d2.mSize)
    (hc : d1.mCenter = d2.mCenter) (dir : ChildDirection) :
    w.childCenter d1 dir = w.childCenter d2 dir := by
  cases dir <;> simp only [World.childCenter, hs, hc]

theorem Built.child_data {w : World} {node : NodeData} {leafs l : List NodeId}
    {t : QuadTreeNode} (h : Built w node leafs t l) (dir : ChildDirection) (c : QuadTreeNode)
    (hc : t.getChild dir = some c) :
    c.data.mSize = w.round (t.data.mSize / 2)
      ∧ c.data.mCenter = w.childCenter t.data dir
      ∧ c.data.mId = t.data.mId ++ [dir] := by
  obtain ⟨_, _, _, leafs1, l1, hb⟩ := h.child dir c hc
  obtain ⟨e1, e2, e3, _⟩ := hb.data_eq
  obtain ⟨f1, f2, f3, _⟩ := h.data_eq
  rw [e1, e2, e3, f1, f3, w.childCenter_congr t.data node f1 f2]
  simp [NodeData.createChild, NodeData.new]

theorem getChild_ne_root (t : QuadTreeNode) (dir : ChildDirection) (c : QuadTreeNode)
    (h : t.getChild dir = some c) : dir ≠ .Root := by
  rintro rfl
  cases t <;> simp [QuadTreeNode.getChild] at h

/-! ## Children of a node -/

/-- On a node of size `2^(k+1)` on the grid of halves, with `|m| + 2^(k+1)`
and `|n| + 2^(k+1)` within 24 bits, an arithmetic that is exact on halves
computes the half size and the child centres without rounding; the children
lie on the grid again, with size `2^k`. -/
theorem World.childCenter_of_onGrid (w : World) (hr : ExactOnHalves w.round) (node : NodeData)
    (k : ℕ) (m n : ℤ) (hg : node.onGrid (k + 1) m n) (dir : ChildDirection)
    (hd : dir ≠ .Root) :
    w.round (node.mSize / 2) = node.mSize / 2
      ∧ w.childCenter node dir = ⟨node.mCenter.x + dir.signX * (node.mSize / 4),
          node.mCenter.y + dir.signY * (node.mSize / 4)⟩
      ∧ ∃ m1 n1 : ℤ, w.childCenter node dir = ⟨(m1 : ℚ) / 2, (n1 : ℚ) / 2⟩
          ∧ |m1| + 2 ^ k ≤ 2 ^ 24 ∧ |n1| + 2 ^ k ≤ 2 ^ 24 := by
  obtain ⟨hs, hc, hm, hn⟩ := hg
  have key : ∀ z : ℤ, |z| ≤ 2 ^ 24 → ∀ q : ℚ, q = (z : ℚ) / 2 → w.round q = q := by
    intro z hz q hq
    rw [hq]
    exact hr z hz
  have hp : (2 : ℤ) ^ (k + 1) = 2 * 2 ^ k := by ring
  have hq : (2 : ℚ) ^ (k + 1) = 2 * 2 ^ k := by ring
  have hk0 : (0 : ℤ) < 2 ^ k := by positivity
  rw [hp] at hm hn
  generalize hP : (2 : ℤ) ^ k = P at hm hn hk0
  have hPq : (2 : ℚ) ^ k = (P : ℚ) := by rw [← hP]; push_cast; rfl
  have am := abs_le.1 (show |m| ≤ 2 ^ 24 - 2 * P by omega)
  have an := abs_le.1 (show |n| ≤ 2 ^ 24 - 2 * P by omega)
  have bnd : ∀ z : ℤ, -(2 ^ 24) ≤ z → z ≤ 2 ^ 24 → |z| ≤ 2 ^ 24 := fun z h1 h2 =>
    abs_le.2 ⟨h1, h2⟩
  have e1 : w.round (node.mSize / 2) = (P : ℚ) := by
    rw [key (2 * P) (bnd _ (by omega) (by omega)) (node.mSize / 2)
      (by rw [hs, hq, hPq]; push_cast; ring), hs, hq, hPq]
    ring
  have e2 : w.round ((P : ℚ) / 2) = (P : ℚ) / 2 := key P (bnd _ (by omega) (by omega)) _ rfl
  have e3 : w.round (-(P : ℚ) / 2) = -(P : ℚ) / 2 :=
    key (-P) (bnd _ (by omega) (by omega)) _ (by push_cast; ring)
  have xm : w.round ((m : ℚ) / 2 - (P : ℚ) / 2) = ((m - P : ℤ) : ℚ) / 2 := by
    rw [key (m - P) (bnd _ (by omega) (by omega)) _ (by push_cast; ring)]
    push_cast; ring
  have xp : w.round ((m : ℚ) / 2 + (P : ℚ) / 2) = ((m + P : ℤ) : ℚ) / 2 := by
    rw [key (m + P) (bnd _ (by omega) (by omega)) _ (by push_cast; ring)]
    push_cast; ring
  have xp2 : w.round ((m : ℚ) / 2 + -(P : ℚ) / 2) = ((m - P : ℤ) : ℚ) / 2 := by
    rw [key (m - P) (bnd _ (by omega) (by omega)) _ (by push_cast; ring)]
    push_cast; ring
  have ym : w.round ((n : ℚ) / 2 - (P : ℚ) / 2) = ((n - P : ℤ) : ℚ) / 2 := by
    rw [key (n - P) (bnd _ (by omega) (by omega)) _ (by push_cast; ring)]
    push_cast; ring
  have yp : w.round ((n : ℚ) / 2 + (P : ℚ) / 2) = ((n + P : ℤ) : ℚ) / 2 := by
    rw [key (n + P) (bnd _ (by omega) (by omega)) _ (by push_cast; ring)]
    push_cast; ring
  have yp2 : w.round ((n : ℚ) / 2 + -(P : ℚ) / 2) = ((n - P : ℤ) : ℚ) / 2 := by
    rw [key (n - P) (bnd _ (by omega) (by omega)) _ (by push_cast; ring)]
    push_cast; ring
  have b1 : |m - P| + P ≤ 2 ^ 24 := by
    have := bnd (m - P) (by omega) (by omega)
    rcases abs_cases (m - P) with ⟨h, _⟩ | ⟨h, _⟩ <;> omega
  have b2 : |m + P| + P ≤ 2 ^ 24 := by
    rcases abs_cases (m + P) with ⟨h, _⟩ | ⟨h, _⟩ <;> omega
  have b3 : |n - P| + P ≤ 2 ^ 24 := by
    rcases abs_cases (n - P) with ⟨h, _⟩ | ⟨h, _⟩ <;> omega
  have b4 : |n + P| + P ≤ 2 ^ 24 := by
    rcases abs_cases (n + P) with ⟨h, _⟩ | ⟨h, _⟩ <;> omega
  have hsz : node.mSize / 2 = (P : ℚ) := by rw [hs, hq, hPq]; ring
  have hsq : node.mSize / 4 = (P : ℚ) / 2 := by rw [hs, hq, hPq]; ring
  refine ⟨by rw [e1, hsz], ?_⟩
  cases dir with
  | SW =>
    have e : w.childCenter node .SW = ⟨((m - P : ℤ) : ℚ) / 2, ((n - P : ℤ) : ℚ) / 2⟩ := by
      simp only [World.childCenter, Vector2.subScalar, e1, e2, hc, xm, ym]
    refine ⟨?_, m - P, n - P, e, b1, b3⟩
    rw [e, hc, hsq]
    simp only [ChildDirection.signX, ChildDirection.signY, Vector2.mk.injEq]
    constructor <;> (push_cast; ring)
  | SE =>
    have e : w.childCenter node .SE = ⟨((m + P : ℤ) : ℚ) / 2, ((n - P : ℤ) : ℚ) / 2⟩ := by
      simp only [World.childCenter, Vector2.add, e1, e2, e3, hc, xp, yp2]
    refine ⟨?_, m + P, n - P, e, b2, b3⟩
    rw [e, hc, hsq]
    simp only [ChildDirection.signX, ChildDirection.signY, Vector2.mk.injEq]
    constructor <;> (push_cast; ring)
  | NW =>
    have e : w.childCenter node .NW = ⟨((m - P : ℤ) : ℚ) / 2, ((n + P : ℤ) : ℚ) / 2⟩ := by
      simp only [World.childCenter, Vector2.add, e1, e2, e3, hc, xp2, yp]
    refine ⟨?_, m - P, n + P, e, b1, b4⟩
    rw [e, hc, hsq]
    simp only [ChildDirection.signX, ChildDirection.signY, Vector2.mk.injEq]
    constructor <;> (push_cast; ring)
  | NE =>
    have e : w.childCenter node .NE = ⟨((m + P : ℤ) : ℚ) / 2, ((n + P : ℤ) : ℚ) / 2⟩ := by
      simp only [World.childCenter, Vector2.addScalar, e1, e2, hc, xp, yp]
    refine ⟨?_, m + P, n + P, e, b2, b4⟩
    rw [e, hc, hsq]
    simp only [ChildDirection.signX, ChildDirection.signY, Vector2.mk.injEq]
    constructor <;> (push_cast; ring)
  | Root => exact absurd rfl hd

/-- On a node on the grid of halves the bounds test of `buildQuadTree`
computes the four edges of the square without rounding: it is the test on the
exact edges. -/
theorem World.outOfBounds_of_onGrid (w : World) (hr : ExactOnHalves w.round) (node : NodeData)
    (k : ℕ) (m n : ℤ) (hg : node.onGrid k m n) :
    w.outOfBounds node.mCenter (w.round (node.mSize / 2))
      = decide (node.mCenter.x - node.mSize / 2 > w.mMaxX
          ∨ node.mCenter.x + node.mSize / 2 < w.mMinX
          ∨ node.mCenter.y - node.mSize / 2 > w.mMaxY
          ∨ node.mCenter.y + node.mSize / 2 < w.mMinY) := by
  obtain ⟨hs, hc, hm, hn⟩ := hg
  have key : ∀ z : ℤ, |z| ≤ 2 ^ 24 → ∀ q : ℚ, q = (z : ℚ) / 2 → w.round q = q := by
    intro z hz q hq
    rw [hq]
    exact hr z hz
  have hk0 : (0 : ℤ) < 2 ^ k := by positivity
  generalize hP : (2 : ℤ) ^ k = P at hm hn hk0
  have hPq : (2 : ℚ) ^ k = (P : ℚ) := by rw [← hP]; push_cast; rfl
  have am := abs_le.1 (show |m| ≤ 2 ^ 24 - P by omega)
  have an := abs_le.1 (show |n| ≤ 2 ^ 24 - P by omega)
  have bnd : ∀ z : ℤ, -(2 ^ 24) ≤ z → z ≤ 2 ^ 24 → |z| ≤ 2 ^ 24 := fun z h1 h2 =>
    abs_le.2 ⟨h1, h2⟩
  have e1 : w.round (node.mSize / 2) = node.mSize / 2 :=
    key P (bnd _ (by omega) (by omega)) _ (by rw [hs, hPq])
  have xm : w.round (node.mCenter.x - node.mSize / 2) = node.mCenter.x - node.mSize / 2 :=
    key (m - P) (bnd _ (by omega) (by omega)) _ (by rw [hs, hc, hPq]; push_cast; ring)
  have xp : w.round (node.mCenter.x + node.mSize / 2) = node.mCenter.x + node.mSize / 2 :=
    key (m + P) (bnd _ (by omega) (by omega)) _ (by rw [hs, hc, hPq]; push_cast; ring)
  have ym : w.round (node.mCenter.y - node.mSize / 2) = node.mCenter.y - node.mSize / 2 :=
    key (n - P) (bnd _ (by omega) (by omega)) _ (by rw [hs, hc, hPq]; push_cast; ring)
  have yp : w.round (node.mCenter.y + node.mSize / 2) = node.mCenter.y + node.mSize / 2 :=
    key (n + P) (bnd _ (by omega) (by omega)) _ (by rw [hs, hc, hPq]; push_cast; ring)
  rw [World.outOfBounds, e1, xm, xp, ym, yp]

theorem covers_children (d : NodeData) (sw se nw ne : QuadTreeNode)
    (hall : ∀ dir c, (QuadTreeNode.branch d sw se nw ne).getChild dir = some c →
      c.data.mSize = d.mSize / 2
        ∧ c.data.mCenter = ⟨d.mCenter.x + dir.signX * (d.mSize / 4),
            d.mCenter.y + dir.signY * (d.mSize / 4)⟩)
    (p : Vector2) :
    d.covers p ↔ ∃ dir c, (QuadTreeNode.branch d sw se nw ne).getChild dir = some c
      ∧ c.data.covers p := by
  obtain ⟨s1, c1⟩ := hall .SW sw rfl
  obtain ⟨s2, c2⟩ := hall .SE se rfl
  obtain ⟨s3, c3⟩ := hall .NW nw rfl
  obtain ⟨s4, c4⟩ := hall .NE ne rfl
  simp only [ChildDirection.signX, ChildDirection.signY] at c1 c2 c3 c4
  constructor
  · rintro ⟨h1, h2, h3, h4⟩
    by_cases hx : p.x ≤ d.mCenter.x <;> by_cases hy : p.y ≤ d.mCenter.y
    · refine ⟨.SW, sw, rfl, ?_⟩
      simp only [NodeData.covers, s1, c1]
      refine ⟨?_, ?_, ?_, ?_⟩ <;> linarith
    · refine ⟨.NW, nw, rfl, ?_⟩
      simp only [NodeData.covers, s3, c3]
      refine ⟨?_, ?_, ?_, ?_⟩ <;> linarith
    · refine ⟨.SE, se, rfl, ?_⟩
      simp only [NodeData.covers, s2, c2]
      refine ⟨?_, ?_, ?_, ?_⟩ <;> linarith
    · refine ⟨.NE, ne, rfl, ?_⟩
      simp only [NodeData.covers, s4, c4]
      refine ⟨?_, ?_, ?_, ?_⟩ <;> linarith
  · rintro ⟨dir, c, hc, hcov⟩
    obtain ⟨s, e⟩ := hall dir c hc
    simp only [NodeData.covers, s, e] at hcov
    obtain ⟨h1, h2, h3, h4⟩ := hcov
    cases dir <;> simp only [ChildDirection.signX, ChildDirection.signY] at h1 h2 h3 h4 <;>
      (refine ⟨?_, ?_, ?_, ?_⟩ <;> linarith)

theorem coversInside_disjoint (d : NodeData) (dir1 dir2 : ChildDirection)
    (c1 c2 : NodeData) (hne : dir1 ≠ dir2) (h1 : dir1 ≠ .Root) (h2 : dir2 ≠ .Root)
    (hs1 : c1.mSize = d.mSize / 2) (hs2 : c2.mSize = d.mSize / 2)
    (hc1 : c1.mCenter = ⟨d.mCenter.x + dir1.signX * (d.mSize / 4),
      d.mCenter.y + dir1.signY * (d.mSize / 4)⟩)
    (hc2 : c2.mCenter = ⟨d.mCenter.x + dir2.signX * (d.mSize / 4),
      d.mCenter.y + dir2.signY * (d.mSize / 4)⟩)
    (p : Vector2) : ¬ (c1.coversInside p ∧ c2.coversInside p) := by
  rintro ⟨⟨a1, a2, a3, a4⟩, ⟨b1, b2, b3, b4⟩⟩
  rw [hs1, hc1] at a1 a2 a3 a4
  rw [hs2, hc2] at b1 b2 b3 b4
  cases dir1 <;> cases dir2 <;>
    simp only [ChildDirection.signX, ChildDirection.signY, ne_eq, not_true_eq_false,
      reduceCtorEq, not_false_eq_true] at hne h1 h2 a1 a2 a3 a4 b1 b2 b3 b4 <;>
    linarith

/-- C3, as amended: in the tree that `buildQuadTree` leaves in single
precision, for every node of size `2^(k+1)` with centre `(m/2, n/2)` where
`|m| + 2^(k+1) ≤ 2^24` and `|n| + 2^(k+1) ≤ 2^24`, every child has exactly
half the size of the node and a centre that is exactly a quarter of the size
away from the centre of the node on each axis, with the signs SW = (-,-),
SE = (+,-), NW = (-,+), NE = (+,+); so the squares of the four children cover
exactly the square of the node and no two of them share an inner point. -/
theorem buildQuadTree_children_tile (w : World) (fuel : ℕ) (node : NodeData)
    (leafs l : List NodeId) (t : QuadTreeNode)
    (hround : w.round = f32Round)
    (hb : w.buildQuadTree fuel node leafs = some (t, l))
    (path : List ChildDirection) (n : QuadTreeNode) (hn : t.descend path = some n)
    (k : ℕ) (m1 m2 : ℤ) (hg : n.data.onGrid (k + 1) m1 m2) :
    (∀ dir c, n.getChild dir = some c →
      c.getSize = n.getSize / 2
        ∧ c.getCenter = ⟨n.getCenter.x + dir.signX * (n.getSize / 4),
            n.getCenter.y + dir.signY * (n.getSize / 4)⟩)
      ∧ (n.hasChildren = true →
          ∀ p, n.data.covers p ↔ ∃ dir c, n.getChild dir = some c ∧ c.data.covers p)
      ∧ (∀ dir1 dir2 c1 c2 p, n.getChild dir1 = some c1 → n.getChild dir2 = some c2 →
          dir1 ≠ dir2 → ¬ (c1.data.coversInside p ∧ c2.data.coversInside p)) := by
  obtain ⟨node1, leafs1, l1, hbn, _⟩ :=
    (Built.of_buildQuadTree w fuel node leafs t l hb).descend path n hn
  have hr : ExactOnHalves w.round := hround ▸ exactOnHalves_f32Round
  have hall : ∀ dir c, n.getChild dir = some c →
      c.data.mSize = n.data.mSize / 2
        ∧ c.data.mCenter = ⟨n.data.mCenter.x + dir.signX * (n.data.mSize / 4),
            n.data.mCenter.y + dir.signY * (n.data.mSize / 4)⟩ := by
    intro dir c hc
    obtain ⟨e1, e2, _⟩ := hbn.child_data dir c hc
    obtain ⟨f1, f2, _⟩ := w.childCenter_of_onGrid hr n.data k m1 m2 hg dir
      (getChild_ne_root n dir c hc)
    exact ⟨e1.trans f1, e2.trans f2⟩
  refine ⟨hall, ?_, ?_⟩
  · intro hch p
    cases n with
    | leaf d => simp [QuadTreeNode.hasChildren] at hch
    | branch d sw se nw ne => exact covers_children d sw se nw ne hall p
  · intro dir1 dir2 c1 c2 p hc1 hc2 hne
    obtain ⟨s1, e1⟩ := hall dir1 c1 hc1
    obtain ⟨s2, e2⟩ := hall dir2 c2 hc2
    exact coversInside_disjoint n.data dir1 dir2 c1.data c2.data hne
      (getChild_ne_root n dir1 c1 hc1) (getChild_ne_root n dir2 c2 hc2) s1 s2 e1 e2 p

/-- The example tree and leaf list are what `buildQuadTree` returns with fuel 4. -/
theorem exampleTree_built :
    exampleWorld.buildQuadTree 4 exampleRoot [] = some (exampleTree, exampleLeafs) := by
  decide!

/-- The tree and leaf list of the world above `2^24` are what `buildQuadTree`
returns with fuel 3. -/
theorem coarseTree_built :
    coarseWorld.buildQuadTree 3 coarseRoot [] = some (coarseTree, coarseLeafs) := by
  decide!

/-- Witness of C3 as amended: the root of the example tree, of size
`128 = 2^7` at `(64,64) = (128/2, 128/2)`, has four children of size 64 whose
centres are 32 away on each axis. -/
theorem buildQuadTree_children_tile_witness :
    exampleWorld.buildQuadTree 4 exampleRoot [] = some (exampleTree, exampleLeafs)
      ∧ exampleTree.descend [] = some exampleTree
      ∧ exampleWorld.round = f32Round
      ∧ exampleTree.data.onGrid (6 + 1) 128 128
      ∧ exampleTree.hasChildren = true
      ∧ ∀ dir c, exampleTree.getChild dir = some c →
          c.getSize = exampleTree.getSize / 2
            ∧ c.getCenter = ⟨exampleTree.getCenter.x + dir.signX * (exampleTree.getSize / 4),
                exampleTree.getCenter.y + dir.signY * (exampleTree.getSize / 4)⟩ :=
  ⟨exampleTree_built, rfl, rfl, by unfold NodeData.onGrid; decide!, by decide!,
    (buildQuadTree_children_tile exampleWorld 4 exampleRoot [] exampleLeafs exampleTree
      rfl exampleTree_built [] exampleTree rfl 6 128 128
        (by unfold NodeData.onGrid; decide!)).1⟩

/-- C3 as stated fails: with the bounds (16777216,0)-(16777220,4) the
constructor makes the root of size 4 at (16777218,2), which `buildQuadTree`
subdivides. A quarter of the size is 1, but 16777217 and 16777219 are not
`float`s: the centres of the SW and SE children are rounded to x = 16777216
and x = 16777220, a half of the size away from the centre of the root. The
squares of the children of size 2 leave the strip between x = 16777217 and
x = 16777219 bare: the point (16777218,1) of the square of the root lies in
the square of no child. -/
theorem buildQuadTree_children_tile_counterexample :
    rootNode f32Round (flatStorage 16777216 16777220 0 4) = some coarseRoot
      ∧ coarseWorld.round = f32Round
      ∧ coarseWorld.buildQuadTree 3 coarseRoot [] = some (coarseTree, coarseLeafs)
      ∧ coarseTree.getSize = 4 ∧ coarseTree.getCenter = ⟨16777218, 2⟩
      ∧ (coarseTree.getChild .SW).map QuadTreeNode.getCenter = some ⟨16777216, 1⟩
      ∧ (coarseTree.getChild .SE).map QuadTreeNode.getCenter = some ⟨16777220, 1⟩
      ∧ (coarseTree.getChild .SW).map QuadTreeNode.getSize = some 2
      ∧ ¬ (∀ dir c, coarseTree.getChild dir = some c →
            c.getCenter = ⟨coarseTree.getCenter.x + dir.signX * (coarseTree.getSize / 4),
              coarseTree.getCenter.y + dir.signY * (coarseTree.getSize / 4)⟩)
      ∧ coarseTree.data.covers ⟨16777218, 1⟩
      ∧ ¬ ∃ dir c, coarseTree.getChild dir = some c ∧ c.data.covers ⟨16777218, 1⟩ := by
  have hsw : (coarseTree.getChild .SW).map QuadTreeNode.getCenter = some ⟨16777216, 1⟩ := by
    decide!
  refine ⟨by decide!, rfl, coarseTree_built, by decide!, by decide!, hsw, by decide!,
    by decide!, ?_, by unfold NodeData.covers; decide!, ?_⟩
  · intro h
    cases hc : coarseTree.getChild .SW with
    | none => rw [hc] at hsw; exact absurd hsw (by simp)
    | some c =>
      have h1 := h .SW c hc
      rw [hc] at hsw
      simp only [Option.map_some', Option.some.injEq] at hsw
      rw [hsw] at h1
      revert h1
      decide!
  · rintro ⟨dir, c, hc, hcov⟩
    have hall : ∀ d : ChildDirection, ∀ x ∈ coarseTree.getChild d,
        ¬ (x.data.mCenter.x - x.data.mSize / 2 ≤ 16777218
          ∧ (16777218 : ℚ) ≤ x.data.mCenter.x + x.data.mSize / 2) := by
      intro d
      cases d <;> decide!
    exact hall dir c hc ⟨hcov.1, hcov.2.1⟩

/-! ## The dummy flag -/

/-- The bounds test of `buildQuadTree` in single precision on a node on the
grid of halves is the geometric test: it succeeds if and only if the square
of the node lies entirely outside the grid bounds. -/
theorem World.outOfBounds_iff_outsideBounds (w : World) (hr : ExactOnHalves w.round)
    (node : NodeData) (k : ℕ) (m n : ℤ) (hg : node.onGrid k m n) :
    w.outOfBounds node.mCenter (w.round (node.mSize / 2)) = true
      ↔ node.outsideBounds w.mMinX w.mMaxX w.mMinY w.mMaxY := by
  rw [w.outOfBounds_of_onGrid hr node k m n hg, decide_eq_true_eq, NodeData.outsideBounds]

/-- C4, as amended: after `buildQuadTree` on a freshly created node, a node
of the tree is marked dummy if and only if it is of leaf size (size at most
the minimum batch size) and the storage reports no height data for it, or it
is larger than leaf size and the bounds test of `buildQuadTree` finds its
square entirely outside the grid bounds, or it has four children and all four
are dummy. The bounds test compares the edges `center ± size/2` as computed
in `float`; in single precision, for a node of size `2^k` with centre
`(m/2, n/2)` where `|m| + 2^k ≤ 2^24` and `|n| + 2^k ≤ 2^24`, the edges are
exact and the test succeeds if and only if the square lies entirely outside
the grid bounds. -/
theorem buildQuadTree_dummy_iff (w : World) (fuel : ℕ) (node : NodeData)
    (leafs l : List NodeId) (t : QuadTreeNode)
    (hfresh : node.mIsDummy = false)
    (hb : w.buildQuadTree fuel node leafs = some (t, l))
    (path : List ChildDirection) (n : QuadTreeNode) (hn : t.descend path = some n) :
    (n.isDummy = true ↔
      (n.getSize ≤ w.mMinBatchSize
          ∧ w.mStorage.getMinMaxHeights n.getSize n.getCenter = none)
        ∨ (¬ n.getSize ≤ w.mMinBatchSize
          ∧ w.outOfBounds n.getCenter (w.round (n.getSize / 2)) = true)
        ∨ n.allChildrenDummy = true)
      ∧ (w.round = f32Round → ∀ (k : ℕ) (m1 m2 : ℤ), n.data.onGrid k m1 m2 →
          (w.outOfBounds n.getCenter (w.round (n.getSize / 2)) = true
            ↔ n.data.outsideBounds w.mMinX w.mMaxX w.mMinY w.mMaxY)) := by
  refine ⟨?_, fun hround k m1 m2 hg =>
    w.outOfBounds_iff_outsideBounds (hround ▸ exactOnHalves_f32Round) n.data k m1 m2 hg⟩
  obtain ⟨node1, leafs1, l1, hbn, hf⟩ :=
    (Built.of_buildQuadTree w fuel node leafs t l hb).descend path n hn
  have hf1 := hf hfresh
  cases hbn with
  | leafData _ _ minZ maxZ hsize hdata =>
    simp [QuadTreeNode.isDummy, QuadTreeNode.getSize, QuadTreeNode.getCenter,
      QuadTreeNode.data, NodeData.setBoundingBox, QuadTreeNode.allChildrenDummy, hf1, hsize,
      hdata]
  | leafNoData _ _ hsize hdata =>
    simp [QuadTreeNode.isDummy, QuadTreeNode.getSize, QuadTreeNode.getCenter,
      QuadTreeNode.data, NodeData.markAsDummy, hsize, hdata]
  | outside _ _ hsize hout =>
    simp [QuadTreeNode.isDummy, QuadTreeNode.getSize, QuadTreeNode.getCenter,
      QuadTreeNode.data, NodeData.markAsDummy, hsize, hout]
  | subdivide _ _ leafs1 leafs2 leafs3 _ swT seT nwT neT hsize hout hsw hse hnw hne =>
    have hs : (QuadTreeNode.branch
        (if (nwT.isDummy && neT.isDummy && swT.isDummy && seT.isDummy) = true
          then node1.markAsDummy else node1) swT seT nwT neT).getSize = node1.mSize := by
      show (ite _ _ _ : NodeData).mSize = _
      split <;> rfl
    have hc : (QuadTreeNode.branch
        (if (nwT.isDummy && neT.isDummy && swT.isDummy && seT.isDummy) = true
          then node1.markAsDummy else node1) swT seT nwT neT).getCenter = node1.mCenter := by
      show (ite _ _ _ : NodeData).mCenter = _
      split <;> rfl
    have ha : (QuadTreeNode.branch
        (if (nwT.isDummy && neT.isDummy && swT.isDummy && seT.isDummy) = true
          then node1.markAsDummy else node1) swT seT nwT neT).allChildrenDummy
        = (swT.isDummy && seT.isDummy && nwT.isDummy && neT.isDummy) := rfl
    have hi : (QuadTreeNode.branch
        (if (nwT.isDummy && neT.isDummy && swT.isDummy && seT.isDummy) = true
          then node1.markAsDummy else node1) swT seT nwT neT).isDummy
        = (ite ((nwT.isDummy && neT.isDummy && swT.isDummy && seT.isDummy) = true)
            node1.markAsDummy node1).mIsDummy := rfl
    rw [hs, hc, ha, hi]
    by_cases hd : (nwT.isDummy && neT.isDummy && swT.isDummy && seT.isDummy) = true
    · rw [if_pos hd]
      simp only [Bool.and_eq_true] at hd ⊢
      simp [NodeData.markAsDummy, hd]
    · rw [if_neg hd, hf1]
      simp only [Bool.and_eq_true] at hd ⊢
      simp only [hsize, hout, false_and, not_false_eq_true, true_and, false_or,
        Bool.false_eq_true]
      tauto

/-- Witness of C4 as amended: the root of the example tree, of size
`128 = 2^7` at `(64,64)`. -/
theorem buildQuadTree_dummy_iff_witness :
    exampleRoot.mIsDummy = false
      ∧ exampleWorld.buildQuadTree 4 exampleRoot [] = some (exampleTree, exampleLeafs)
      ∧ exampleTree.descend [] = some exampleTree
      ∧ (exampleTree.isDummy = true ↔
          (exampleTree.getSize ≤ exampleWorld.mMinBatchSize
              ∧ exampleWorld.mStorage.getMinMaxHeights exampleTree.getSize
                  exampleTree.getCenter = none)
            ∨ (¬ exampleTree.getSize ≤ exampleWorld.mMinBatchSize
              ∧ exampleWorld.outOfBounds exampleTree.getCenter
                  (exampleWorld.round (exampleTree.getSize / 2)) = true)
            ∨ exampleTree.allChildrenDummy = true)
      ∧ (exampleWorld.outOfBounds exampleTree.getCenter
            (exampleWorld.round (exampleTree.getSize / 2)) = true
          ↔ exampleTree.data.outsideBounds exampleWorld.mMinX exampleWorld.mMaxX
              exampleWorld.mMinY exampleWorld.mMaxY) :=
  ⟨rfl, exampleTree_built, rfl,
    (buildQuadTree_dummy_iff exampleWorld 4 exampleRoot [] exampleLeafs exampleTree rfl
      exampleTree_built [] exampleTree rfl).1,
    (buildQuadTree_dummy_iff exampleWorld 4 exampleRoot [] exampleLeafs exampleTree rfl
      exampleTree_built [] exampleTree rfl).2 rfl 7 128 128
        (by unfold NodeData.onGrid; decide!)⟩

/-- C4 as stated fails: in the tree of the example (bounds (0,0)-(100,60),
minimum batch size 16, height data everywhere) the node reached by SE, SE, SE
has size 16 and centre (120,8); its square lies entirely outside the grid
bounds, yet it is a leaf with height data and is not marked dummy. -/
theorem buildQuadTree_dummy_iff_counterexample :
    rootNode f32Round (flatStorage 0 100 0 60) = some exampleRoot
      ∧ exampleWorld.buildQuadTree 4 exampleRoot [] = some (exampleTree, exampleLeafs)
      ∧ ∃ n, exampleTree.descend [.SE, .SE, .SE] = some n
        ∧ n.getSize = 16 ∧ n.getCenter = ⟨120, 8⟩
        ∧ n.data.outsideBounds exampleWorld.mMinX exampleWorld.mMaxX
            exampleWorld.mMinY exampleWorld.mMaxY
        ∧ exampleWorld.outOfBounds n.getCenter (exampleWorld.round (n.getSize / 2)) = true
        ∧ ¬ (n.isDummy = true ↔
            (exampleWorld.mStorage.getMinMaxHeights n.getSize n.getCenter = none
              ∨ exampleWorld.outOfBounds n.getCenter (exampleWorld.round (n.getSize / 2)) = true
              ∨ n.allChildrenDummy = true)) := by
  refine ⟨by decide!, exampleTree_built,
    (exampleTree.descend [.SE, .SE, .SE]).getD exampleTree, by decide!, by decide!, by decide!,
    by decide!, by decide!, by decide!⟩

/-! ## Leaves -/

/-- C5, as amended: after `buildQuadTree` on a freshly created node, a node
of the tree is a leaf (has no children) if and only if its size is at most the
minimum batch size or the bounds test of `buildQuadTree` finds its square
entirely outside the grid bounds; every leaf is of leaf size or marked dummy;
and a node that is marked dummy is a leaf or has four dummy children, which
it keeps. The bounds test compares the edges `center ± size/2` as computed in
`float`; in single precision, for a node of size `2^k` with centre
`(m/2, n/2)` where `|m| + 2^k ≤ 2^24` and `|n| + 2^k ≤ 2^24`, the edges are
exact and the test succeeds if and only if the square lies entirely outside
the grid bounds. -/
theorem buildQuadTree_leaf_iff (w : World) (fuel : ℕ) (node : NodeData)
    (leafs l : List NodeId) (t : QuadTreeNode)
    (hfresh : node.mIsDummy = false)
    (hb : w.buildQuadTree fuel node leafs = some (t, l))
    (path : List ChildDirection) (n : QuadTreeNode) (hn : t.descend path = some n) :
    (n.hasChildren = false ↔
        n.getSize ≤ w.mMinBatchSize
          ∨ w.outOfBounds n.getCenter (w.round (n.getSize / 2)) = true)
      ∧ (n.hasChildren = false → n.getSize ≤ w.mMinBatchSize ∨ n.isDummy = true)
      ∧ (n.isDummy = true → n.hasChildren = false ∨ n.allChildrenDummy = true)
      ∧ (w.round = f32Round → ∀ (k : ℕ) (m1 m2 : ℤ), n.data.onGrid k m1 m2 →
          (w.outOfBounds n.getCenter (w.round (n.getSize / 2)) = true
            ↔ n.data.outsideBounds w.mMinX w.mMaxX w.mMinY w.mMaxY)) := by
  have hgrid : w.round = f32Round → ∀ (k : ℕ) (m1 m2 : ℤ), n.data.onGrid k m1 m2 →
      (w.outOfBounds n.getCenter (w.round (n.getSize / 2)) = true
        ↔ n.data.outsideBounds w.mMinX w.mMaxX w.mMinY w.mMaxY) := fun hround k m1 m2 hg =>
    w.outOfBounds_iff_outsideBounds (hround ▸ exactOnHalves_f32Round) n.data k m1 m2 hg
  obtain ⟨node1, leafs1, l1, hbn, hf⟩ :=
    (Built.of_buildQuadTree w fuel node leafs t l hb).descend path n hn
  have hf1 := hf hfresh
  obtain ⟨e1, e2, _, _⟩ := hbn.data_eq
  have hs : n.getSize = node1.mSize := e1
  have hc : n.getCenter = node1.mCenter := e2
  refine ⟨?_, ?_, ?_, hgrid⟩
  · rw [hs, hc]
    cases hbn with
    | leafData _ _ minZ maxZ hsize hdata => simp [QuadTreeNode.hasChildren, hsize]
    | leafNoData _ _ hsize hdata => simp [QuadTreeNode.hasChildren, hsize]
    | outside _ _ hsize hout => simp [QuadTreeNode.hasChildren, hout]
    | subdivide _ _ leafs1 leafs2 leafs3 _ swT seT nwT neT hsize hout hsw hse hnw hne =>
      simp [QuadTreeNode.hasChildren, hsize, hout]
  · rw [hs]
    cases hbn with
    | leafData _ _ minZ maxZ hsize hdata => simp [hsize]
    | leafNoData _ _ hsize hdata => simp [hsize]
    | outside _ _ hsize hout => exact fun _ => Or.inr rfl
    | subdivide _ _ leafs1 leafs2 leafs3 _ swT seT nwT neT hsize hout hsw hse hnw hne =>
      simp [QuadTreeNode.hasChildren]
  · cases hbn with
    | leafData _ _ minZ maxZ hsize hdata => exact fun _ => Or.inl rfl
    | leafNoData _ _ hsize hdata => exact fun _ => Or.inl rfl
    | outside _ _ hsize hout => exact fun _ => Or.inl rfl
    | subdivide _ _ leafs1 leafs2 leafs3 _ swT seT nwT neT hsize hout hsw hse hnw hne =>
      intro hd
      right
      by_cases hall : (nwT.isDummy && neT.isDummy && swT.isDummy && seT.isDummy) = true
      · simp only [Bool.and_eq_true] at hall
        simp [QuadTreeNode.allChildrenDummy, hall]
      · exfalso
        have hi : (QuadTreeNode.branch
            (if (nwT.isDummy && neT.isDummy && swT.isDummy && seT.isDummy) = true
              then node1.markAsDummy else node1) swT seT nwT neT).isDummy
            = (ite ((nwT.isDummy && neT.isDummy && swT.isDummy && seT.isDummy) = true)
                node1.markAsDummy node1).mIsDummy := rfl
        rw [hi, if_neg hall, hf1] at hd
        exact absurd hd (by simp)

/-- Witness of C5 as amended: the root of the example tree. -/
theorem buildQuadTree_leaf_iff_witness :
    exampleRoot.mIsDummy = false
      ∧ exampleWorld.buildQuadTree 4 exampleRoot [] = some (exampleTree, exampleLeafs)
      ∧ exampleTree.descend [] = some exampleTree
      ∧ (exampleTree.hasChildren = false ↔
          exampleTree.getSize ≤ exampleWorld.mMinBatchSize
            ∨ exampleWorld.outOfBounds exampleTree.getCenter
                (exampleWorld.round (exampleTree.getSize / 2)) = true) :=
  ⟨rfl, exampleTree_built, rfl,
    (buildQuadTree_leaf_iff exampleWorld 4 exampleRoot [] exampleLeafs exampleTree rfl
      exampleTree_built [] exampleTree rfl).1⟩

/-- C5 as stated fails: with bounds (0,0)-(2,2), minimum batch size 1 and no
height data anywhere, the root of size 2 gets four leaf children, all dummy,
and is then marked dummy itself; it is dummy and yet not a leaf. -/
theorem buildQuadTree_leaf_iff_counterexample :
    rootNode f32Round (emptyStorage 0 2 0 2) = some hollowRoot
      ∧ hollowWorld.buildQuadTree 2 hollowRoot [] = some (hollowTree, [])
      ∧ hollowTree.descend [] = some hollowTree
      ∧ hollowTree.isDummy = true
      ∧ hollowTree.hasChildren = true
      ∧ ¬ (hollowTree.hasChildren = false ↔
            hollowTree.getSize ≤ hollowWorld.mMinBatchSize ∨ hollowTree.isDummy = true) := by
  refine ⟨by decide!, by decide!, rfl, by decide!, by decide!, by decide!⟩

/-! ## Finding a node by its centre -/

theorem Built.descend_id {w : World} {node : NodeData} {leafs l : List NodeId}
    {t : QuadTreeNode} (h : Built w node leafs t l) :
    ∀ (path : List ChildDirection) (n : QuadTreeNode), t.descend path = some n →
      n.data.mId = node.mId ++ path := by
  induction h with
  | leafData node leafs minZ maxZ hsize hdata =>
    intro path n hp
    cases path with
    | nil =>
      simp only [QuadTreeNode.descend, Option.some.injEq] at hp
      subst hp
      simp [QuadTreeNode.data, NodeData.setBoundingBox]
    | cons dir rest => simp [QuadTreeNode.descend, QuadTreeNode.getChild] at hp
  | leafNoData node leafs hsize hdata =>
    intro path n hp
    cases path with
    | nil =>
      simp only [QuadTreeNode.descend, Option.some.injEq] at hp
      subst hp
      simp [QuadTreeNode.data, NodeData.markAsDummy]
    | cons dir rest => simp [QuadTreeNode.descend, QuadTreeNode.getChild] at hp
  | outside node leafs hsize hout =>
    intro path n hp
    cases path with
    | nil =>
      simp only [QuadTreeNode.descend, Option.some.injEq] at hp
      subst hp
      simp [QuadTreeNode.data, NodeData.markAsDummy]
    | cons dir rest => simp [QuadTreeNode.descend, QuadTreeNode.getChild] at hp
  | subdivide node leafs leafs1 leafs2 leafs3 leafs4 swT seT nwT neT hsize hout
      hsw hse hnw hne ihsw ihse ihnw ihne =>
    intro path n hp
    cases path with
    | nil =>
      simp only [QuadTreeNode.descend, Option.some.injEq] at hp
      subst hp
      simp only [QuadTreeNode.data, List.append_nil]
      split <;> rfl
    | cons dir rest =>
      cases dir with
      | SW =>
        simp only [QuadTreeNode.descend, QuadTreeNode.getChild] at hp
        rw [ihsw rest n hp]
        simp [NodeData.createChild, NodeData.new]
      | SE =>
        simp only [QuadTreeNode.descend, QuadTreeNode.getChild] at hp
        rw [ihse rest n hp]
        simp [NodeData.createChild, NodeData.new]
      | NW =>
        simp only [QuadTreeNode.descend, QuadTreeNode.getChild] at hp
        rw [ihnw rest n hp]
        simp [NodeData.createChild, NodeData.new]
      | NE =>
        simp only [QuadTreeNode.descend, QuadTreeNode.getChild] at hp
        rw [ihne rest n hp]
        simp [NodeData.createChild, NodeData.new]
      | Root => simp [QuadTreeNode.descend, QuadTreeNode.getChild] at hp

theorem findNode_self (n : QuadTreeNode) : findNode n.data.mCenter n = some n := by
  cases n <;> simp [findNode, QuadTreeNode.data]

theorem findNode_branch_child (center : Vector2) (d : NodeData) (sw se nw ne : QuadTreeNode)
    (dir : ChildDirection) (c : QuadTreeNode)
    (hc : (QuadTreeNode.branch d sw se nw ne).getChild dir = some c)
    (hx : 0 < dir.signX * (center.x - d.mCenter.x))
    (hy : 0 < dir.signY * (center.y - d.mCenter.y)) :
    findNode center (.branch d sw se nw ne) = findNode center c := by
  have hne : center ≠ d.mCenter := by
    rintro rfl
    simp at hx
  rw [findNode, if_neg hne]
  cases dir with
  | SW =>
    simp only [QuadTreeNode.getChild, Option.some.injEq] at hc
    subst hc
    simp only [ChildDirection.signX, ChildDirection.signY] at hx hy
    have h1 : ¬ center.x > d.mCenter.x := by intro h; linarith
    have h2 : ¬ center.y > d.mCenter.y := by intro h; linarith
    simp [h1, h2]
  | SE =>
    simp only [QuadTreeNode.getChild, Option.some.injEq] at hc
    subst hc
    simp only [ChildDirection.signX, ChildDirection.signY] at hx hy
    have h1 : center.x > d.mCenter.x := by linarith
    have h2 : ¬ center.y > d.mCenter.y := by intro h; linarith
    have h3 : center.y < d.mCenter.y := by linarith
    simp [h1, h2, h3]
  | NW =>
    simp only [QuadTreeNode.getChild, Option.some.injEq] at hc
    subst hc
    simp only [ChildDirection.signX, ChildDirection.signY] at hx hy
    have h1 : ¬ center.x > d.mCenter.x := by intro h; linarith
    have h2 : center.y > d.mCenter.y := by linarith
    have h3 : center.x < d.mCenter.x := by linarith
    simp [h1, h2, h3]
  | NE =>
    simp only [QuadTreeNode.getChild, Option.some.injEq] at hc
    subst hc
    simp only [ChildDirection.signX, ChildDirection.signY] at hx hy
    have h1 : center.x > d.mCenter.x := by linarith
    have h2 : center.y > d.mCenter.y := by linarith
    simp [h1, h2]
  | Root => simp [QuadTreeNode.getChild] at hc

theorem sign_mul_pos (s a q : ℚ) (hs : s = 1 ∨ s = -1)
    (h1 : s * q - q < a) (h2 : a < s * q + q) : 0 < s * a := by
  rcases hs with rfl | rfl <;> linarith

theorem ChildDirection.signX_cases (dir : ChildDirection) (h : dir ≠ .Root) :
    dir.signX = 1 ∨ dir.signX = -1 := by
  cases dir <;> simp [ChildDirection.signX] at h ⊢

theorem ChildDirection.signY_cases (dir : ChildDirection) (h : dir ≠ .Root) :
    dir.signY = 1 ∨ dir.signY = -1 := by
  cases dir <;> simp [ChildDirection.signY] at h ⊢
/-- The child of a node on the grid of halves, in an arithmetic that is exact
on halves and with a minimum batch size of at least 1: the size of the node is
`2^(k1+1)`, and the child was built from a node on the grid with exactly half
the size and the centre exactly a quarter of the size away on each axis. -/
theorem Built.child_onGrid {w : World} (hr : ExactOnHalves w.round)
    (hmin : 1 ≤ w.mMinBatchSize) {node : NodeData} {leafs l : List NodeId}
    {t : QuadTreeNode} (h : Built w node leafs t l) (k : ℕ) (m n : ℤ)
    (hg : node.onGrid k m n) (dir : ChildDirection) (c : QuadTreeNode)
    (hc : t.getChild dir = some c) :
    ∃ (k1 : ℕ) (m1 n1 : ℤ) (child : NodeData) (leafs1 l1 : List NodeId),
      k = k1 + 1 ∧ Built w child leafs1 c l1 ∧ child.onGrid k1 m1 n1
        ∧ child.mSize = node.mSize / 2
        ∧ child.mCenter = ⟨node.mCenter.x + dir.signX * (node.mSize / 4),
            node.mCenter.y + dir.signY * (node.mSize / 4)⟩ := by
  obtain ⟨hsize, _, _, leafs1, l1, hb⟩ := h.child dir c hc
  have hk : k ≠ 0 := by
    rintro rfl
    apply hsize
    rw [hg.1]
    simpa using hmin
  obtain ⟨k1, rfl⟩ : ∃ k1, k = k1 + 1 := ⟨k - 1, by omega⟩
  obtain ⟨f1, f2, m1, n1, f3, f4, f5⟩ :=
    w.childCenter_of_onGrid hr node k1 m n hg dir (getChild_ne_root t dir c hc)
  have hhalf : node.mSize / 2 = 2 ^ k1 := by rw [hg.1]; ring
  refine ⟨k1, m1, n1, _, leafs1, l1, rfl, hb, ⟨?_, ?_, f4, f5⟩, ?_, ?_⟩
  · simp only [NodeData.createChild, NodeData.new]
    rw [f1, hhalf]
  · simp only [NodeData.createChild, NodeData.new]
    exact f3
  · simp only [NodeData.createChild, NodeData.new]
    exact f1
  · simp only [NodeData.createChild, NodeData.new]
    exact f2

/-- From a node on the grid, the centre of every node of the subtree lies
strictly inside the square of the node the subtree was built from. -/
theorem Built.center_inside {w : World} (hr : ExactOnHalves w.round)
    (hmin : 1 ≤ w.mMinBatchSize) :
    ∀ (path : List ChildDirection) (node : NodeData) (leafs l : List NodeId)
      (t n : QuadTreeNode) (k : ℕ) (m1 m2 : ℤ), Built w node leafs t l →
      node.onGrid k m1 m2 → t.descend path = some n → node.coversInside n.data.mCenter := by
  intro path
  induction path with
  | nil =>
    intro node leafs l t n k m1 m2 hb hg hp
    simp only [QuadTreeNode.descend, Option.some.injEq] at hp
    subst hp
    obtain ⟨_, e2, _, _⟩ := hb.data_eq
    have hpos : (0 : ℚ) < node.mSize := by rw [hg.1]; positivity
    rw [e2]
    simp only [NodeData.coversInside]
    refine ⟨?_, ?_, ?_, ?_⟩ <;> linarith
  | cons dir rest ih =>
    intro node leafs l t n k m1 m2 hb hg hp
    simp only [QuadTreeNode.descend] at hp
    cases hc : t.getChild dir with
    | none => simp [hc] at hp
    | some c =>
      simp only [hc] at hp
      obtain ⟨k1, a1, a2, child, leafs1, l1, _, hbc, hgc, hs, hcc⟩ :=
        hb.child_onGrid hr hmin k m1 m2 hg dir c hc
      obtain ⟨i1, i2, i3, i4⟩ := ih child leafs1 l1 c n k1 a1 a2 hbc hgc hp
      have hpos : (0 : ℚ) < node.mSize := by rw [hg.1]; positivity
      rw [hs, hcc] at i1 i2 i3 i4
      simp only at i1 i2 i3 i4
      have hroot := getChild_ne_root t dir c hc
      simp only [NodeData.coversInside]
      rcases ChildDirection.signX_cases dir hroot with sx | sx <;>
        rcases ChildDirection.signY_cases dir hroot with sy | sy <;>
        rw [sx] at i1 i2 <;> rw [sy] at i3 i4 <;>
        (refine ⟨?_, ?_, ?_, ?_⟩ <;> linarith)

/-- From a node on the grid, `findNode` called with the centre of a node of
the tree comes down to that very node. -/
theorem Built.findNode_descend {w : World} (hr : ExactOnHalves w.round)
    (hmin : 1 ≤ w.mMinBatchSize) :
    ∀ (path : List ChildDirection) (node : NodeData) (leafs l : List NodeId)
      (t n : QuadTreeNode) (k : ℕ) (m1 m2 : ℤ), Built w node leafs t l →
      node.onGrid k m1 m2 → t.descend path = some n →
      findNode n.data.mCenter t = some n := by
  intro path
  induction path with
  | nil =>
    intro node leafs l t n k m1 m2 _ _ hp
    simp only [QuadTreeNode.descend, Option.some.injEq] at hp
    subst hp
    exact findNode_self t
  | cons dir rest ih =>
    intro node leafs l t n k m1 m2 hb hg hp
    simp only [QuadTreeNode.descend] at hp
    cases hc : t.getChild dir with
    | none => simp [hc] at hp
    | some c =>
      simp only [hc] at hp
      obtain ⟨k1, a1, a2, child, leafs1, l1, _, hbc, hgc, hs, hcc⟩ :=
        hb.child_onGrid hr hmin k m1 m2 hg dir c hc
      have hroot := getChild_ne_root t dir c hc
      obtain ⟨i1, i2, i3, i4⟩ :=
        Built.center_inside hr hmin rest child leafs1 l1 c n k1 a1 a2 hbc hgc hp
      rw [hs, hcc] at i1 i2 i3 i4
      simp only at i1 i2 i3 i4
      have hfc := ih child leafs1 l1 c n k1 a1 a2 hbc hgc hp
      have hpos : (0 : ℚ) < node.mSize := by rw [hg.1]; positivity
      obtain ⟨_, e2, _, _⟩ := hb.data_eq
      cases t with
      | leaf d => simp [QuadTreeNode.getChild] at hc
      | branch d sw se nw ne =>
        simp only [QuadTreeNode.data] at e2
        rw [findNode_branch_child n.data.mCenter d sw se nw ne dir c hc, hfc]
        · rw [e2]
          apply sign_mul_pos _ _ (node.mSize / 4) (ChildDirection.signX_cases dir hroot)
            <;> linarith
        · rw [e2]
          apply sign_mul_pos _ _ (node.mSize / 4) (ChildDirection.signY_cases dir hroot)
            <;> linarith

/-- What the constructor returns: the initial world with the tree built from
the root node and the layers request for the collected leaves. -/
theorem World.new_inv (round : ℚ → ℚ) (fuel : ℕ) (storage : Storage)
    (distantLand shaders : Bool)
    (align : Alignment) (minBatchSize maxBatchSize : ℚ)
    (conv : Alignment → Vector3 → Vector3) (w : World)
    (hw : World.new round fuel storage distantLand shaders align minBatchSize maxBatchSize conv
      = some w) :
    ∃ (root : NodeData) (tree : QuadTreeNode) (leafs : List NodeId),
      rootNode round storage = some root
        ∧ root.mId = [] ∧ root.mIsDummy = false
        ∧ (World.init round storage distantLand shaders align minBatchSize maxBatchSize
            conv).buildQuadTree fuel root [] = some (tree, leafs)
        ∧ w = { World.init round storage distantLand shaders align minBatchSize maxBatchSize
              conv with
            mRootNode := some tree
            mRequests := [⟨REQ_ID_LAYERS, .layersRequestData leafs shaders⟩] } := by
  unfold World.new at hw
  simp only at hw
  cases hs : rootNode round storage with
  | none => simp [hs] at hw
  | some root =>
    simp only [hs] at hw
    split at hw
    · exact absurd hw (by simp)
    · rename_i tree leafs hb
      simp only [Option.some.injEq] at hw
      refine ⟨root, tree, leafs, rfl, ?_, ?_, hb, hw.symm⟩
      · unfold rootNode at hs
        split at hs
        · exact absurd hs (by simp)
        · split at hs
          · exact absurd hs (by simp)
          · split at hs
            · exact absurd hs (by simp)
            · simp only [Option.some.injEq] at hs
              rw [← hs]; rfl
      · unfold rootNode at hs
        split at hs
        · exact absurd hs (by simp)
        · split at hs
          · exact absurd hs (by simp)
          · split at hs
            · exact absurd hs (by simp)
            · simp only [Option.some.injEq] at hs
              rw [← hs]; rfl

/-- The handle of a node of the tree of a world made by the constructor is
the path to it. -/
theorem World.new_descend_id (round : ℚ → ℚ) (fuel : ℕ) (storage : Storage)
    (distantLand shaders : Bool)
    (align : Alignment) (minBatchSize maxBatchSize : ℚ)
    (conv : Alignment → Vector3 → Vector3) (w : World)
    (hw : World.new round fuel storage distantLand shaders align minBatchSize maxBatchSize conv
      = some w)
    (root : QuadTreeNode) (hroot : w.mRootNode = some root)
    (path : List ChildDirection) (n : QuadTreeNode) (hn : root.descend path = some n) :
    n.data.mId = path := by
  obtain ⟨rootData, tree, leafs, _, hid, _, hb, rfl⟩ := World.new_inv _ _ _ _ _ _ _ _ _ _ hw
  simp only [Option.some.injEq] at hroot
  subst hroot
  have := (Built.of_buildQuadTree _ _ _ _ _ _ hb).descend_id path n hn
  rw [hid] at this
  simpa using this

/-- In a world made by the constructor, in an arithmetic that is exact on
halves, from bounds that are whole numbers of magnitude at most `2^21` and
with a minimum batch size of at least 1, `findNode` called from the root with
the centre of any node of the tree returns that node. -/
theorem World.new_findNode (round : ℚ → ℚ) (hr : ExactOnHalves round) (fuel : ℕ)
    (storage : Storage) (distantLand shaders : Bool)
    (align : Alignment) (minBatchSize maxBatchSize : ℚ)
    (conv : Alignment → Vector3 → Vector3) (w : World)
    (a b c d : ℤ) (ha : storage.minX = a) (hb : storage.maxX = b)
    (hc : storage.minY = c) (hd : storage.maxY = d) (hx : a ≤ b) (hy : c ≤ d)
    (hma : |a| ≤ 2 ^ 21) (hmb : |b| ≤ 2 ^ 21) (hmc : |c| ≤ 2 ^ 21) (hmd : |d| ≤ 2 ^ 21)
    (hmin : 1 ≤ minBatchSize)
    (hw : World.new round fuel storage distantLand shaders align minBatchSize maxBatchSize conv
      = some w)
    (root : QuadTreeNode) (hroot : w.mRootNode = some root)
    (path : List ChildDirection) (n : QuadTreeNode) (hn : root.descend path = some n) :
    findNode n.getCenter root = some n := by
  obtain ⟨rootData, tree, leafs, hrd, _, _, hbq, rfl⟩ := World.new_inv _ _ _ _ _ _ _ _ _ _ hw
  simp only [Option.some.injEq] at hroot
  subst hroot
  have hbuilt := Built.of_buildQuadTree _ _ _ _ _ _ hbq
  have ha1 := abs_le.1 hma
  have hb1 := abs_le.1 hmb
  have hc1 := abs_le.1 hmc
  have hd1 := abs_le.1 hmd
  norm_num at ha1 hb1 hc1 hd1
  obtain ⟨k, _, _, hkmin, hroot2⟩ := rootNode_of_int_bounds round hr storage a b c d ha hb hc hd
    hx hy (le_trans hma (by norm_num)) (le_trans hmb (by norm_num))
    (le_trans hmc (by norm_num)) (le_trans hmd (by norm_num))
  rw [hrd] at hroot2
  have hk22 : (2 : ℤ) ^ k ≤ 2 ^ 22 := hkmin 22 (by norm_num; omega) (by norm_num; omega)
  have hkpos : (0 : ℤ) < 2 ^ k := by positivity
  norm_num at hk22
  have hg : rootData.onGrid k (2 * a + 2 ^ k) (2 * c + 2 ^ k) := by
    rw [Option.some.inj hroot2]
    refine ⟨rfl, rfl, ?_, ?_⟩
    · rcases abs_cases (2 * a + 2 ^ k) with ⟨h, _⟩ | ⟨h, _⟩ <;> norm_num <;> omega
    · rcases abs_cases (2 * c + 2 ^ k) with ⟨h, _⟩ | ⟨h, _⟩ <;> norm_num <;> omega
  exact Built.findNode_descend (w := World.init round storage distantLand shaders align
    minBatchSize maxBatchSize conv) hr hmin path rootData [] leafs tree n k _ _ hbuilt hg hn

/-- C6, as amended: in every world made by the constructor, in single
precision, from grid bounds that are whole numbers of magnitude at most `2^21`
and with a minimum batch size of at least 1, for every leaf of the tree whose
centre lies within the grid bounds, `findNode` called from the root with the
leaf's centre returns that very leaf (the node whose handle is the path to the
leaf), and `getWorldBoundingBox` returns the bounding box of that leaf. -/
theorem getWorldBoundingBox_leaf (fuel : ℕ) (storage : Storage)
    (distantLand shaders : Bool) (align : Alignment) (minBatchSize maxBatchSize : ℚ)
    (conv : Alignment → Vector3 → Vector3) (w : World)
    (a b c d : ℤ) (ha : storage.minX = a) (hb : storage.maxX = b)
    (hc : storage.minY = c) (hd : storage.maxY = d) (hx : a ≤ b) (hy : c ≤ d)
    (hma : |a| ≤ 2 ^ 21) (hmb : |b| ≤ 2 ^ 21) (hmc : |c| ≤ 2 ^ 21) (hmd : |d| ≤ 2 ^ 21)
    (hmin : 1 ≤ minBatchSize)
    (hw : World.new f32Round fuel storage distantLand shaders align minBatchSize maxBatchSize
      conv = some w)
    (root : QuadTreeNode) (hroot : w.mRootNode = some root)
    (path : List ChildDirection) (leaf : QuadTreeNode)
    (hleaf : root.descend path = some leaf) (_hnc : leaf.hasChildren = false)
    (hin : w.mMinX ≤ leaf.getCenter.x ∧ leaf.getCenter.x ≤ w.mMaxX
      ∧ w.mMinY ≤ leaf.getCenter.y ∧ leaf.getCenter.y ≤ w.mMaxY) :
    findNode leaf.getCenter root = some leaf
      ∧ leaf.data.mId = path
      ∧ w.getWorldBoundingBox leaf.getCenter = some leaf.getWorldBoundingBox := by
  have hf := World.new_findNode f32Round exactOnHalves_f32Round fuel storage distantLand
    shaders align minBatchSize maxBatchSize conv w a b c d ha hb hc hd hx hy hma hmb hmc hmd
    hmin hw root hroot path leaf hleaf
  have hid := World.new_descend_id f32Round fuel storage distantLand shaders align
    minBatchSize maxBatchSize conv w hw root hroot path leaf hleaf
  refine ⟨hf, hid, ?_⟩
  obtain ⟨h1, h2, h3, h4⟩ := hin
  have hguard : ¬ (leaf.getCenter.x > w.mMaxX ∨ leaf.getCenter.x < w.mMinX
      ∨ leaf.getCenter.y > w.mMaxY ∨ leaf.getCenter.y < w.mMinY) := by
    rintro (h | h | h | h) <;> linarith
  simp only [World.getWorldBoundingBox, if_neg hguard, hroot, hf]

/-- The constructor with fuel 4 makes the example world. -/
theorem exampleBuiltWorld_new :
    World.new f32Round 4 (flatStorage 0 100 0 60) false false .Align_XY 16 64 (fun _ v => v)
      = some exampleBuiltWorld := by
  have h1 : rootNode f32Round (flatStorage 0 100 0 60) = some exampleRoot := by decide!
  have h2 := exampleTree_built
  unfold exampleWorld at h2
  unfold World.new
  simp only [h1, h2]
  rfl

/-- The constructor with fuel 3 makes the world above `2^24`. -/
theorem coarseBuiltWorld_new :
    World.new f32Round 3 (flatStorage 16777216 16777220 0 4) false false .Align_XY 1 64
        (fun _ v => v)
      = some coarseBuiltWorld := by
  have h1 : rootNode f32Round (flatStorage 16777216 16777220 0 4) = some coarseRoot := by
    decide!
  have h2 := coarseTree_built
  unfold coarseWorld at h2
  unfold World.new
  simp only [h1, h2]
  rfl

/-- Witness of C6 as amended: the leaf of the example world at (8,8). -/
theorem getWorldBoundingBox_leaf_witness :
    World.new f32Round 4 (flatStorage 0 100 0 60) false false .Align_XY 16 64 (fun _ v => v)
        = some exampleBuiltWorld
      ∧ exampleTree.descend [.SW, .SW, .SW] = some exampleLeaf
      ∧ exampleLeaf.hasChildren = false
      ∧ exampleLeaf.getCenter = ⟨8, 8⟩
      ∧ findNode exampleLeaf.getCenter exampleTree = some exampleLeaf
      ∧ exampleLeaf.data.mId = [.SW, .SW, .SW]
      ∧ exampleBuiltWorld.getWorldBoundingBox exampleLeaf.getCenter
          = some exampleLeaf.getWorldBoundingBox :=
  ⟨exampleBuiltWorld_new, by decide!, by decide!, by decide!,
    getWorldBoundingBox_leaf 4 (flatStorage 0 100 0 60) false false .Align_XY 16 64
      (fun _ v => v) exampleBuiltWorld 0 100 0 60 (by decide!) (by decide!) (by decide!)
      (by decide!) (by decide) (by decide) (by decide) (by decide) (by decide) (by decide)
      (by decide!) exampleBuiltWorld_new exampleTree rfl
      [.SW, .SW, .SW] exampleLeaf (by decide!) (by decide!) (by decide!)⟩

/-- C6 as stated fails: with the bounds (16777216,0)-(16777220,4) and the
minimum batch size 1 the constructor makes a tree in which the leaves reached
by SW, SE and by SW, SW have the same centre (16777216, 1/2): the x
coordinates `16777216 + 1/2` and `16777216 - 1/2` are both rounded to
16777216. The centre lies within the grid bounds, and `findNode` called with
the centre of the leaf at SW, SE returns its sibling at SW, SW. -/
theorem getWorldBoundingBox_leaf_counterexample :
    World.new f32Round 3 (flatStorage 16777216 16777220 0 4) false false .Align_XY 1 64
        (fun _ v => v) = some coarseBuiltWorld
      ∧ coarseBuiltWorld.mRootNode = some coarseTree
      ∧ ∃ leaf sibling, coarseTree.descend [.SW, .SE] = some leaf
        ∧ leaf.hasChildren = false
        ∧ leaf.getCenter = ⟨16777216, 1 / 2⟩
        ∧ coarseBuiltWorld.inBounds leaf.getCenter
        ∧ leaf.data.mId = [.SW, .SE]
        ∧ coarseTree.descend [.SW, .SW] = some sibling
        ∧ sibling.data.mId = [.SW, .SW]
        ∧ sibling.getCenter = leaf.getCenter
        ∧ findNode leaf.getCenter coarseTree = some sibling
        ∧ findNode leaf.getCenter coarseTree ≠ some leaf :=
  ⟨coarseBuiltWorld_new, rfl, (coarseTree.descend [.SW, .SE]).getD coarseTree,
    (coarseTree.descend [.SW, .SW]).getD coarseTree, by decide!, by decide!, by decide!,
    by unfold World.inBounds; decide!, by decide!, by decide!, by decide!, by decide!,
    by decide!, by decide!⟩

/-! ## Queries by centre -/

theorem getWorldBoundingBox_inside (w : World) (center : Vector2)
    (hin : w.mMinX ≤ center.x ∧ center.x ≤ w.mMaxX
      ∧ w.mMinY ≤ center.y ∧ center.y ≤ w.mMaxY) :
    w.getWorldBoundingBox center
      = (w.mRootNode.bind (findNode center)).map QuadTreeNode.getWorldBoundingBox := by
  obtain ⟨h1, h2, h3, h4⟩ := hin
  have hguard : ¬ (center.x > w.mMaxX ∨ center.x < w.mMinX
      ∨ center.y > w.mMaxY ∨ center.y < w.mMinY) := by
    rintro (h | h | h | h) <;> linarith
  simp only [World.getWorldBoundingBox, if_neg hguard]
  cases w.mRootNode with
  | none => rfl
  | some root =>
    simp only [Option.some_bind]
    cases findNode center root <;> rfl

/-- C7: for a centre with `x > maxX`, `x < minX`, `y > maxY` or `y < minY`,
`getWorldBoundingBox` returns the null box whatever the tree is, without a
call of `findNode`; for a centre within the closed bounds, edges included, the
answer is that of the descent from the root. -/
theorem getWorldBoundingBox_outside (w : World) (center : Vector2) :
    ((center.x > w.mMaxX ∨ center.x < w.mMinX ∨ center.y > w.mMaxY ∨ center.y < w.mMinY) →
        ∀ r : Option QuadTreeNode,
          ({ w with mRootNode := r } : World).getWorldBoundingBox center
            = some AxisAlignedBox.null)
      ∧ ((w.mMinX ≤ center.x ∧ center.x ≤ w.mMaxX
            ∧ w.mMinY ≤ center.y ∧ center.y ≤ w.mMaxY) →
          w.getWorldBoundingBox center
            = (w.mRootNode.bind (findNode center)).map QuadTreeNode.getWorldBoundingBox) := by
  constructor
  · intro h r
    simp only [World.getWorldBoundingBox, if_pos h]
  · exact getWorldBoundingBox_inside w center

/-- Witness of C7: in the example world (bounds (0,0)-(100,60)) the centre
(101,8) gets the null box, and the centre (8,60) on the edge `maxY` gets the
answer of the descent. -/
theorem getWorldBoundingBox_outside_witness :
    exampleBuiltWorld.getWorldBoundingBox ⟨101, 8⟩ = some AxisAlignedBox.null
      ∧ exampleBuiltWorld.getWorldBoundingBox ⟨8, 60⟩
          = (exampleBuiltWorld.mRootNode.bind (findNode ⟨8, 60⟩)).map
              QuadTreeNode.getWorldBoundingBox :=
  ⟨(getWorldBoundingBox_outside exampleBuiltWorld ⟨101, 8⟩).1 (by decide!)
      exampleBuiltWorld.mRootNode,
    (getWorldBoundingBox_outside exampleBuiltWorld ⟨8, 60⟩).2 (by decide!)⟩

/-- C8, as amended: in every world made by the constructor, in single
precision, from grid bounds that are whole numbers of magnitude at most `2^21`
and with a minimum batch size of at least 1, for every centre inside the grid
bounds that is the centre of a node of the tree, the descent of
`getWorldBoundingBox` by quadrant comparison finds a node with that centre,
the one the centre was taken from, and returns its bounding box; the descent
does not ask a node without children for a child. -/
theorem getWorldBoundingBox_node_center (fuel : ℕ) (storage : Storage)
    (distantLand shaders : Bool) (align : Alignment) (minBatchSize maxBatchSize : ℚ)
    (conv : Alignment → Vector3 → Vector3) (w : World)
    (a b c d : ℤ) (ha : storage.minX = a) (hb : storage.maxX = b)
    (hc : storage.minY = c) (hd : storage.maxY = d) (hx : a ≤ b) (hy : c ≤ d)
    (hma : |a| ≤ 2 ^ 21) (hmb : |b| ≤ 2 ^ 21) (hmc : |c| ≤ 2 ^ 21) (hmd : |d| ≤ 2 ^ 21)
    (hmin : 1 ≤ minBatchSize)
    (hw : World.new f32Round fuel storage distantLand shaders align minBatchSize maxBatchSize
      conv = some w)
    (root : QuadTreeNode) (hroot : w.mRootNode = some root)
    (path : List ChildDirection) (n : QuadTreeNode) (hn : root.descend path = some n)
    (center : Vector2) (hcenter : center = n.getCenter)
    (hin : w.mMinX ≤ center.x ∧ center.x ≤ w.mMaxX
      ∧ w.mMinY ≤ center.y ∧ center.y ≤ w.mMaxY) :
    ∃ found, findNode center root = some found
      ∧ found.getCenter = center
      ∧ found = n
      ∧ w.getWorldBoundingBox center = some found.getWorldBoundingBox := by
  subst hcenter
  have hf := World.new_findNode f32Round exactOnHalves_f32Round fuel storage distantLand
    shaders align minBatchSize maxBatchSize conv w a b c d ha hb hc hd hx hy hma hmb hmc hmd
    hmin hw root hroot path n hn
  refine ⟨n, hf, rfl, rfl, ?_⟩
  rw [getWorldBoundingBox_inside w n.getCenter hin, hroot]
  simp only [Option.some_bind, hf, Option.map_some']

/-- Witness of C8 as amended: the inner node of the example tree reached by
SW, SW, of size 32 and centre (16,16). -/
theorem getWorldBoundingBox_node_center_witness :
    World.new f32Round 4 (flatStorage 0 100 0 60) false false .Align_XY 16 64 (fun _ v => v)
        = some exampleBuiltWorld
      ∧ exampleTree.descend [.SW, .SW] = some exampleInner
      ∧ exampleInner.hasChildren = true
      ∧ exampleInner.getCenter = ⟨16, 16⟩
      ∧ ∃ found, findNode ⟨16, 16⟩ exampleTree = some found
        ∧ found.getCenter = ⟨16, 16⟩
        ∧ found = exampleInner
        ∧ exampleBuiltWorld.getWorldBoundingBox ⟨16, 16⟩ = some found.getWorldBoundingBox :=
  ⟨exampleBuiltWorld_new, by decide!, by decide!, by decide!,
    getWorldBoundingBox_node_center 4 (flatStorage 0 100 0 60) false false .Align_XY 16 64
      (fun _ v => v) exampleBuiltWorld 0 100 0 60 (by decide!) (by decide!) (by decide!)
      (by decide!) (by decide) (by decide) (by decide) (by decide) (by decide) (by decide)
      (by decide!) exampleBuiltWorld_new exampleTree rfl
      [.SW, .SW] exampleInner (by decide!) ⟨16, 16⟩ (by decide!) (by decide!)⟩

/-- C8 as stated fails: in the example world the centre (1,1) lies inside
the grid bounds (0,0)-(100,60), no node has it as its centre, and the descent
runs from the root through SW, SW, SW to the leaf at (8,8), a node without
children, and asks it for its SW child: a null pointer, dereferenced by the
next call of `findNode`. No node is found and no box is returned. Nor is the
centre of every node found: with the bounds (16777216,0)-(16777220,4) and the
minimum batch size 1 the leaf reached by SE, NW has the centre
(16777220, 3/2), within the bounds; its x coordinate was rounded onto that of
its parent, and the descent from the root turns at the parent to the leaf at
SE, SW and asks that leaf for a child. -/
theorem getWorldBoundingBox_node_center_counterexample :
    World.new f32Round 4 (flatStorage 0 100 0 60) false false .Align_XY 16 64 (fun _ v => v)
        = some exampleBuiltWorld
      ∧ (exampleBuiltWorld.mMinX ≤ (1 : ℚ) ∧ (1 : ℚ) ≤ exampleBuiltWorld.mMaxX
        ∧ exampleBuiltWorld.mMinY ≤ (1 : ℚ) ∧ (1 : ℚ) ≤ exampleBuiltWorld.mMaxY)
      ∧ findNode ⟨1, 1⟩ exampleTree = findNode ⟨1, 1⟩ exampleLeaf
      ∧ exampleLeaf.getChild .SW = none
      ∧ findNode ⟨1, 1⟩ exampleTree = none
      ∧ exampleBuiltWorld.getWorldBoundingBox ⟨1, 1⟩ = none
      ∧ World.new f32Round 3 (flatStorage 16777216 16777220 0 4) false false .Align_XY 1 64
          (fun _ v => v) = some coarseBuiltWorld
      ∧ (coarseTree.descend [.SE, .NW]).map QuadTreeNode.getCenter = some ⟨16777220, 3 / 2⟩
      ∧ coarseBuiltWorld.inBounds ⟨16777220, 3 / 2⟩
      ∧ findNode ⟨16777220, 3 / 2⟩ coarseTree = none
      ∧ coarseBuiltWorld.getWorldBoundingBox ⟨16777220, 3 / 2⟩ = none :=
  ⟨exampleBuiltWorld_new, by decide!, by decide!, by decide!, by decide!, by decide!,
    coarseBuiltWorld_new, by decide!, by unfold World.inBounds; decide!, by decide!,
    by decide!⟩

/-! ## The leaf list -/

theorem QuadTreeNode.mem_leafPaths (t : QuadTreeNode) :
    ∀ p : List ChildDirection, p ∈ t.leafPaths ↔
      ∃ n, t.descend p = some n ∧ n.hasChildren = false ∧ n.isDummy = false := by
  induction t with
  | leaf d =>
    intro p
    cases p with
    | nil =>
      by_cases hd : d.mIsDummy = true
      · simp [QuadTreeNode.leafPaths, QuadTreeNode.descend, QuadTreeNode.isDummy,
          QuadTreeNode.data, hd]
      · simp [QuadTreeNode.leafPaths, QuadTreeNode.descend, QuadTreeNode.isDummy,
          QuadTreeNode.data, QuadTreeNode.hasChildren, hd]
    | cons dir rest =>
      by_cases hd : d.mIsDummy = true <;>
        simp [QuadTreeNode.leafPaths, QuadTreeNode.descend, QuadTreeNode.getChild, hd]
  | branch d sw se nw ne ihsw ihse ihnw ihne =>
    intro p
    cases p with
    | nil =>
      simp [QuadTreeNode.leafPaths, QuadTreeNode.descend, QuadTreeNode.hasChildren]
    | cons dir rest =>
      cases dir <;>
        simp [QuadTreeNode.leafPaths, QuadTreeNode.descend, QuadTreeNode.getChild,
          ihsw rest, ihse rest, ihnw rest, ihne rest]

theorem QuadTreeNode.nodup_leafPaths (t : QuadTreeNode) : t.leafPaths.Nodup := by
  induction t with
  | leaf d =>
    by_cases hd : d.mIsDummy = true <;> simp [QuadTreeNode.leafPaths, hd]
  | branch d sw se nw ne ihsw ihse ihnw ihne =>
    simp only [QuadTreeNode.leafPaths]
    have inj : ∀ dir : ChildDirection,
        Function.Injective (fun p : List ChildDirection => dir :: p) := by
      intro dir a b h
      simpa using h
    refine List.Nodup.append (ihsw.map (inj _)) (List.Nodup.append (ihse.map (inj _))
      (List.Nodup.append (ihnw.map (inj _)) (ihne.map (inj _)) ?_) ?_) ?_
    · intro p h1 h2
      simp only [List.mem_map] at h1 h2
      obtain ⟨a, _, rfl⟩ := h1
      obtain ⟨b, _, hb⟩ := h2
      simp at hb
    · intro p h1 h2
      simp only [List.mem_map, List.mem_append] at h1 h2
      obtain ⟨a, _, rfl⟩ := h1
      rcases h2 with ⟨b, _, hb⟩ | ⟨b, _, hb⟩ <;> simp at hb
    · intro p h1 h2
      simp only [List.mem_map, List.mem_append] at h1 h2
      obtain ⟨a, _, rfl⟩ := h1
      rcases h2 with ⟨b, _, hb⟩ | ⟨b, _, hb⟩ | ⟨b, _, hb⟩ <;> simp at hb

/-- The leaf list after `buildQuadTree` on a fresh node: the list before,
then the handles of the leaves of the subtree that are not dummy. -/
theorem Built.leafs_eq {w : World} {node : NodeData} {leafs l : List NodeId}
    {t : QuadTreeNode} (h : Built w node leafs t l) : node.mIsDummy = false →
    l = leafs ++ t.leafPaths.map (fun p => node.mId ++ p) := by
  induction h with
  | leafData node leafs minZ maxZ hsize hdata =>
    intro hf
    simp [QuadTreeNode.leafPaths, NodeData.setBoundingBox, hf]
  | leafNoData node leafs hsize hdata =>
    intro _
    simp [QuadTreeNode.leafPaths, NodeData.markAsDummy]
  | outside node leafs hsize hout =>
    intro _
    simp [QuadTreeNode.leafPaths, NodeData.markAsDummy]
  | subdivide node leafs leafs1 leafs2 leafs3 leafs4 swT seT nwT neT hsize hout
      hsw hse hnw hne ihsw ihse ihnw ihne =>
    intro _
    rw [ihne rfl, ihnw rfl, ihse rfl, ihsw rfl]
    simp [QuadTreeNode.leafPaths, NodeData.createChild, NodeData.new, List.map_append,
      Function.comp_def]
theorem reachedCells_of_buildQuadTree (w : World) (fuel : ℕ) :
    ∀ (node : NodeData) (leafs : List NodeId) (t : QuadTreeNode) (l : List NodeId),
      w.buildQuadTree fuel node leafs = some (t, l) →
      ∃ cells, reachedCells w.round w.mMinBatchSize w.mMinX w.mMaxX w.mMinY w.mMaxY fuel node
          = some cells
        ∧ l = leafs ++ (cells.filter (fun c =>
            (w.mStorage.getMinMaxHeights c.mSize c.mCenter).isSome)).map (fun c => c.mId) := by
  induction fuel with
  | zero => intro node leafs t l h; simp [World.buildQuadTree] at h
  | succ f ih =>
    intro node leafs t l h
    rw [World.buildQuadTree] at h
    rw [reachedCells]
    simp only at h ⊢
    split at h
    · rename_i hsize
      rw [if_pos hsize]
      split at h
      · rename_i minZ maxZ hdata
        simp only [Option.some.injEq, Prod.mk.injEq] at h
        obtain ⟨rfl, rfl⟩ := h
        exact ⟨[node], rfl, by simp [hdata]⟩
      · rename_i hdata
        simp only [Option.some.injEq, Prod.mk.injEq] at h
        obtain ⟨rfl, rfl⟩ := h
        exact ⟨[node], rfl, by simp [hdata]⟩
    · rename_i hsize
      rw [if_neg hsize]
      split at h
      · rename_i hout
        simp only [World.outOfBounds, decide_eq_true_eq] at hout
        rw [if_pos hout]
        simp only [Option.some.injEq, Prod.mk.injEq] at h
        obtain ⟨rfl, rfl⟩ := h
        exact ⟨[], rfl, by simp⟩
      · rename_i hout
        simp only [World.outOfBounds, decide_eq_true_eq] at hout
        rw [if_neg hout]
        split at h
        · exact absurd h (by simp)
        · rename_i swT leafs1 hsw
          split at h
          · exact absurd h (by simp)
          · rename_i seT leafs2 hse
            split at h
            · exact absurd h (by simp)
            · rename_i nwT leafs3 hnw
              split at h
              · exact absurd h (by simp)
              · rename_i neT leafs4 hne
                obtain ⟨a, ha, la⟩ := ih _ _ _ _ hsw
                obtain ⟨b, hb, lb⟩ := ih _ _ _ _ hse
                obtain ⟨c, hc, lc⟩ := ih _ _ _ _ hnw
                obtain ⟨d, hd, ld⟩ := ih _ _ _ _ hne
                have hl : l = leafs4 := by
                  split at h <;>
                    (simp only [Option.some.injEq, Prod.mk.injEq] at h; exact h.2.symm)
                refine ⟨a ++ b ++ c ++ d, ?_, ?_⟩
                · rw [ha, hb, hc, hd]
                · rw [hl, ld, lc, lb, la]
                  simp [List.filter_append, List.map_append]

theorem reachedCells_succ (round : ℚ → ℚ) (minBatchSize : ℚ) (minX maxX minY maxY : ℚ)
    (fuel : ℕ) :
    ∀ (node : NodeData) (cells : List NodeData),
      reachedCells round minBatchSize minX maxX minY maxY fuel node = some cells →
      reachedCells round minBatchSize minX maxX minY maxY (fuel + 1) node = some cells := by
  induction fuel with
  | zero => intro node cells h; simp [reachedCells] at h
  | succ f ih =>
    intro node cells h
    rw [reachedCells] at h ⊢
    split
    · rename_i hsize
      rw [if_pos hsize] at h
      exact h
    · rename_i hsize
      rw [if_neg hsize] at h
      split
      · rename_i hout
        rw [if_pos hout] at h
        exact h
      · rename_i hout
        rw [if_neg hout] at h
        split at h
        · rename_i a b c d ha hb hc hd
          rw [ih _ _ ha, ih _ _ hb, ih _ _ hc, ih _ _ hd]
          exact h
        · exact absurd h (by simp)

theorem reachedCells_mono (round : ℚ → ℚ) (minBatchSize : ℚ) (minX maxX minY maxY : ℚ)
    (fuel k : ℕ)
    (node : NodeData) (cells : List NodeData)
    (h : reachedCells round minBatchSize minX maxX minY maxY fuel node = some cells) :
    reachedCells round minBatchSize minX maxX minY maxY (fuel + k) node = some cells := by
  induction k with
  | zero => exact h
  | succ k ih => exact reachedCells_succ _ _ _ _ _ _ _ _ _ ih
theorem Built.leaf_not_dummy_iff {w : World} {node : NodeData} {leafs l : List NodeId}
    {t : QuadTreeNode} (h : Built w node leafs t l) (hf : node.mIsDummy = false)
    (hleaf : t.hasChildren = false) :
    t.isDummy = false ↔
      (t.getSize ≤ w.mMinBatchSize
        ∧ w.mStorage.getMinMaxHeights t.getSize t.getCenter ≠ none) := by
  cases h with
  | leafData _ _ minZ maxZ hsize hdata =>
    simp [QuadTreeNode.isDummy, QuadTreeNode.getSize, QuadTreeNode.getCenter,
      QuadTreeNode.data, NodeData.setBoundingBox, hf, hsize, hdata]
  | leafNoData _ _ hsize hdata =>
    simp [QuadTreeNode.isDummy, QuadTreeNode.getSize, QuadTreeNode.getCenter,
      QuadTreeNode.data, NodeData.markAsDummy, hdata]
  | outside _ _ hsize hout =>
    simp [QuadTreeNode.isDummy, QuadTreeNode.getSize, QuadTreeNode.getCenter,
      QuadTreeNode.data, NodeData.markAsDummy, hsize]
  | subdivide _ _ _ _ _ _ _ _ _ _ hsize hout _ _ _ _ =>
    simp [QuadTreeNode.hasChildren] at hleaf

theorem Built.dummy_of_no_data {w : World} {node : NodeData} {leafs l : List NodeId}
    {t : QuadTreeNode} (h : Built w node leafs t l)
    (hsize : t.getSize ≤ w.mMinBatchSize)
    (hdata : w.mStorage.getMinMaxHeights t.getSize t.getCenter = none) :
    t.isDummy = true ∧ t.hasChildren = false := by
  obtain ⟨e1, e2, _, _⟩ := h.data_eq
  have hs : t.getSize = node.mSize := e1
  have hc : t.getCenter = node.mCenter := e2
  rw [hs] at hsize
  rw [hs, hc] at hdata
  cases h with
  | leafData _ _ minZ maxZ hsize1 hdata1 => rw [hdata1] at hdata; exact absurd hdata (by simp)
  | leafNoData _ _ hsize1 hdata1 => exact ⟨rfl, rfl⟩
  | outside _ _ hsize1 hout => exact absurd hsize hsize1
  | subdivide _ _ _ _ _ _ _ _ _ _ hsize1 hout _ _ _ _ => exact absurd hsize hsize1

theorem exampleReached_eq :
    reachedCells f32Round 16 0 100 0 60 4 exampleRoot = some exampleReached := by decide!

theorem exampleReached_size : ∀ c ∈ exampleReached, c.mSize = 16 := by decide!

theorem exampleReached_perm : (exampleReached.map (fun c => c.mCenter)).Perm stripCells := by
  decide!

theorem reachedCells_example (fuel : ℕ) (cells : List NodeData)
    (h : reachedCells f32Round 16 0 100 0 60 fuel exampleRoot = some cells) : cells = exampleReached := by
  rcases Nat.le_total fuel 4 with hle | hle
  · obtain ⟨k, hk⟩ := Nat.exists_eq_add_of_le hle
    have h1 := reachedCells_mono f32Round 16 0 100 0 60 fuel k exampleRoot cells h
    rw [← hk, exampleReached_eq] at h1
    exact (Option.some.inj h1).symm
  · obtain ⟨k, hk⟩ := Nat.exists_eq_add_of_le hle
    have h1 := reachedCells_mono f32Round 16 0 100 0 60 4 k exampleRoot exampleReached exampleReached_eq
    rw [← hk, h] at h1
    exact Option.some.inj h1

theorem exampleReached_count (f : ℚ → Vector2 → Option (ℚ × ℚ)) :
    ((exampleReached.filter (fun c => (f c.mSize c.mCenter).isSome)).map
        (fun c => c.mId)).length
      = (stripCells.filter (fun c => (f 16 c).isSome)).length := by
  rw [List.length_map]
  have h1 : exampleReached.filter (fun c => (f c.mSize c.mCenter).isSome)
      = exampleReached.filter (fun c => (f 16 c.mCenter).isSome) := by
    apply List.filter_congr
    intro c hc
    rw [exampleReached_size c hc]
  rw [h1]
  have h2 : (exampleReached.filter (fun c => (f 16 c.mCenter).isSome)).length
      = ((exampleReached.map (fun c => c.mCenter)).filter (fun c => (f 16 c).isSome)).length := by
    rw [List.filter_map, List.length_map]
    rfl
  rw [h2]
  exact (exampleReached_perm.filter _).length_eq

/-- C9, as amended: the leaf list that `buildQuadTree` collects and the
constructor hands to the single layers request contains exactly the leaves of
the tree that are not dummy, each once: a node is in the list if and only if
it has no children, its size is at most the minimum batch size and the
storage reports height data for it; a leaf-size node without height data is
marked dummy and is not in the list. For the bounds (0,0)-(100,60) with
minimum batch size 16 the length of the list is the number of 16-unit cells
with height data among the 32 cells of the strip `[0,128] × [0,64]`, the
cells that the subdivision reaches. -/
theorem layersRequest_leafs (fuel : ℕ) (storage : Storage)
    (distantLand shaders : Bool) (align : Alignment) (minBatchSize maxBatchSize : ℚ)
    (conv : Alignment → Vector3 → Vector3) (w : World)
    (hw : World.new f32Round fuel storage distantLand shaders align minBatchSize maxBatchSize conv
      = some w)
    (root : QuadTreeNode) (hroot : w.mRootNode = some root) :
    ∃ leafs, w.mRequests = [⟨REQ_ID_LAYERS, .layersRequestData leafs shaders⟩]
      ∧ leafs.Nodup
      ∧ (∀ id, id ∈ leafs ↔
          ∃ n, root.descend id = some n ∧ n.data.mId = id
            ∧ n.hasChildren = false ∧ n.isDummy = false)
      ∧ (∀ id, id ∈ leafs ↔
          ∃ n, root.descend id = some n ∧ n.data.mId = id
            ∧ n.hasChildren = false ∧ n.getSize ≤ minBatchSize
            ∧ storage.getMinMaxHeights n.getSize n.getCenter ≠ none)
      ∧ (∀ path n, root.descend path = some n → n.getSize ≤ minBatchSize →
          storage.getMinMaxHeights n.getSize n.getCenter = none →
          n.isDummy = true ∧ n.data.mId ∉ leafs)
      ∧ (storage.minX = 0 → storage.maxX = 100 → storage.minY = 0 → storage.maxY = 60 →
          minBatchSize = 16 →
          leafs.length
            = (stripCells.filter (fun c => (storage.getMinMaxHeights 16 c).isSome)).length) := by
  obtain ⟨rootData, tree, leafs, hrd, hrid, hrf, hb, rfl⟩ :=
    World.new_inv _ _ _ _ _ _ _ _ _ _ hw
  simp only [Option.some.injEq] at hroot
  subst hroot
  have hbuilt := Built.of_buildQuadTree _ _ _ _ _ _ hb
  have hl : leafs = tree.leafPaths := by
    have := hbuilt.leafs_eq hrf
    simpa [hrid] using this
  have hid : ∀ path n, tree.descend path = some n → n.data.mId = path := by
    intro path n hn
    have := hbuilt.descend_id path n hn
    simpa [hrid] using this
  have h3 : ∀ id, id ∈ leafs ↔
      ∃ n, tree.descend id = some n ∧ n.data.mId = id
        ∧ n.hasChildren = false ∧ n.isDummy = false := by
    intro id
    rw [hl, QuadTreeNode.mem_leafPaths]
    constructor
    · rintro ⟨n, h1, h2, h3⟩
      exact ⟨n, h1, hid id n h1, h2, h3⟩
    · rintro ⟨n, h1, _, h2, h3⟩
      exact ⟨n, h1, h2, h3⟩
  refine ⟨leafs, rfl, ?_, h3, ?_, ?_, ?_⟩
  · rw [hl]
    exact tree.nodup_leafPaths
  · intro id
    rw [h3]
    constructor
    · rintro ⟨n, h1, h2, h4, h5⟩
      obtain ⟨node1, leafs1, l1, hbn, hf⟩ := hbuilt.descend id n h1
      exact ⟨n, h1, h2, h4, (hbn.leaf_not_dummy_iff (hf hrf) h4).1 h5⟩
    · rintro ⟨n, h1, h2, h4, h5⟩
      obtain ⟨node1, leafs1, l1, hbn, hf⟩ := hbuilt.descend id n h1
      exact ⟨n, h1, h2, h4, (hbn.leaf_not_dummy_iff (hf hrf) h4).2 h5⟩
  · intro path n hn hs hd
    obtain ⟨node1, leafs1, l1, hbn, hf⟩ := hbuilt.descend path n hn
    obtain ⟨hdum, _⟩ := hbn.dummy_of_no_data hs hd
    refine ⟨hdum, ?_⟩
    intro hmem
    obtain ⟨n1, g1, _, _, g4⟩ := (h3 _).1 hmem
    rw [hid path n hn, hn] at g1
    rw [Option.some.inj g1, g4] at hdum
    exact absurd hdum (by simp)
  · intro b1 b2 b3 b4 b5
    subst b5
    obtain ⟨cells, hc, hlc⟩ := reachedCells_of_buildQuadTree _ _ _ _ _ _ hb
    simp only [World.init, b1, b2, b3, b4] at hc
    have hroot : rootData = exampleRoot := by
      have : rootNode f32Round storage = some exampleRoot := by
        simp only [rootNode, rootCenter, b1, b2, b3, b4]
        decide!
      rw [this] at hrd
      exact (Option.some.inj hrd).symm
    rw [hroot] at hc
    have hcells := reachedCells_example fuel cells hc
    rw [hlc, hcells]
    simp only [List.nil_append]
    exact exampleReached_count storage.getMinMaxHeights

/-- Witness of C9 as amended: the example world, with height data everywhere;
all 32 cells of the strip are in the leaf list. -/
theorem layersRequest_leafs_witness :
    World.new f32Round 4 (flatStorage 0 100 0 60) false false .Align_XY 16 64 (fun _ v => v)
        = some exampleBuiltWorld
      ∧ ∃ leafs, exampleBuiltWorld.mRequests = [⟨REQ_ID_LAYERS, .layersRequestData leafs false⟩]
        ∧ leafs.Nodup
        ∧ leafs.length = (stripCells.filter (fun c =>
            ((flatStorage 0 100 0 60).getMinMaxHeights 16 c).isSome)).length
        ∧ leafs.length = 32 := by
  refine ⟨exampleBuiltWorld_new, ?_⟩
  obtain ⟨leafs, h1, h2, _, _, _, h6⟩ :=
    layersRequest_leafs 4 (flatStorage 0 100 0 60) false false .Align_XY 16 64
      (fun _ v => v) exampleBuiltWorld exampleBuiltWorld_new exampleTree rfl
  have h7 := h6 rfl rfl rfl rfl rfl
  refine ⟨leafs, h1, h2, h7, ?_⟩
  rw [h7]
  decide!

/-- C9 as stated fails in its count: in the example world (bounds
(0,0)-(100,60), minimum batch size 16) with height data everywhere, every
16-unit cell has height data, 64 in the root square and 28 that meet the grid
bounds, but the leaf list of the layers request has 32 entries; among them is
the cell reached by SE, SE, SE, at (120,8), which lies entirely outside the
bounds. -/
theorem layersRequest_leafs_counterexample :
    World.new f32Round 4 (flatStorage 0 100 0 60) false false .Align_XY 16 64 (fun _ v => v)
        = some exampleBuiltWorld
      ∧ exampleBuiltWorld.mRequests = [⟨REQ_ID_LAYERS, .layersRequestData exampleLeafs false⟩]
      ∧ exampleLeafs.length = 32
      ∧ (squareCells.filter (fun c =>
          ((flatStorage 0 100 0 60).getMinMaxHeights 16 c).isSome)).length = 64
      ∧ (boundsCells.filter (fun c =>
          ((flatStorage 0 100 0 60).getMinMaxHeights 16 c).isSome)).length = 28
      ∧ [ChildDirection.SE, ChildDirection.SE, ChildDirection.SE] ∈ exampleLeafs :=
  ⟨exampleBuiltWorld_new, rfl, by decide!, by decide!, by decide!, by decide!⟩

/-! ## The counter of chunks in flight -/

theorem World.queueLoads_eq (nodes : List NodeId) : ∀ w : World,
    w.queueLoads nodes = { w with
      mRequests := w.mRequests ++ nodes.map (fun n => ⟨REQ_ID_CHUNK, .loadRequestData n⟩)
      mChunksLoading := w.mChunksLoading + nodes.length } := by
  induction nodes with
  | nil => intro w; simp [World.queueLoads]
  | cons n rest ih =>
    intro w
    rw [World.queueLoads, ih]
    simp only [World.queueLoad, List.map_cons, List.length_cons, List.append_assoc,
      List.singleton_append, Nat.cast_add, Nat.cast_one]
    congr 1
    ring

theorem World.chunkResponses_eq (w : World) (order : List NodeId) :
    w.chunkResponses order
      = order.map (fun n => ⟨⟨REQ_ID_CHUNK, .loadRequestData n⟩, true, .loadResponseData⟩) := by
  induction order with
  | nil => rfl
  | cons n rest ih =>
    simp only [World.chunkResponses, List.map_cons] at ih ⊢
    rw [← ih]
    simp [List.filterMap_cons, World.handleRequest]

theorem World.handleResponse_chunk (w : World) (n : NodeId) :
    w.handleResponse ⟨⟨REQ_ID_CHUNK, .loadRequestData n⟩, true, .loadResponseData⟩
      = some { w with
          mLoaded := w.mLoaded ++ [n]
          mChunksLoading := w.mChunksLoading - 1 } := by
  simp [World.handleResponse]

theorem World.handleResponses_chunks (ns : List NodeId) : ∀ w : World,
    w.handleResponses
        (ns.map (fun n => ⟨⟨REQ_ID_CHUNK, .loadRequestData n⟩, true, .loadResponseData⟩))
      = some { w with
          mLoaded := w.mLoaded ++ ns
          mChunksLoading := w.mChunksLoading - ns.length } := by
  induction ns with
  | nil => intro w; simp [World.handleResponses]
  | cons n rest ih =>
    intro w
    simp only [List.map_cons, World.handleResponses, World.handleResponse_chunk, ih]
    simp only [List.append_assoc, List.singleton_append, List.length_cons, Nat.cast_add,
      Nat.cast_one, Option.some.injEq]
    congr 1
    ring

/-- C10: `queueLoad` adds one chunk request and increments the in-flight
counter by exactly one; applying the response to a chunk request decrements
the counter by exactly one and loads the node named in that request; applying
a layers response leaves the counter unchanged. So after `queueLoad` for `N`
nodes the counter is `N` above its start, after `k` of the `N` responses have
been applied, in any order, it is `N - k` above its start, and after all `N`
it is back at its start, 0 when it started at 0, with every requested node
loaded. -/
theorem chunksLoading_counter (w : World) (nodes order : List NodeId)
    (horder : order.Perm nodes) :
    (∀ node, (w.queueLoad node).mChunksLoading = w.mChunksLoading + 1
        ∧ (w.queueLoad node).mRequests
            = w.mRequests ++ [⟨REQ_ID_CHUNK, .loadRequestData node⟩])
      ∧ (∀ node res, w.handleRequest ⟨REQ_ID_CHUNK, .loadRequestData node⟩ = some res →
          ∃ w1, w.handleResponse res = some w1
            ∧ w1.mChunksLoading = w.mChunksLoading - 1
            ∧ w1.mLoaded = w.mLoaded ++ [node])
      ∧ (∀ mNodes mPack res,
          w.handleRequest ⟨REQ_ID_LAYERS, .layersRequestData mNodes mPack⟩ = some res →
          ∃ w1, w.handleResponse res = some w1
            ∧ w1.mChunksLoading = w.mChunksLoading
            ∧ w1.mLoaded = w.mLoaded)
      ∧ (w.queueLoads nodes).mChunksLoading = w.mChunksLoading + nodes.length
      ∧ (w.chunkResponses order).length = nodes.length
      ∧ (∀ k, k ≤ nodes.length →
          ∃ wk, (w.queueLoads nodes).handleResponses ((w.chunkResponses order).take k) = some wk
            ∧ wk.mChunksLoading = w.mChunksLoading + nodes.length - k)
      ∧ ∃ w2, (w.queueLoads nodes).handleResponses (w.chunkResponses order) = some w2
          ∧ w2.mChunksLoading = w.mChunksLoading
          ∧ (w.mChunksLoading = 0 → w2.mChunksLoading = 0)
          ∧ ∀ n ∈ nodes, n ∈ w2.mLoaded := by
  refine ⟨?_, ?_, ?_, ?_, ?_, ?_, ?_⟩
  · intro node
    exact ⟨rfl, rfl⟩
  · intro node res hres
    simp only [World.handleRequest, REQ_ID_CHUNK, if_true, Option.some.injEq] at hres
    subst hres
    exact ⟨_, World.handleResponse_chunk w node, rfl, rfl⟩
  · intro mNodes mPack res hres
    simp [World.handleRequest, REQ_ID_CHUNK, REQ_ID_LAYERS] at hres
    subst hres
    refine ⟨{ w with
      mLayersLoaded := w.mLayersLoaded ++ w.mStorage.getBlendmaps mNodes mPack
      mLayerLoadPending := false }, ?_, rfl, rfl⟩
    simp [World.handleResponse, REQ_ID_CHUNK, REQ_ID_LAYERS]
  · rw [World.queueLoads_eq]
  · rw [World.chunkResponses_eq, List.length_map, horder.length_eq]
  · intro k hk
    rw [World.chunkResponses_eq, ← List.map_take, World.handleResponses_chunks,
      World.queueLoads_eq]
    refine ⟨_, rfl, ?_⟩
    simp only [List.length_take]
    rw [horder.length_eq, min_eq_left hk]
  · rw [World.chunkResponses_eq, World.handleResponses_chunks, World.queueLoads_eq]
    refine ⟨_, rfl, ?_, ?_, ?_⟩
    · simp only [horder.length_eq]
      ring
    · intro h0
      simp only [horder.length_eq, h0]
      ring
    · intro n hn
      simp only [List.mem_append]
      exact Or.inr (horder.mem_iff.2 hn)

/-- Witness of C10: in the example world two chunk requests are queued, for
the leaves at (8,8) and (24,8), and the responses are applied in the opposite
order; the counter is back at 0 and both nodes are loaded. -/
theorem chunksLoading_counter_witness :
    List.Perm [[ChildDirection.SW, .SW, .SE], [ChildDirection.SW, .SW, .SW]]
        [[ChildDirection.SW, .SW, .SW], [ChildDirection.SW, .SW, .SE]]
      ∧ exampleBuiltWorld.mChunksLoading = 0
      ∧ ∃ w2, (exampleBuiltWorld.queueLoads
            [[ChildDirection.SW, .SW, .SW], [ChildDirection.SW, .SW, .SE]]).handleResponses
            (exampleBuiltWorld.chunkResponses
              [[ChildDirection.SW, .SW, .SE], [ChildDirection.SW, .SW, .SW]]) = some w2
          ∧ w2.mChunksLoading = 0
          ∧ ∀ n ∈ [[ChildDirection.SW, .SW, .SW], [ChildDirection.SW, .SW, .SE]],
              n ∈ w2.mLoaded := by
  have hperm : List.Perm [[ChildDirection.SW, .SW, .SE], [ChildDirection.SW, .SW, .SW]]
      [[ChildDirection.SW, .SW, .SW], [ChildDirection.SW, .SW, .SE]] := by decide
  obtain ⟨_, _, _, _, _, _, w2, h1, _, h3, h4⟩ := chunksLoading_counter exampleBuiltWorld
    [[ChildDirection.SW, .SW, .SW], [ChildDirection.SW, .SW, .SE]]
    [[ChildDirection.SW, .SW, .SE], [ChildDirection.SW, .SW, .SW]] hperm
  exact ⟨hperm, rfl, w2, h1, h3 rfl, h4⟩
/-! ## Waiting for the background loads -/

theorem World.syncLoad_idle (w : World) (arrivals : List (List Response))
    (h1 : w.mChunksLoading = 0) (h2 : w.mLayerLoadPending = false) :
    w.syncLoad arrivals = some (w, arrivals) := by
  cases arrivals <;> simp [World.syncLoad, h1, h2]

theorem World.syncLoad_post (arrivals : List (List Response)) :
    ∀ (w w1 : World) (rest : List (List Response)), w.syncLoad arrivals = some (w1, rest) →
      w1.mChunksLoading = 0 ∧ w1.mLayerLoadPending = false := by
  induction arrivals with
  | nil =>
    intro w w1 rest h
    rw [World.syncLoad] at h
    split at h
    · exact absurd h (by simp)
    · rename_i hc
      simp only [Option.some.injEq, Prod.mk.injEq] at h
      obtain ⟨rfl, _⟩ := h
      simp only [not_or, not_not, Bool.not_eq_true] at hc
      exact hc
  | cons arrived rest1 ih =>
    intro w w1 rest h
    rw [World.syncLoad] at h
    split at h
    · split at h
      · exact absurd h (by simp)
      · exact ih _ _ _ h
    · rename_i hc
      simp only [Option.some.injEq, Prod.mk.injEq] at h
      obtain ⟨rfl, _⟩ := h
      simp only [not_or, not_not, Bool.not_eq_true] at hc
      exact hc

/-- C11: called when the in-flight chunk counter is 0 and the initial layer
load is no longer pending, `syncLoad` returns at once, whatever responses are
waiting: no response is processed (the waiting calls are all left) and the
world is unchanged; and whenever `syncLoad` returns, the in-flight chunk
counter is 0 and the layer-load-pending flag is false. -/
theorem syncLoad_fast_path (w : World) (arrivals : List (List Response)) :
    (w.mChunksLoading = 0 → w.mLayerLoadPending = false →
        w.syncLoad arrivals = some (w, arrivals))
      ∧ (∀ (w1 : World) (rest : List (List Response)),
          w.syncLoad arrivals = some (w1, rest) →
          w1.mChunksLoading = 0 ∧ w1.mLayerLoadPending = false) :=
  ⟨World.syncLoad_idle w arrivals, World.syncLoad_post arrivals w⟩

/-- The response of `handleRequest` to the layers request of the example
world makes `syncLoad` return with the idle example world. -/
theorem exampleBuiltWorld_syncLoad :
    exampleBuiltWorld.syncLoad
        [[⟨⟨REQ_ID_LAYERS, .layersRequestData exampleLeafs false⟩, true,
          .layersResponseData exampleLeafs⟩]]
      = some (exampleIdleWorld, []) := by
  simp [World.syncLoad, World.processResponses, World.handleResponses, World.handleResponse,
    exampleBuiltWorld, exampleWorld, World.init, exampleIdleWorld, REQ_ID_CHUNK,
    REQ_ID_LAYERS]

/-- Witness of C11: the idle example world returns at once although a
response is waiting, and the example world right after its constructor
returns, once the layers response has come in, with counter 0 and the flag
cleared. -/
theorem syncLoad_fast_path_witness :
    exampleIdleWorld.mChunksLoading = 0
      ∧ exampleIdleWorld.mLayerLoadPending = false
      ∧ exampleIdleWorld.syncLoad
          [[⟨⟨REQ_ID_CHUNK, .loadRequestData []⟩, true, .loadResponseData⟩]]
          = some (exampleIdleWorld,
              [[⟨⟨REQ_ID_CHUNK, .loadRequestData []⟩, true, .loadResponseData⟩]])
      ∧ exampleBuiltWorld.syncLoad
          [[⟨⟨REQ_ID_LAYERS, .layersRequestData exampleLeafs false⟩, true,
            .layersResponseData exampleLeafs⟩]]
          = some (exampleIdleWorld, [])
      ∧ exampleIdleWorld.mChunksLoading = 0 ∧ exampleIdleWorld.mLayerLoadPending = false :=
  ⟨rfl, rfl,
    (syncLoad_fast_path exampleIdleWorld
      [[⟨⟨REQ_ID_CHUNK, .loadRequestData []⟩, true, .loadResponseData⟩]]).1 rfl rfl,
    exampleBuiltWorld_syncLoad,
    (syncLoad_fast_path exampleBuiltWorld
      [[⟨⟨REQ_ID_LAYERS, .layersRequestData exampleLeafs false⟩, true,
        .layersResponseData exampleLeafs⟩]]).2 exampleIdleWorld [] exampleBuiltWorld_syncLoad⟩

/-! ## Termination of `buildQuadTree` -/

theorem halvesPowers_f32Round (k : ℕ) : HalvesPowers f32Round k := by
  intro j _
  have h := f32Round_zpow (j : ℤ) (by omega)
  rw [zpow_natCast] at h
  have e : (2 : ℚ) ^ (j + 1) / 2 = 2 ^ j := by rw [pow_succ]; ring
  rw [e, h]

theorem halvesPowers_of_exact (round : ℚ → ℚ) (hr : ∀ x, round x = x) (k : ℕ) :
    HalvesPowers round k := by
  intro j _
  rw [hr, pow_succ]
  ring

theorem HalvesPowers.mono {round : ℚ → ℚ} {k : ℕ} (h : HalvesPowers round (k + 1)) :
    HalvesPowers round k := fun j hj => h j (by omega)

theorem buildQuadTree_returns (w : World) (hmin : 1 ≤ w.mMinBatchSize) (k : ℕ) :
    ∀ (fuel : ℕ) (node : NodeData) (leafs : List NodeId), HalvesPowers w.round k →
      node.mSize = 2 ^ k → k + 1 ≤ fuel →
      ∃ t l, w.buildQuadTree fuel node leafs = some (t, l) := by
  induction k with
  | zero =>
    intro fuel node leafs _ hs hf
    obtain ⟨f, rfl⟩ : ∃ f, fuel = f + 1 := ⟨fuel - 1, by omega⟩
    have hsize : node.mSize ≤ w.mMinBatchSize := by rw [hs]; simpa using hmin
    rw [World.buildQuadTree]
    simp only [hsize, if_true]
    split <;> exact ⟨_, _, rfl⟩
  | succ k ih =>
    intro fuel node leafs hex hs hf
    obtain ⟨f, rfl⟩ : ∃ f, fuel = f + 1 := ⟨fuel - 1, by omega⟩
    rw [World.buildQuadTree]
    by_cases hsize : node.mSize ≤ w.mMinBatchSize
    · simp only [hsize, if_true]
      split <;> exact ⟨_, _, rfl⟩
    · by_cases hout : w.outOfBounds node.mCenter (w.round (node.mSize / 2)) = true
      · simp only [hsize, if_false, hout, if_true]
        exact ⟨_, _, rfl⟩
      · have hhalf : w.round (node.mSize / 2) = 2 ^ k := by rw [hs]; exact hex k (by omega)
        obtain ⟨swT, l1, hsw⟩ := ih f (node.createChild .SW (w.round (node.mSize / 2))
          (w.childCenter node .SW)) leafs hex.mono hhalf (by omega)
        obtain ⟨seT, l2, hse⟩ := ih f (node.createChild .SE (w.round (node.mSize / 2))
          (w.childCenter node .SE)) l1 hex.mono hhalf (by omega)
        obtain ⟨nwT, l3, hnw⟩ := ih f (node.createChild .NW (w.round (node.mSize / 2))
          (w.childCenter node .NW)) l2 hex.mono hhalf (by omega)
        obtain ⟨neT, l4, hne⟩ := ih f (node.createChild .NE (w.round (node.mSize / 2))
          (w.childCenter node .NE)) l3 hex.mono hhalf (by omega)
        simp only [World.childCenter] at hsw hse hnw hne
        simp only [hsize, if_false, hout, hsw, hse, hnw, hne]
        by_cases hd : (nwT.isDummy && neT.isDummy && swT.isDummy && seT.isDummy) = true
        · rw [if_pos hd]; exact ⟨_, _, rfl⟩
        · rw [if_neg hd]; exact ⟨_, _, rfl⟩

/-- Below a node of size `2^k`, with a minimum batch size of at least 1 and
an arithmetic that halves powers of two exactly, a node `d` levels down has
the size `2^(k-d)`. -/
theorem Built.size_descend {w : World} (hmin : 1 ≤ w.mMinBatchSize) :
    ∀ (path : List ChildDirection) (node : NodeData) (leafs l : List NodeId)
      (t n : QuadTreeNode) (k : ℕ), HalvesPowers w.round k → Built w node leafs t l →
      node.mSize = 2 ^ k → t.descend path = some n →
      ∃ j : ℕ, j + path.length = k ∧ n.data.mSize = 2 ^ j := by
  intro path
  induction path with
  | nil =>
    intro node leafs l t n k _ hb hs hp
    simp only [QuadTreeNode.descend, Option.some.injEq] at hp
    subst hp
    exact ⟨k, rfl, hb.data_eq.1.trans hs⟩
  | cons dir rest ih =>
    intro node leafs l t n k hex hb hs hp
    simp only [QuadTreeNode.descend] at hp
    cases hc : t.getChild dir with
    | none => simp [hc] at hp
    | some c =>
      simp only [hc] at hp
      obtain ⟨hsize, _, _, leafs1, l1, hbc⟩ := hb.child dir c hc
      have hk : k ≠ 0 := by
        rintro rfl
        apply hsize
        rw [hs]
        simpa using hmin
      obtain ⟨k1, rfl⟩ : ∃ k1, k = k1 + 1 := ⟨k - 1, by omega⟩
      have hhalf : w.round (node.mSize / 2) = 2 ^ k1 := by rw [hs]; exact hex k1 (by omega)
      obtain ⟨j, hj, hn⟩ := ih _ leafs1 l1 c n k1 hex.mono hbc
        (by simp only [NodeData.createChild, NodeData.new]; exact hhalf) hp
      exact ⟨j, by simp only [List.length_cons]; omega, hn⟩

theorem Built.depth_lt {w : World} (hmin : 1 ≤ w.mMinBatchSize) :
    ∀ (path : List ChildDirection) (node : NodeData) (leafs l : List NodeId)
      (t n : QuadTreeNode) (k : ℕ), HalvesPowers w.round k → Built w node leafs t l →
      node.mSize = 2 ^ k → t.descend path = some n →
      path ≠ [] → w.mMinBatchSize * 2 ^ (path.length - 1) < node.mSize := by
  intro path
  induction path with
  | nil => intro node leafs l t n k _ _ _ _ h; exact absurd rfl h
  | cons dir rest ih =>
    intro node leafs l t n k hex hb hs hp _
    simp only [QuadTreeNode.descend] at hp
    cases hc : t.getChild dir with
    | none => simp [hc] at hp
    | some c =>
      simp only [hc] at hp
      obtain ⟨hsize, _, _, leafs1, l1, hbc⟩ := hb.child dir c hc
      have hk : k ≠ 0 := by
        rintro rfl
        apply hsize
        rw [hs]
        simpa using hmin
      obtain ⟨k1, rfl⟩ : ∃ k1, k = k1 + 1 := ⟨k - 1, by omega⟩
      have hhalf : w.round (node.mSize / 2) = 2 ^ k1 := by rw [hs]; exact hex k1 (by omega)
      cases rest with
      | nil =>
        simp only [List.length_singleton, Nat.sub_self, pow_zero, mul_one]
        exact lt_of_not_le hsize
      | cons dir2 rest2 =>
        have h := ih _ leafs1 l1 c n k1 hex.mono hbc
          (by simp only [NodeData.createChild, NodeData.new]; exact hhalf) hp (by simp)
        simp only [NodeData.createChild, NodeData.new, List.length_cons,
          Nat.add_sub_cancel] at h ⊢
        rw [hhalf] at h
        rw [hs, pow_succ, pow_succ]
        linarith

theorem depth_le_clog (minBatch size : ℚ) (d : ℕ) (hmin : 0 < minBatch)
    (h : minBatch * 2 ^ (d - 1) < size) : (d : ℤ) ≤ Int.clog 2 (size / minBatch) := by
  have hsize : 0 < size := lt_of_le_of_lt (by positivity) h
  have hr : 0 < size / minBatch := div_pos hsize hmin
  have h1 : ((2 : ℕ) : ℚ) ^ (((d - 1 : ℕ) : ℤ)) < size / minBatch := by
    rw [lt_div_iff₀ hmin, zpow_natCast]
    push_cast
    linarith
  have h2 := (Int.zpow_lt_iff_lt_clog (by norm_num : 1 < 2) hr).1 h1
  omega

theorem Built.no_children_of_leaf_size {w : World} {node : NodeData} {leafs l : List NodeId}
    {t : QuadTreeNode} (h : Built w node leafs t l) (hs : t.getSize ≤ w.mMinBatchSize) :
    t.hasChildren = false := by
  obtain ⟨e1, _, _, _⟩ := h.data_eq
  have hs1 : node.mSize ≤ w.mMinBatchSize := by
    have : t.getSize = node.mSize := e1
    rw [← this]; exact hs
  cases h with
  | leafData _ _ minZ maxZ hsize hdata => rfl
  | leafNoData _ _ hsize hdata => rfl
  | outside _ _ hsize hout => rfl
  | subdivide _ _ _ _ _ _ _ _ _ _ hsize hout _ _ _ _ => exact absurd hs1 hsize

/-- The centres of the children in exact arithmetic. -/
theorem World.childCenter_of_exact (w : World) (hr : ∀ x, w.round x = x) (node : NodeData)
    (dir : ChildDirection) (hd : dir ≠ .Root) :
    w.childCenter node dir = ⟨node.mCenter.x + dir.signX * (node.mSize / 4),
      node.mCenter.y + dir.signY * (node.mSize / 4)⟩ := by
  cases dir <;>
    simp only [World.childCenter, Vector2.subScalar, Vector2.add, Vector2.addScalar, hr,
      ChildDirection.signX, ChildDirection.signY, Vector2.mk.injEq, ne_eq, not_true_eq_false]
      at hd ⊢ <;>
    (constructor <;> ring)

/-- When the run on one of the four children does not end, whatever the leaf
list it starts from, the run on the node does not end. -/
theorem buildQuadTree_none_of_child (w : World) (fuel : ℕ) (node : NodeData)
    (leafs : List NodeId) (hsize : ¬ node.mSize ≤ w.mMinBatchSize)
    (hout : w.outOfBounds node.mCenter (w.round (node.mSize / 2)) = false)
    (dir : ChildDirection) (hd : dir ≠ .Root)
    (h : ∀ leafs1, w.buildQuadTree fuel (node.createChild dir (w.round (node.mSize / 2))
      (w.childCenter node dir)) leafs1 = none) :
    w.buildQuadTree (fuel + 1) node leafs = none := by
  rw [World.buildQuadTree]
  simp only [hsize, if_false, hout, Bool.false_eq_true]
  cases dir with
  | Root => exact absurd rfl hd
  | SW =>
    have h1 := h leafs
    simp only [World.childCenter] at h1
    rw [h1]
  | SE =>
    cases hsw : w.buildQuadTree fuel (node.createChild .SW (w.round (node.mSize / 2))
      (node.mCenter.subScalar w.round (w.round (w.round (node.mSize / 2) / 2)))) leafs with
    | none => rfl
    | some r1 =>
      obtain ⟨swT, l1⟩ := r1
      dsimp only
      have h1 := h l1
      simp only [World.childCenter] at h1
      rw [h1]
  | NW =>
    cases hsw : w.buildQuadTree fuel (node.createChild .SW (w.round (node.mSize / 2))
      (node.mCenter.subScalar w.round (w.round (w.round (node.mSize / 2) / 2)))) leafs with
    | none => rfl
    | some r1 =>
      obtain ⟨swT, l1⟩ := r1
      dsimp only
      cases hse : w.buildQuadTree fuel (node.createChild .SE (w.round (node.mSize / 2))
        (node.mCenter.add w.round ⟨w.round (w.round (node.mSize / 2) / 2),
          w.round (-w.round (node.mSize / 2) / 2)⟩)) l1 with
      | none => rfl
      | some r2 =>
        obtain ⟨seT, l2⟩ := r2
        dsimp only
        have h1 := h l2
        simp only [World.childCenter] at h1
        rw [h1]
  | NE =>
    cases hsw : w.buildQuadTree fuel (node.createChild .SW (w.round (node.mSize / 2))
      (node.mCenter.subScalar w.round (w.round (w.round (node.mSize / 2) / 2)))) leafs with
    | none => rfl
    | some r1 =>
      obtain ⟨swT, l1⟩ := r1
      dsimp only
      cases hse : w.buildQuadTree fuel (node.createChild .SE (w.round (node.mSize / 2))
        (node.mCenter.add w.round ⟨w.round (w.round (node.mSize / 2) / 2),
          w.round (-w.round (node.mSize / 2) / 2)⟩)) l1 with
      | none => rfl
      | some r2 =>
        obtain ⟨seT, l2⟩ := r2
        dsimp only
        cases hnw : w.buildQuadTree fuel (node.createChild .NW (w.round (node.mSize / 2))
          (node.mCenter.add w.round ⟨w.round (-w.round (node.mSize / 2) / 2),
            w.round (w.round (node.mSize / 2) / 2)⟩)) l2 with
        | none => rfl
        | some r3 =>
          obtain ⟨nwT, l3⟩ := r3
          dsimp only
          have h1 := h l3
          simp only [World.childCenter] at h1
          rw [h1]

/-- In exact arithmetic, with a minimum batch size of at most zero, a node of
positive size whose square meets the grid bounds is subdivided for ever:
whatever the fuel, the run of `buildQuadTree` does not end. -/
theorem buildQuadTree_diverges (w : World) (hr : ∀ x, w.round x = x)
    (hmin : w.mMinBatchSize ≤ 0) (fuel : ℕ) :
    ∀ (node : NodeData) (leafs : List NodeId), 0 < node.mSize →
      (∃ p, node.covers p ∧ w.inBounds p) → w.buildQuadTree fuel node leafs = none := by
  induction fuel with
  | zero => intro node leafs _ _; rfl
  | succ f ih =>
    intro node leafs hpos hp
    obtain ⟨p, ⟨c1, c2, c3, c4⟩, ⟨b1, b2, b3, b4⟩⟩ := hp
    have hsize : ¬ node.mSize ≤ w.mMinBatchSize := by
      intro h; linarith
    have hout : w.outOfBounds node.mCenter (w.round (node.mSize / 2)) = false := by
      simp only [World.outOfBounds, hr, decide_eq_false_iff_not, not_or, not_lt, gt_iff_lt]
      refine ⟨?_, ?_, ?_, ?_⟩ <;> linarith
    have hhalf : 0 < node.mSize / 2 := by linarith
    have step : ∀ dir : ChildDirection, dir ≠ .Root →
        0 ≤ dir.signX * (p.x - node.mCenter.x) → 0 ≤ dir.signY * (p.y - node.mCenter.y) →
        w.buildQuadTree (f + 1) node leafs = none := by
      intro dir hd hx hy
      apply buildQuadTree_none_of_child w f node leafs hsize hout dir hd
      intro leafs1
      apply ih _ leafs1
      · simp only [NodeData.createChild, NodeData.new, hr]
        exact hhalf
      · refine ⟨p, ?_, b1, b2, b3, b4⟩
        rw [w.childCenter_of_exact hr node dir hd]
        simp only [NodeData.covers, NodeData.createChild, NodeData.new, hr]
        rcases ChildDirection.signX_cases dir hd with sx | sx <;>
          rcases ChildDirection.signY_cases dir hd with sy | sy <;>
          rw [sx] at hx ⊢ <;> rw [sy] at hy ⊢ <;>
          (refine ⟨?_, ?_, ?_, ?_⟩ <;> linarith)
    by_cases hx : p.x ≤ node.mCenter.x <;> by_cases hy : p.y ≤ node.mCenter.y
    · exact step .SW (by simp) (by simp only [ChildDirection.signX]; linarith)
        (by simp only [ChildDirection.signY]; linarith)
    · exact step .NW (by simp) (by simp only [ChildDirection.signX]; linarith)
        (by simp only [ChildDirection.signY]; linarith)
    · exact step .SE (by simp) (by simp only [ChildDirection.signX]; linarith)
        (by simp only [ChildDirection.signY]; linarith)
    · exact step .NE (by simp) (by simp only [ChildDirection.signX]; linarith)
        (by simp only [ChildDirection.signY]; linarith)

/-- C12, as amended: for every root size that is a power of two `2^k`, every
minimum batch size of at least 1, every grid bounds and storage,
`buildQuadTree` terminates (with fuel `k + 1` or more it returns a tree), in
single precision, where a power of two is at most `2^127`, and in exact
arithmetic alike; in the tree every child has half the size of its parent, a
node of size at most the minimum batch size has no children, and no node lies
more than `max (0, ceil (log2 (rootSize / minBatchSize)))` levels below the
root. With a minimum batch size of at most 0 and exact arithmetic, the run on
a node of positive size whose square meets the grid bounds does not
terminate: it returns for no fuel. -/
theorem buildQuadTree_terminates (w : World) :
    (((w.round = f32Round) ∨ (∀ x, w.round x = x)) →
      ∀ (k fuel : ℕ) (node : NodeData) (leafs : List NodeId),
        (w.round = f32Round → k ≤ 127) →
        node.mSize = 2 ^ k → 1 ≤ w.mMinBatchSize → k + 1 ≤ fuel →
        ∃ t l, w.buildQuadTree fuel node leafs = some (t, l)
          ∧ ∀ path n, t.descend path = some n →
              (∀ dir c, n.getChild dir = some c → c.getSize = n.getSize / 2)
                ∧ (n.getSize ≤ w.mMinBatchSize → n.hasChildren = false)
                ∧ (path.length : ℤ) ≤ max 0 (Int.clog 2 (node.mSize / w.mMinBatchSize)))
      ∧ ((∀ x, w.round x = x) →
          ∀ (fuel : ℕ) (node : NodeData) (leafs : List NodeId),
          w.mMinBatchSize ≤ 0 → 0 < node.mSize → (∃ p, node.covers p ∧ w.inBounds p) →
          w.buildQuadTree fuel node leafs = none) := by
  constructor
  · intro harith k fuel node leafs _ hs hmin hf
    have hex : HalvesPowers w.round k := by
      rcases harith with h | h
      · rw [h]; exact halvesPowers_f32Round k
      · exact halvesPowers_of_exact w.round h k
    obtain ⟨t, l, hb⟩ := buildQuadTree_returns w hmin k fuel node leafs hex hs hf
    refine ⟨t, l, hb, ?_⟩
    intro path n hn
    have hbuilt := Built.of_buildQuadTree w fuel node leafs t l hb
    obtain ⟨node1, leafs1, l1, hbn, _⟩ := hbuilt.descend path n hn
    refine ⟨?_, hbn.no_children_of_leaf_size, ?_⟩
    · intro dir c hc
      obtain ⟨j, hj, hsz⟩ := Built.size_descend hmin path node leafs l t n k hex hbuilt hs hn
      obtain ⟨hnl, _, _, _⟩ := hbn.child dir c hc
      have e1 := (hbn.child_data dir c hc).1
      have hj0 : j ≠ 0 := by
        rintro rfl
        apply hnl
        rw [← hbn.data_eq.1, hsz]
        simpa using hmin
      obtain ⟨j1, rfl⟩ : ∃ j1, j = j1 + 1 := ⟨j - 1, by omega⟩
      show c.data.mSize = n.data.mSize / 2
      rw [e1, hsz, hex j1 (by omega), pow_succ]
      ring
    · by_cases hp : path = []
      · subst hp
        simp
      · have hlt := Built.depth_lt hmin path node leafs l t n k hex hbuilt hs hn hp
        exact le_trans (depth_le_clog _ _ _ (by linarith) hlt) (le_max_right _ _)
  · intro hr fuel node leafs hmin hpos hp
    exact buildQuadTree_diverges w hr hmin fuel node leafs hpos hp

/-- Witness of C12 as amended: the example world in single precision, root
size `128 = 2^7` and minimum batch size 16, where the bound is
`ceil (log2 8) = 3`; and the example world with exact arithmetic and the
minimum batch size 0, where the run from the root does not end. -/
theorem buildQuadTree_terminates_witness :
    exampleWorld.round = f32Round
      ∧ exampleRoot.mSize = 2 ^ 7
      ∧ 1 ≤ exampleWorld.mMinBatchSize
      ∧ Int.clog 2 (exampleRoot.mSize / exampleWorld.mMinBatchSize) = 3
      ∧ (∃ t l, exampleWorld.buildQuadTree 8 exampleRoot [] = some (t, l)
          ∧ ∀ path n, t.descend path = some n →
              (∀ dir c, n.getChild dir = some c → c.getSize = n.getSize / 2)
                ∧ (n.getSize ≤ exampleWorld.mMinBatchSize → n.hasChildren = false)
                ∧ (path.length : ℤ)
                    ≤ max 0 (Int.clog 2 (exampleRoot.mSize / exampleWorld.mMinBatchSize)))
      ∧ (∀ x, exactWorld.round x = x)
      ∧ exactWorld.mMinBatchSize ≤ 0
      ∧ exactWorld.buildQuadTree 1000 exampleRoot [] = none := by
  have h1 : exampleRoot.mSize = 2 ^ 7 := by decide!
  have h2 : (1 : ℚ) ≤ exampleWorld.mMinBatchSize := by decide!
  refine ⟨rfl, h1, h2, ?_,
    (buildQuadTree_terminates exampleWorld).1 (Or.inl rfl) 7 8 exampleRoot []
      (fun _ => by decide) h1 h2 (by decide),
    fun _ => rfl, by decide!,
    (buildQuadTree_terminates exactWorld).2 (fun _ => rfl) 1000
      exampleRoot [] (by decide!) (by decide!) ⟨⟨50, 30⟩, ?_, ?_⟩⟩
  · have h3 : exampleRoot.mSize / exampleWorld.mMinBatchSize = ((2 : ℕ) : ℚ) ^ (3 : ℤ) := by
      decide!
    rw [h3, Int.clog_zpow (by norm_num)]
  · unfold NodeData.covers
    decide!
  · unfold World.inBounds
    decide!

/-- C12 as stated fails in its depth bound: with bounds (0,0)-(1,1) and
minimum batch size 4 the root has size `1 = 2^0`, the tree is the root alone,
0 levels below itself, and `ceil (log2 (1 / 4))` is `-2`. -/
theorem buildQuadTree_terminates_counterexample :
    rootNode f32Round (flatStorage 0 1 0 1) = some smallRoot
      ∧ smallRoot.mSize = 2 ^ 0
      ∧ 1 ≤ smallWorld.mMinBatchSize
      ∧ smallWorld.buildQuadTree 1 smallRoot [] = some (smallTree, [[]])
      ∧ smallTree.hasChildren = false
      ∧ smallTree.descend [] = some smallTree
      ∧ Int.clog 2 (smallRoot.mSize / smallWorld.mMinBatchSize) = -2
      ∧ ¬ ((([] : List ChildDirection).length : ℤ)
            ≤ Int.clog 2 (smallRoot.mSize / smallWorld.mMinBatchSize)) := by
  have h : Int.clog 2 (smallRoot.mSize / smallWorld.mMinBatchSize) = -2 := by
    have h3 : smallRoot.mSize / smallWorld.mMinBatchSize = ((2 : ℕ) : ℚ) ^ (-2 : ℤ) := by
      decide!
    rw [h3, Int.clog_zpow (by norm_num)]
  refine ⟨by decide!, by decide!, by decide!, by decide!, by decide!, rfl, h, ?_⟩
  rw [h]
  decide


end Terrain

namespace MWRender

/-! ## Comparisons of `float`s -/

open Terrain (f32Round)

theorem Float32.add_zero_of_isFloat (x : Float32) (h : x.isFloat) :
    (Float32.finite 0).add x = x := by
  cases x with
  | finite q =>
    obtain ⟨h1, h2⟩ := h
    have h3 := abs_le.1 h2
    simp only [Float32.add, Float32.ofRat, zero_add, h1]
    rw [if_neg (not_lt.2 h3.2), if_neg (not_lt.2 h3.1)]
  | posInf => rfl
  | negInf => rfl
  | nan => rfl

theorem Float32.le_finite (a b : ℚ) :
    (Float32.finite a).le (.finite b) = decide (a ≤ b) := rfl

theorem Float32.lt_finite (a b : ℚ) :
    (Float32.finite a).lt (.finite b) = decide (a < b) := by
  simp only [Float32.lt, Float32.le]
  by_cases h : a < b
  · simp [h, le_of_lt h]
  · simp only [h, decide_False]
    by_cases h2 : a ≤ b
    · have : b ≤ a := le_of_not_lt h
      simp [h2, this]
    · simp [h2]

theorem Float32.max_finite (a b : ℚ) :
    Float32.max (.finite a) (.finite b) = .finite (Max.max a b) := by
  simp only [Float32.max, Float32.lt_finite, decide_eq_true_eq]
  by_cases h : a < b
  · rw [if_pos h, max_eq_right (le_of_lt h)]
  · rw [if_neg h, max_eq_left (le_of_not_lt h)]

theorem Float32.min_finite (a b : ℚ) :
    Float32.min (.finite a) (.finite b) = .finite (Min.min a b) := by
  simp only [Float32.min, Float32.lt_finite, decide_eq_true_eq]
  by_cases h : b < a
  · rw [if_pos h, min_eq_right (le_of_lt h)]
  · rw [if_neg h, min_eq_left (le_of_not_lt h)]

/-- The clamping of a value other than NaN to `[-L, L]` for a finite limit
`L` that is not negative: the chain of comparisons of `setPitch` gives the
larger of `-L` and the smaller of the value and `L`, a value within
`[-L, L]`. -/
theorem Float32.clamp_finite (L : ℚ) (hL : 0 ≤ L) (angle : Float32) (h : angle ≠ .nan) :
    (if angle.gt (.finite L) then Float32.finite L
      else if angle.lt (Float32.finite L).neg then (Float32.finite L).neg else angle)
        = Float32.max (Float32.finite L).neg (Float32.min angle (.finite L))
      ∧ (Float32.finite L).neg.le
          (if angle.gt (.finite L) then Float32.finite L
            else if angle.lt (Float32.finite L).neg then (Float32.finite L).neg else angle)
          = true
      ∧ (if angle.gt (.finite L) then Float32.finite L
            else if angle.lt (Float32.finite L).neg then (Float32.finite L).neg else angle).le
          (.finite L) = true := by
  have hnL : -L ≤ L := by linarith
  cases angle with
  | nan => exact absurd rfl h
  | posInf =>
    have e1 : Float32.posInf.gt (.finite L) = true := rfl
    have e2 : Float32.min Float32.posInf (.finite L) = .finite L := rfl
    rw [if_pos e1, e2]
    simp only [Float32.neg, Float32.max_finite, Float32.le_finite, max_eq_right hnL,
      decide_eq_true_eq]
    exact ⟨trivial, hnL, le_refl L⟩
  | negInf =>
    have e1 : Float32.negInf.gt (.finite L) = false := rfl
    have e2 : Float32.negInf.lt (Float32.finite L).neg = true := rfl
    have e3 : Float32.min Float32.negInf (.finite L) = .negInf := rfl
    have e4 : Float32.max (Float32.finite L).neg .negInf = (Float32.finite L).neg := rfl
    rw [e1, e2, e3, e4]
    simp only [Float32.neg, Float32.le_finite, decide_eq_true_eq, Bool.false_eq_true,
      if_false, if_true]
    exact ⟨trivial, le_refl _, hnL⟩
  | finite q =>
    simp only [Float32.gt, Float32.neg, Float32.lt_finite, Float32.min_finite,
      Float32.max_finite, decide_eq_true_eq]
    by_cases h1 : L < q
    · rw [if_pos h1, min_eq_right (le_of_lt h1), max_eq_right hnL]
      simp only [Float32.le_finite, decide_eq_true_eq]
      exact ⟨trivial, hnL, le_refl L⟩
    · rw [if_neg h1, min_eq_left (le_of_not_lt h1)]
      by_cases h4 : q < -L
      · rw [if_pos h4, max_eq_left (le_of_lt h4)]
        simp only [Float32.le_finite, decide_eq_true_eq]
        exact ⟨trivial, le_refl _, hnL⟩
      · rw [if_neg h4, max_eq_right (le_of_not_lt h4)]
        simp only [Float32.le_finite, decide_eq_true_eq]
        exact ⟨trivial, le_of_not_lt h4, le_of_not_lt h1⟩

/-- The clamping of the distance of a value other than NaN, with nearest 30
and furthest 800, lies between the lower limit and 800. -/
theorem clampedDistance_range (requested : Float32) (override : Bool)
    (h : requested ≠ .nan) :
    (override = false → (Float32.finite 10).le (clampedDistance requested override) = true
        ∧ (clampedDistance requested override).le (.finite 800) = true)
      ∧ (override = true → (Float32.finite 30).le (clampedDistance requested override) = true
        ∧ (clampedDistance requested override).le (.finite 800) = true) := by
  have key : ∀ lo : ℚ, lo ≤ 800 →
      (Float32.finite lo).le (if requested.ge (.finite 800) then Float32.finite 800
        else Float32.max requested (.finite lo)) = true
      ∧ (if requested.ge (.finite 800) then Float32.finite 800
        else Float32.max requested (.finite lo)).le (.finite 800) = true := by
    intro lo hlo
    cases requested with
    | nan => exact absurd rfl h
    | posInf =>
      have e : Float32.posInf.ge (.finite 800) = true := rfl
      rw [if_pos e]
      simp only [Float32.le_finite, decide_eq_true_eq]
      exact ⟨hlo, le_refl _⟩
    | negInf =>
      have e : Float32.negInf.ge (.finite 800) = false := rfl
      have e2 : Float32.max Float32.negInf (.finite lo) = .finite lo := rfl
      rw [e, e2]
      simp only [Float32.le_finite, decide_eq_true_eq, Bool.false_eq_true, if_false]
      exact ⟨le_refl _, hlo⟩
    | finite q =>
      simp only [Float32.ge, Float32.le_finite, Float32.max_finite, decide_eq_true_eq]
      by_cases h1 : (800 : ℚ) ≤ q
      · rw [if_pos h1]
        simp only [Float32.le_finite, decide_eq_true_eq]
        exact ⟨hlo, le_refl _⟩
      · rw [if_neg h1]
        simp only [Float32.le_finite, decide_eq_true_eq]
        exact ⟨le_max_right _ _, max_le (le_of_lt (lt_of_not_le h1)) hlo⟩
  constructor
  · intro ho
    subst ho
    have := key 10 (by norm_num)
    simpa only [clampedDistance, Bool.false_eq_true, if_false] using this
  · intro ho
    subst ho
    have := key 30 (by norm_num)
    simpa only [clampedDistance, if_true] using this

/-- The chain of comparisons of `setCameraDistance`, with nearest 30 and
furthest 800: the value it leaves in `v.z` is the clamped distance, and the
nearest flag is set exactly for an override with a value of at most 30. -/
theorem clamp_code_eq (z : Float32) (override : Bool) :
    (if z.ge (.finite 800) then Float32.finite 800
      else if override = false ∧ z.lt (.finite 10) then .finite 10
      else if override = true ∧ z.le (.finite 30) then .finite 30
      else z) = clampedDistance z override
    ∧ ((¬ z.ge (.finite 800) = true ∧ ¬ (override = false ∧ z.lt (.finite 10) = true)
        ∧ (override = true ∧ z.le (.finite 30) = true))
      ↔ (override = true ∧ z.le (.finite 30) = true)) := by
  constructor
  · cases override with
    | false =>
      simp only [clampedDistance, Float32.max, true_and, Bool.false_eq_true, false_and,
        if_false]
    | true =>
      simp only [clampedDistance, true_and, Bool.true_eq_false, false_and,
        if_false, if_true]
      by_cases h1 : z.ge (.finite 800) = true
      · simp only [h1, if_true]
      · simp only [h1, if_false, Bool.false_eq_true]
        cases z with
        | nan => rfl
        | posInf => rfl
        | negInf => rfl
        | finite q =>
          simp only [Float32.le_finite, Float32.max_finite, decide_eq_true_eq]
          by_cases h2 : q ≤ 30
          · rw [if_pos h2, max_eq_right h2]
          · rw [if_neg h2, max_eq_left (le_of_not_le h2)]
  · constructor
    · exact fun h => h.2.2
    · rintro ⟨h1, h2⟩
      refine ⟨?_, ?_, h1, h2⟩
      · cases z with
        | nan => simp [Float32.ge, Float32.le]
        | posInf => simp [Float32.le] at h2
        | negInf => simp [Float32.ge, Float32.le]
        | finite q =>
          simp only [Float32.le_finite, decide_eq_true_eq] at h2
          simp only [Float32.ge, Float32.le_finite, decide_eq_true_eq, not_le]
          linarith
      · rintro ⟨h3, _⟩
        rw [h1] at h3
        exact absurd h3 (by simp)

/-! ## The camera distance -/

theorem Camera.guard_eq_false (c : Camera) (h : ¬ c.plainFirstPerson) :
    (c.mFirstPersonView && !c.mPreviewMode && !c.mVanity.enabled) = false := by
  unfold Camera.plainFirstPerson at h
  cases h1 : c.mFirstPersonView <;> cases h2 : c.mPreviewMode <;>
    cases h3 : c.mVanity.enabled <;> simp_all

/-- What `setCameraDistance` does outside plain first-person view, with
nearest 30, furthest 800 and the position node at `pos`. -/
theorem Camera.setCameraDistance_result (c : Camera) (dist : Float32)
    (adjust override : Bool)
    (hplain : ¬ c.plainFirstPerson) (hn : c.mNearest = .finite 30)
    (hf : c.mFurthest = .finite 800)
    (pos : Vector3) (hpos : c.mCameraPosNode = some pos) :
    ∃ c1, c.setCameraDistance dist adjust override = some c1
      ∧ c1.mCameraPosNode = some
          ⟨if adjust then (Float32.finite 0).add pos.x else .finite 0,
            if adjust then (Float32.finite 0).add pos.y else .finite 0,
            clampedDistance (requestedDistance pos dist adjust) override⟩
      ∧ c1.mIsNearest
          = decide (override = true
              ∧ (requestedDistance pos dist adjust).le (.finite 30) = true) := by
  have hg := c.guard_eq_false hplain
  obtain ⟨hz, _⟩ := clamp_code_eq (requestedDistance pos dist adjust) override
  rw [← hz]
  unfold Camera.setCameraDistance
  simp only [hg, Bool.false_eq_true, if_false, hn, hf, Camera.setPosition, hpos]
  have hz0 : ∀ z : Float32, z.ge (.finite 800) = true → ¬ z.le (.finite 30) = true := by
    intro z h1 h2
    cases z with
    | nan => simp [Float32.le] at h2
    | posInf => simp [Float32.le] at h2
    | negInf => simp [Float32.ge, Float32.le] at h1
    | finite q =>
      simp only [Float32.ge, Float32.le_finite, decide_eq_true_eq] at h1 h2
      linarith
  cases adjust with
  | false =>
    simp only [requestedDistance, Bool.false_eq_true, if_false]
    cases override with
    | false =>
      simp only [true_and, Bool.false_eq_true, false_and, if_false, decide_False]
      by_cases h1 : dist.ge (.finite 800) = true
      · simp only [h1, if_true]
        exact ⟨_, rfl, rfl, rfl⟩
      · by_cases h2 : dist.lt (.finite 10) = true
        · simp only [h1, h2, if_true, if_false, Bool.false_eq_true]
          exact ⟨_, rfl, rfl, rfl⟩
        · simp only [h1, h2, if_false, Bool.false_eq_true]
          exact ⟨_, rfl, rfl, rfl⟩
    | true =>
      simp only [true_and, Bool.true_eq_false, false_and, if_false, if_true]
      by_cases h1 : dist.ge (.finite 800) = true
      · have h3 := hz0 dist h1
        simp only [h1, if_true, h3, decide_False]
        split_ifs <;> exact ⟨_, rfl, rfl, rfl⟩
      · by_cases h3 : dist.le (.finite 30) = true
        · simp only [h1, h3, if_true, if_false, Bool.false_eq_true, decide_True]
          split_ifs <;> exact ⟨_, rfl, rfl, rfl⟩
        · simp only [h1, h3, if_false, Bool.false_eq_true, decide_False]
          split_ifs <;> exact ⟨_, rfl, rfl, rfl⟩
  | true =>
    simp only [requestedDistance, if_true]
    cases override with
    | false =>
      simp only [true_and, Bool.false_eq_true, false_and, if_false, decide_False]
      by_cases h1 : (dist.add pos.z).ge (.finite 800) = true
      · simp only [h1, if_true]
        exact ⟨_, rfl, rfl, rfl⟩
      · by_cases h2 : (dist.add pos.z).lt (.finite 10) = true
        · simp only [h1, h2, if_true, if_false, Bool.false_eq_true]
          exact ⟨_, rfl, rfl, rfl⟩
        · simp only [h1, h2, if_false, Bool.false_eq_true]
          exact ⟨_, rfl, rfl, rfl⟩
    | true =>
      simp only [true_and, Bool.true_eq_false, false_and, if_false, if_true]
      by_cases h1 : (dist.add pos.z).ge (.finite 800) = true
      · have h3 := hz0 (dist.add pos.z) h1
        simp only [h1, if_true, h3, decide_False]
        split_ifs <;> exact ⟨_, rfl, rfl, rfl⟩
      · by_cases h3 : (dist.add pos.z).le (.finite 30) = true
        · simp only [h1, h3, if_true, if_false, Bool.false_eq_true, decide_True]
          split_ifs <;> exact ⟨_, rfl, rfl, rfl⟩
        · simp only [h1, h3, if_false, Bool.false_eq_true, decide_False]
          split_ifs <;> exact ⟨_, rfl, rfl, rfl⟩

/-- C13, as amended: `setCameraDistance (dist, adjust, override)` does
nothing in plain first-person view. Otherwise, with nearest 30 and furthest
800 and the position node at `pos`, it sets the position to `(x, y, z)` with
`x` and `y` those of `pos` when `adjust` is set (the `float` sums `0 + x` and
`0 + y`, which are `x` and `y` themselves) and 0 else, and `z` the requested
value clamped, where the requested value is `dist`, or the `float` sum of
`dist` and the `z` of `pos` when `adjust` is set: 800 when the requested value
is at least 800, else the larger of it and 10 without override and the larger
of it and 30 with override. When the requested value is not NaN, `z` lies in
[10, 800] without override and in [30, 800] with override. `isNearest` is true
afterwards if and only if override was set and the requested value was at
most 30. -/
theorem setCameraDistance_clamps (c : Camera) (dist : Float32) (adjust override : Bool) :
    (c.plainFirstPerson → c.setCameraDistance dist adjust override = some c)
      ∧ (¬ c.plainFirstPerson → c.mNearest = .finite 30 → c.mFurthest = .finite 800 →
          ∀ pos, c.mCameraPosNode = some pos →
          ∃ c1, c.setCameraDistance dist adjust override = some c1
            ∧ c1.mCameraPosNode = some
                ⟨if adjust then (Float32.finite 0).add pos.x else .finite 0,
                  if adjust then (Float32.finite 0).add pos.y else .finite 0,
                  clampedDistance (requestedDistance pos dist adjust) override⟩
            ∧ (pos.x.isFloat → pos.y.isFloat →
                (Float32.finite 0).add pos.x = pos.x ∧ (Float32.finite 0).add pos.y = pos.y)
            ∧ (requestedDistance pos dist adjust = .nan →
                clampedDistance (requestedDistance pos dist adjust) override = .nan)
            ∧ (requestedDistance pos dist adjust ≠ .nan →
                (override = false →
                  (Float32.finite 10).le
                      (clampedDistance (requestedDistance pos dist adjust) override) = true
                    ∧ (clampedDistance (requestedDistance pos dist adjust) override).le
                        (.finite 800) = true)
                ∧ (override = true →
                  (Float32.finite 30).le
                      (clampedDistance (requestedDistance pos dist adjust) override) = true
                    ∧ (clampedDistance (requestedDistance pos dist adjust) override).le
                        (.finite 800) = true))
            ∧ (c1.isNearest = true ↔
                override = true
                  ∧ (requestedDistance pos dist adjust).le (.finite 30) = true)) := by
  constructor
  · rintro ⟨h1, h2, h3⟩
    simp [Camera.setCameraDistance, h1, h2, h3]
  · intro hplain hn hf pos hpos
    obtain ⟨c1, h1, h2, h3⟩ :=
      c.setCameraDistance_result dist adjust override hplain hn hf pos hpos
    refine ⟨c1, h1, h2,
      fun hx hy => ⟨Float32.add_zero_of_isFloat _ hx, Float32.add_zero_of_isFloat _ hy⟩,
      fun hnan => by rw [hnan]; cases override <;> rfl,
      fun hnan => clampedDistance_range _ override hnan, ?_⟩
    rw [Camera.isNearest, h3]
    simp

/-- Witness of C13 as amended: the camera as constructed is in plain
first-person view and is left as it is; the third-person camera at (1,2,100),
asked with `adjust` and `override` for 90 less, gets the requested value 10
clamped to 30 and reports nearest. -/
theorem setCameraDistance_clamps_witness :
    Camera.new.plainFirstPerson
      ∧ Camera.new.setCameraDistance (.finite 50) false true = some Camera.new
      ∧ ¬ thirdPersonCamera.plainFirstPerson
      ∧ thirdPersonCamera.mNearest = .finite 30
      ∧ thirdPersonCamera.mFurthest = .finite 800
      ∧ thirdPersonCamera.mCameraPosNode = some ⟨.finite 1, .finite 2, .finite 100⟩
      ∧ requestedDistance ⟨.finite 1, .finite 2, .finite 100⟩ (.finite (-90)) true = .finite 10
      ∧ ∃ c1, thirdPersonCamera.setCameraDistance (.finite (-90)) true true = some c1
          ∧ c1.mCameraPosNode = some ⟨.finite 1, .finite 2, .finite 30⟩
          ∧ c1.isNearest = true := by
  have hp : Camera.new.plainFirstPerson := ⟨rfl, rfl, rfl⟩
  have hnp : ¬ thirdPersonCamera.plainFirstPerson := fun h => absurd h.1 (by decide)
  obtain ⟨c1, h1, h2, _, _, _, h5⟩ :=
    (setCameraDistance_clamps thirdPersonCamera (.finite (-90)) true true).2 hnp rfl rfl
      ⟨.finite 1, .finite 2, .finite 100⟩ rfl
  refine ⟨hp, (setCameraDistance_clamps Camera.new (.finite 50) false true).1 hp, hnp, rfl, rfl,
    rfl, by decide!, c1, h1, ?_, h5.2 ⟨rfl, by decide!⟩⟩
  rw [h2]
  decide!

/-- C13 as stated fails. For a distance that is NaN every comparison of the
clamping is false, and NaN is stored as the `z` of the position: it is not in
[10, 800] without override, nor in [30, 800] with override. And the requested
value is the `float` sum, not the exact one: for the camera at `z = 30`, asked
with `adjust` and `override` for `2^(-21)` more, the sum `30 + 2^(-21)` is
rounded to 30, the camera reports nearest, and the exact sum is above 30. -/
theorem setCameraDistance_clamps_counterexample :
    ¬ thirdPersonCamera.plainFirstPerson
      ∧ thirdPersonCamera.mNearest = .finite 30 ∧ thirdPersonCamera.mFurthest = .finite 800
      ∧ (thirdPersonCamera.setCameraDistance .nan false false).map (fun c => c.mCameraPosNode)
          = some (some ⟨.finite 0, .finite 0, .nan⟩)
      ∧ ¬ ((Float32.finite 10).le .nan = true ∧ Float32.nan.le (.finite 800) = true)
      ∧ (thirdPersonCamera.setCameraDistance .nan false true).map (fun c => c.mCameraPosNode)
          = some (some ⟨.finite 0, .finite 0, .nan⟩)
      ∧ ¬ ((Float32.finite 30).le .nan = true ∧ Float32.nan.le (.finite 800) = true)
      ∧ ¬ nearCamera.plainFirstPerson
      ∧ nearCamera.mCameraPosNode = some ⟨.finite 0, .finite 0, .finite 30⟩
      ∧ (nearCamera.setCameraDistance (.finite (1 / 2097152)) true true).map Camera.isNearest
          = some true
      ∧ ¬ ((1 : ℚ) / 2097152 + 30 ≤ 30) :=
  ⟨fun h => absurd h.1 (by decide), rfl, rfl, by decide!, by decide, by decide!, by decide,
    fun h => absurd h.1 (by decide), rfl, by decide!, by norm_num⟩

/-! ## The camera pitch -/

/-- The pitch limit as a number: `13176787 / 2^23`, and half of it in preview
mode. -/
theorem Camera.pitchLimit_eq (c : Camera) :
    c.pitchLimit = (if c.mPreviewMode then Float32.finite (13176787 / 16777216)
      else Float32.finite (13176787 / 8388608)) := by
  unfold Camera.pitchLimit
  cases c.mPreviewMode
  · simp only [Bool.false_eq_true, if_false]
    decide!
  · simp only [if_true]
    decide!

/-- The clamping of `setPitch` in terms of the pitch limit. -/
theorem Camera.setPitch_eq (c : Camera) (angle : Float32) :
    c.setPitch angle
      = if c.mVanity.enabled || c.mPreviewMode then
          { c with mPreviewCam :=
            { c.mPreviewCam with pitch :=
              (if angle.gt c.pitchLimit then c.pitchLimit
                else if angle.lt c.pitchLimit.neg then c.pitchLimit.neg else angle) } }
        else
          { c with mMainCam :=
            { c.mMainCam with pitch :=
              (if angle.gt c.pitchLimit then c.pitchLimit
                else if angle.lt c.pitchLimit.neg then c.pitchLimit.neg else angle) } } := rfl

/-- The value of `getPitch` after `setPitch`. -/
theorem Camera.getPitch_setPitch (c : Camera) (angle : Float32) :
    (c.setPitch angle).getPitch
      = if angle.gt c.pitchLimit then c.pitchLimit
        else if angle.lt c.pitchLimit.neg then c.pitchLimit.neg else angle := by
  rw [Camera.setPitch_eq]
  by_cases hm : (c.mVanity.enabled || c.mPreviewMode) = true
  · rw [if_pos hm]
    simp [Camera.getPitch, hm]
  · rw [if_neg hm]
    simp [Camera.getPitch, hm]

/-- C14, as amended: the pitch limit `L` of `setPitch` is the `float` that
`HALF_PI - 0.000001f` evaluates to in single precision, `13176787 / 2^23`,
halved when preview mode is on. For every angle `a` other than NaN and every
state of the camera, after `setPitch (a)` the value of `getPitch ()` is `a`
clamped to `[-L, L]`; a NaN angle is stored as it is. `setPitch` writes only
the pitch of the slot in use (the preview slot when vanity or preview mode is
on, the main slot otherwise): the pitch of the other slot, and yaw, roll and
offset of both slots, are as before, and so are the modes. -/
theorem setPitch_clamps (c : Camera) (angle : Float32) :
    c.pitchLimit = (if c.mPreviewMode then Float32.finite (13176787 / 16777216)
        else Float32.finite (13176787 / 8388608))
      ∧ (angle ≠ .nan →
          (c.setPitch angle).getPitch
              = Float32.max c.pitchLimit.neg (Float32.min angle c.pitchLimit)
            ∧ c.pitchLimit.neg.le (c.setPitch angle).getPitch = true
            ∧ (c.setPitch angle).getPitch.le c.pitchLimit = true)
      ∧ (angle = .nan → (c.setPitch angle).getPitch = .nan)
      ∧ ((c.mVanity.enabled || c.mPreviewMode) = true →
          (c.setPitch angle).mPreviewCam.pitch = (c.setPitch angle).getPitch
            ∧ (c.setPitch angle).mMainCam.pitch = c.mMainCam.pitch)
      ∧ ((c.mVanity.enabled || c.mPreviewMode) = false →
          (c.setPitch angle).mMainCam.pitch = (c.setPitch angle).getPitch
            ∧ (c.setPitch angle).mPreviewCam.pitch = c.mPreviewCam.pitch)
      ∧ (c.setPitch angle).mMainCam.yaw = c.mMainCam.yaw
      ∧ (c.setPitch angle).mMainCam.roll = c.mMainCam.roll
      ∧ (c.setPitch angle).mMainCam.offset = c.mMainCam.offset
      ∧ (c.setPitch angle).mPreviewCam.yaw = c.mPreviewCam.yaw
      ∧ (c.setPitch angle).mPreviewCam.roll = c.mPreviewCam.roll
      ∧ (c.setPitch angle).mPreviewCam.offset = c.mPreviewCam.offset
      ∧ (c.setPitch angle).mVanity = c.mVanity
      ∧ (c.setPitch angle).mPreviewMode = c.mPreviewMode
      ∧ (c.setPitch angle).mFirstPersonView = c.mFirstPersonView := by
  have hL := c.pitchLimit_eq
  have hclamp : angle ≠ .nan →
      (c.setPitch angle).getPitch
          = Float32.max c.pitchLimit.neg (Float32.min angle c.pitchLimit)
        ∧ c.pitchLimit.neg.le (c.setPitch angle).getPitch = true
        ∧ (c.setPitch angle).getPitch.le c.pitchLimit = true := by
    intro hnan
    rw [Camera.getPitch_setPitch]
    cases hp : c.mPreviewMode
    · rw [hp] at hL
      simp only [Bool.false_eq_true, if_false] at hL
      rw [hL]
      exact Float32.clamp_finite _ (by norm_num) angle hnan
    · rw [hp] at hL
      simp only [if_true] at hL
      rw [hL]
      exact Float32.clamp_finite _ (by norm_num) angle hnan
  have hnan : angle = .nan → (c.setPitch angle).getPitch = .nan := by
    intro h
    rw [Camera.getPitch_setPitch, h]
    cases hp : c.mPreviewMode
    · rw [hp] at hL
      simp only [Bool.false_eq_true, if_false] at hL
      rw [hL]
      rfl
    · rw [hp] at hL
      simp only [if_true] at hL
      rw [hL]
      rfl
  refine ⟨hL, hclamp, hnan, ?_⟩
  rw [Camera.getPitch_setPitch, Camera.setPitch_eq]
  by_cases hm : (c.mVanity.enabled || c.mPreviewMode) = true
  · rw [if_pos hm]
    refine ⟨fun _ => ⟨rfl, rfl⟩, fun h => ?_, rfl, rfl, rfl, rfl, rfl, rfl, rfl, rfl, rfl⟩
    rw [hm] at h
    exact absurd h (by simp)
  · rw [if_neg hm]
    exact ⟨fun h => absurd h hm, fun _ => ⟨rfl, rfl⟩, rfl, rfl, rfl, rfl, rfl, rfl, rfl, rfl, rfl⟩

/-- Witness of C14 as amended: the third-person camera, main slot in use,
asked for the pitch 2, gets the limit `13176787 / 2^23`; its preview slot
keeps its pitch. -/
theorem setPitch_clamps_witness :
    (thirdPersonCamera.mVanity.enabled || thirdPersonCamera.mPreviewMode) = false
      ∧ Float32.finite 2 ≠ .nan
      ∧ (thirdPersonCamera.setPitch (.finite 2)).getPitch = .finite (13176787 / 8388608)
      ∧ (thirdPersonCamera.setPitch (.finite 2)).mPreviewCam.pitch
          = thirdPersonCamera.mPreviewCam.pitch := by
  obtain ⟨h1, h2, _, _, h5, _⟩ := setPitch_clamps thirdPersonCamera (.finite 2)
  have h3 := (h2 (by decide)).1
  refine ⟨rfl, by decide, ?_, (h5 rfl).2⟩
  rw [h3, h1]
  decide!

/-- C14 as stated fails. The limit is not `HALF_PI - 0.000001` but the
`float` next to it, `13176787 / 2^23`, which is larger: asked for the pitch 2,
the third-person camera gets a pitch above `HALF_PI - 0.000001`. And a NaN
angle passes both comparisons and is stored: the pitch is then NaN, which is
not within `[-L, L]`. -/
theorem setPitch_clamps_counterexample :
    (thirdPersonCamera.setPitch (.finite 2)).getPitch = .finite (13176787 / 8388608)
      ∧ ¬ ((13176787 : ℚ) / 8388608 ≤ 13176795 / 8388608 - 1 / 1000000)
      ∧ (thirdPersonCamera.setPitch .nan).getPitch = .nan
      ∧ ¬ (thirdPersonCamera.pitchLimit.neg.le (thirdPersonCamera.setPitch .nan).getPitch = true
          ∧ (thirdPersonCamera.setPitch .nan).getPitch.le thirdPersonCamera.pitchLimit = true) := by
  refine ⟨by decide!, by norm_num, by decide!, by decide!⟩

end MWRender
